import Mathlib

/-!
# The avahi probe scheduler (`avahi-core/probe-sched.c`)

A shallow embedding of the probe scheduler: the job queue, `job_new`, `job_free`,
`avahi_probe_scheduler_clear`, `packet_add_probe_query`, `elapse_callback` and
`avahi_probe_scheduler_post`.

Conventions of the embedding.

* The intrusive list `s->jobs` is a `List`, head of the C list first.  A job pointer
  `pj` is the position of the job in that list.
* The packet codec, the record and key types, the time event queue and the interface
  are not part of the unit.  What the unit calls from them is collected in `Codec`
  (the pure queries) and in `Effect` (the calls that change the outside world, which
  the scheduler appends, in program order, to `AvahiProbeScheduler.effects`).
* A packet is represented by what the unit did to it: the capacity it was created with,
  the keys and records appended so far, and the two header counters.
* `guint` arithmetic is reduced modulo `2^32`.
* A failed `g_assert` ends the run: functions that can hit one return `Except Abort`.
-/

namespace ProbeSched

/-! ## Data model -/

/-- Reduction of a natural number to the range of a 32-bit `guint`. -/
def guint (n : Nat) : Nat := n % 4294967296

/-- The defer interval of line 29, in milliseconds. -/
def AVAHI_PROBE_DEFER_MSEC : Nat := 70

/-- Modelled from the spec: `AvahiKey` is declared outside the unit; the unit reads
`name`, `class` (here `clazz`) and passes a type to `avahi_key_new`. -/
structure AvahiKey where
  name : String
  clazz : Nat
  type : Nat
deriving DecidableEq, Repr

/-- Modelled from the spec: `AvahiRecord` is declared outside the unit; the unit only
reads `record->key`, the payload is never inspected. -/
structure AvahiRecord where
  key : AvahiKey
  ttl : Nat
  data : List Nat
deriving DecidableEq, Repr

/-- Modelled from the spec: `AvahiDnsPacket` is declared outside the unit.  The packet is
recorded as its history: creation capacity, keys appended to the question section,
records appended to the authority section, and the QDCOUNT and NSCOUNT header fields. -/
structure AvahiDnsPacket where
  max_size : Nat
  questions : List AvahiKey
  authority : List AvahiRecord
  qdcount : Nat
  nscount : Nat
deriving DecidableEq, Repr

/-- The two header fields the unit writes with `avahi_dns_packet_set_field`. -/
inductive AvahiDnsField where
  | QDCOUNT
  | NSCOUNT
deriving DecidableEq, Repr

/-- The `struct AvahiProbeJob` of lines 33-43.  `time_event` is `none` for a `NULL`
pointer and `some e` for the handle `e`; `delivery` is a time in milliseconds.  The
`scheduler` back pointer and the list links are carried by the enclosing list. -/
structure AvahiProbeJob where
  time_event : Option Nat
  chosen : Bool
  delivery : Nat
  record : AvahiRecord
deriving DecidableEq, Repr

/-- Calls by which the unit changes the world outside of its own queue. -/
inductive Effect where
  | record_ref (r : AvahiRecord)
  | record_unref (r : AvahiRecord)
  | time_event_queue_add (e : Nat) (delivery : Nat)
  | time_event_queue_remove (e : Nat)
  | send_packet (p : AvahiDnsPacket)
  | warning (msg : String)
deriving DecidableEq, Repr

/-- The `struct AvahiProbeScheduler` of lines 45-50: the job list, head first.  The
interface and the time event queue are outside of the unit: `effects` is the sequence of
calls made into them (and into the record reference counts) so far, and
`next_time_event` is the handle the time event queue will hand out next. -/
structure AvahiProbeScheduler where
  jobs : List AvahiProbeJob
  effects : List Effect
  next_time_event : Nat
deriving DecidableEq, Repr

/-- Modelled from the spec: the collaborators of section 6 that are not part of the unit,
taken as parameters.  `mtu` is `s->interface->hardware->mtu`; `key_fits p k` and
`record_fits p r` say whether `avahi_dns_packet_append_key` and
`avahi_dns_packet_append_record` succeed on packet `p`. -/
structure Codec where
  mtu : Nat
  AVAHI_DNS_PACKET_HEADER_SIZE : Nat
  AVAHI_DNS_PACKET_MAX_SIZE : Nat
  AVAHI_DNS_TYPE_ANY : Nat
  avahi_dns_packet_space : AvahiDnsPacket → Nat
  avahi_key_get_estimate_size : AvahiKey → Nat
  avahi_record_get_estimate_size : AvahiRecord → Nat
  key_fits : AvahiDnsPacket → AvahiKey → Bool
  record_fits : AvahiDnsPacket → AvahiRecord → Bool
  avahi_domain_equal : String → String → Bool
  avahi_key_is_pattern : AvahiKey → Bool

/-- The `g_assert` calls of the unit that can fail on a queue of this embedding. -/
inductive Abort where
  | assert_pj
  | assert_not_chosen
  | assert_append_key
  | assert_not_pattern
deriving DecidableEq, Repr

/-! ## Collaborator calls -/

/-- Modelled from the spec: `avahi_key_new(name, class, type)`. -/
def avahi_key_new (name : String) (clazz : Nat) (type : Nat) : AvahiKey :=
  { name := name, clazz := clazz, type := type }

/-- Modelled from the spec: `avahi_dns_packet_new_query(size)`, an empty query packet of the
requested capacity. -/
def avahi_dns_packet_new_query (size : Nat) : AvahiDnsPacket :=
  { max_size := size, questions := [], authority := [], qdcount := 0, nscount := 0 }

/-- Modelled from the spec: `avahi_dns_packet_append_key(p, k, FALSE)`; `none` is the `NULL`
return, which leaves the packet as it was. -/
def avahi_dns_packet_append_key (c : Codec) (p : AvahiDnsPacket) (k : AvahiKey) :
    Option AvahiDnsPacket :=
  if c.key_fits p k then some { p with questions := p.questions ++ [k] } else none

/-- Modelled from the spec: `avahi_dns_packet_append_record(p, r, FALSE, 0)`; `none` is the
`NULL` return, which leaves the packet as it was. -/
def avahi_dns_packet_append_record (c : Codec) (p : AvahiDnsPacket) (r : AvahiRecord) :
    Option AvahiDnsPacket :=
  if c.record_fits p r then some { p with authority := p.authority ++ [r] } else none

/-- Modelled from the spec: `avahi_dns_packet_set_field(p, field, value)`. -/
def avahi_dns_packet_set_field (p : AvahiDnsPacket) (f : AvahiDnsField) (v : Nat) :
    AvahiDnsPacket :=
  match f with
  | .QDCOUNT => { p with qdcount := v }
  | .NSCOUNT => { p with nscount := v }

/-- Modelled from the spec: `avahi_elapse_time(&tv, msec, 0)`, the time `msec` milliseconds
after `now`, without jitter. -/
def avahi_elapse_time (now : Nat) (msec : Nat) : Nat := now + msec

/-! ## The unit -/

/-- Lines 52-67.  The job takes a reference to the record, has no time event yet, is not
chosen, and `AVAHI_LLIST_PREPEND` links it in front of the current head, so the new job
is the head of the list afterwards.  `delivery` is not initialised here (the caller
writes it at line 267); the embedding puts 0. -/
def job_new (s : AvahiProbeScheduler) (record : AvahiRecord) : AvahiProbeScheduler :=
  let pj : AvahiProbeJob :=
    { time_event := none, chosen := false, delivery := 0, record := record }
  { s with jobs := pj :: s.jobs, effects := s.effects ++ [Effect.record_ref record] }

/-- The calls `job_free` makes for job `pj`: the time event is removed when the handle is
not `NULL`, then the record reference is released. -/
def job_free_effects (pj : AvahiProbeJob) : List Effect :=
  (match pj.time_event with
   | some e => [Effect.time_event_queue_remove e]
   | none => []) ++ [Effect.record_unref pj.record]

/-- Lines 69-79, for the job at position `i`. -/
def job_free (s : AvahiProbeScheduler) (i : Nat) : AvahiProbeScheduler :=
  match s.jobs[i]? with
  | none => s
  | some pj =>
    { s with jobs := s.jobs.eraseIdx i, effects := s.effects ++ job_free_effects pj }

/-- Lines 82-94: a scheduler with an empty job list. -/
def avahi_probe_scheduler_new : AvahiProbeScheduler :=
  { jobs := [], effects := [], next_time_event := 0 }

/-- Lines 103-108, `while (s->jobs) job_free(s, s->jobs);` run for at most `fuel`
iterations; `none` when the loop has not ended by then. -/
def avahi_probe_scheduler_clear : Nat → AvahiProbeScheduler → Option AvahiProbeScheduler
  | 0, s => if s.jobs.isEmpty then some s else none
  | fuel + 1, s =>
    if s.jobs.isEmpty then some s else avahi_probe_scheduler_clear fuel (job_free s 0)

/-- Lines 138-153: the scan for more jobs with a matching key, over the jobs from the
list head on.  `p` is the packet after the question was appended. -/
def scan_matching (c : Codec) (p : AvahiDnsPacket) (k : AvahiKey) :
    List AvahiProbeJob → List AvahiProbeJob
  | [] => []
  | pj :: rest =>
    if pj.chosen then pj :: scan_matching c p k rest
    else if k.clazz ≠ pj.record.key.clazz
        ∨ c.avahi_domain_equal k.name pj.record.key.name = false then
      pj :: scan_matching c p k rest
    else if c.avahi_record_get_estimate_size pj.record > c.avahi_dns_packet_space p then
      pj :: rest
    else { pj with chosen := true } :: scan_matching c p k rest

/-- Lines 110-158, for the job at position `i`.  Returns the scheduler, the packet and the
boolean result. -/
def packet_add_probe_query (c : Codec) (s : AvahiProbeScheduler) (p : AvahiDnsPacket)
    (i : Nat) : Except Abort (AvahiProbeScheduler × AvahiDnsPacket × Bool) :=
  match s.jobs[i]? with
  | none => .error .assert_pj
  | some pj =>
    if pj.chosen then .error .assert_not_chosen
    else
      let size := guint (c.avahi_key_get_estimate_size pj.record.key
        + c.avahi_record_get_estimate_size pj.record)
      if size > c.avahi_dns_packet_space p then .ok (s, p, false)
      else
        let k := avahi_key_new pj.record.key.name pj.record.key.clazz c.AVAHI_DNS_TYPE_ANY
        match avahi_dns_packet_append_key c p k with
        | none => .error .assert_append_key
        | some p1 =>
          let jobs1 := s.jobs.set i { pj with chosen := true }
          .ok ({ s with jobs := scan_matching c p1 k jobs1 }, p1, true)

/-- Lines 209-219: the loop that fills the packet with more probes.  `i` is the position of
the cursor `pj`, `todo` bounds the number of remaining iterations (the list length is
enough), `n` is the question counter. -/
def fill_loop (c : Codec) :
    Nat → Nat → AvahiProbeScheduler → AvahiDnsPacket → Nat →
      Except Abort (AvahiProbeScheduler × AvahiDnsPacket × Nat)
  | 0, _, s, p, n => .ok (s, p, n)
  | todo + 1, i, s, p, n =>
    match s.jobs[i]? with
    | none => .ok (s, p, n)
    | some pj =>
      if pj.chosen then fill_loop c todo (i + 1) s p n
      else
        match packet_add_probe_query c s p i with
        | .error e => .error e
        | .ok (s1, p1, false) => .ok (s1, p1, n)
        | .ok (s1, p1, true) => fill_loop c todo (i + 1) s1 p1 (guint (n + 1))

/-- Lines 236-238: `for (; pj; pj = pj->jobs_next) pj->chosen = FALSE;` from position `i`. -/
def unmark_following (i : Nat) (jobs : List AvahiProbeJob) : List AvahiProbeJob :=
  jobs.take i ++ (jobs.drop i).map (fun pj => { pj with chosen := false })

/-- Lines 225-246: the loop that appends the chosen records to the authority section.
`i` is the position of the cursor; after `job_free` the saved `next` is at position `i`
again. `todo` bounds the number of remaining iterations, `n` counts the records. -/
def authority_loop (c : Codec) :
    Nat → Nat → AvahiProbeScheduler → AvahiDnsPacket → Nat →
      AvahiProbeScheduler × AvahiDnsPacket × Nat
  | 0, _, s, p, n => (s, p, n)
  | todo + 1, i, s, p, n =>
    match s.jobs[i]? with
    | none => (s, p, n)
    | some pj =>
      if pj.chosen = false then authority_loop c todo (i + 1) s p n
      else
        match avahi_dns_packet_append_record c p pj.record with
        | none =>
          ({ s with jobs := unmark_following i s.jobs,
                    effects := s.effects ++ [Effect.warning "Bad probe size estimate!"] }, p, n)
        | some p1 => authority_loop c todo i (job_free s i) p1 (guint (n + 1))

/-- Lines 173-207: the branch taken when the probe did not fit the MTU-sized packet. -/
def elapse_large (c : Codec) (s : AvahiProbeScheduler) (i : Nat) (pj : AvahiProbeJob) :
    AvahiProbeScheduler :=
  let size := guint (c.avahi_key_get_estimate_size pj.record.key
    + c.avahi_record_get_estimate_size pj.record + c.AVAHI_DNS_PACKET_HEADER_SIZE)
  let size := if size > c.AVAHI_DNS_PACKET_MAX_SIZE then c.AVAHI_DNS_PACKET_MAX_SIZE else size
  let p := avahi_dns_packet_new_query size
  let k := avahi_key_new pj.record.key.name pj.record.key.clazz c.AVAHI_DNS_TYPE_ANY
  let b : Option AvahiDnsPacket :=
    match avahi_dns_packet_append_key c p k with
    | none => none
    | some p1 => avahi_dns_packet_append_record c p1 pj.record
  let s1 : AvahiProbeScheduler :=
    match b with
    | some p2 =>
      let p3 := avahi_dns_packet_set_field p2 .NSCOUNT 1
      let p4 := avahi_dns_packet_set_field p3 .QDCOUNT 1
      { s with effects := s.effects ++ [Effect.send_packet p4] }
    | none =>
      { s with effects := s.effects ++ [Effect.warning "Probe record too large, cannot send"] }
  job_free s1 i

/-- Lines 248-252: NSCOUNT is set to the number of appended records and the packet is
sent.  The argument is the outcome of the authority loop. -/
def finish_build (r : AvahiProbeScheduler × AvahiDnsPacket × Nat) : AvahiProbeScheduler :=
  let p5 := avahi_dns_packet_set_field r.2.1 .NSCOUNT r.2.2
  { r.1 with effects := r.1.effects ++ [Effect.send_packet p5] }

/-- Lines 160-253, for the job at position `i` whose timer fired. -/
def elapse_callback (c : Codec) (s : AvahiProbeScheduler) (i : Nat) :
    Except Abort AvahiProbeScheduler :=
  match s.jobs[i]? with
  | none => .error .assert_pj
  | some pj =>
    let p := avahi_dns_packet_new_query c.mtu
    match packet_add_probe_query c s p i with
    | .error e => .error e
    | .ok (s1, _, false) => .ok (elapse_large c s1 i pj)
    | .ok (s1, p1, true) =>
      match fill_loop c s1.jobs.length 0 s1 p1 1 with
      | .error e => .error e
      | .ok (s2, p2, n) =>
        let p3 := avahi_dns_packet_set_field p2 .QDCOUNT n
        .ok (finish_build (authority_loop c s2.jobs.length 0 s2 p3 0))

/-- Lines 255-273.  `now` is the current time read by `avahi_elapse_time`. -/
def avahi_probe_scheduler_post (c : Codec) (s : AvahiProbeScheduler) (record : AvahiRecord)
    (immediately : Bool) (now : Nat) : Except Abort (AvahiProbeScheduler × Bool) :=
  if c.avahi_key_is_pattern record.key then .error .assert_not_pattern
  else
    let tv := avahi_elapse_time now (if immediately then 0 else AVAHI_PROBE_DEFER_MSEC)
    let s1 := job_new s record
    let e := s1.next_time_event
    let jobs1 := match s1.jobs with
      | [] => []
      | pj :: rest => { pj with delivery := tv, time_event := some e } :: rest
    .ok ({ s1 with jobs := jobs1,
                   effects := s1.effects ++ [Effect.time_event_queue_add e tv],
                   next_time_event := e + 1 }, true)

/-! ## Observations on the effects -/

/-- The packets handed to `avahi_interface_send_packet`, in order. -/
def sent_packets : List Effect → List AvahiDnsPacket
  | [] => []
  | Effect.send_packet p :: rest => p :: sent_packets rest
  | _ :: rest => sent_packets rest

/-- The ANY-type question the unit builds for a record (lines 131 and 192). -/
def probe_key (c : Codec) (r : AvahiRecord) : AvahiKey :=
  avahi_key_new r.key.name r.key.clazz c.AVAHI_DNS_TYPE_ANY

/-- The `guint` sum of key estimate and record estimate computed at lines 122-124. -/
def probe_estimate (c : Codec) (r : AvahiRecord) : Nat :=
  guint (c.avahi_key_get_estimate_size r.key + c.avahi_record_get_estimate_size r)

/-- The capacity computed at lines 182-188 for the larger packet. -/
def large_packet_size (c : Codec) (r : AvahiRecord) : Nat :=
  min (guint (c.avahi_key_get_estimate_size r.key + c.avahi_record_get_estimate_size r
    + c.AVAHI_DNS_PACKET_HEADER_SIZE)) c.AVAHI_DNS_PACKET_MAX_SIZE

/-! ## A byte counting codec, used to run the unit on concrete queues -/

/-- Wire size of a key: the name, its terminator, type and class. -/
def key_wire_size (k : AvahiKey) : Nat := k.name.length + 1 + 4

/-- Wire size of a record: the key, the ttl, the data length and the data. -/
def record_wire_size (r : AvahiRecord) : Nat := key_wire_size r.key + 4 + 2 + r.data.length

/-- Bytes written to a packet so far: a 12 byte header and what was appended. -/
def packet_size (p : AvahiDnsPacket) : Nat :=
  12 + (p.questions.map key_wire_size).sum + (p.authority.map record_wire_size).sum

/-- A codec whose estimates are exact and whose appends succeed exactly when the bytes
fit the remaining space, for an interface with the given MTU and the given absolute
maximum packet size. -/
def byte_codec (mtu : Nat) (max_size : Nat) : Codec :=
  { mtu := mtu
    AVAHI_DNS_PACKET_HEADER_SIZE := 12
    AVAHI_DNS_PACKET_MAX_SIZE := max_size
    AVAHI_DNS_TYPE_ANY := 255
    avahi_dns_packet_space := fun p => p.max_size - packet_size p
    avahi_key_get_estimate_size := key_wire_size
    avahi_record_get_estimate_size := record_wire_size
    key_fits := fun p k => decide (key_wire_size k ≤ p.max_size - packet_size p)
    record_fits := fun p r => decide (record_wire_size r ≤ p.max_size - packet_size p)
    avahi_domain_equal := fun a b => decide (a = b)
    avahi_key_is_pattern := fun k => decide (k.type = 255) }

/-- An example record with the given name, type and number of data bytes. -/
def example_record (name : String) (type : Nat) (len : Nat) : AvahiRecord :=
  { key := { name := name, clazz := 1, type := type }, ttl := 120, data := List.replicate len 0 }

/-- A pending job as `avahi_probe_scheduler_post` leaves it. -/
def example_job (e : Nat) (r : AvahiRecord) : AvahiProbeJob :=
  { time_event := some e, chosen := false, delivery := 70, record := r }

/-- A queue with one pending job for a record of 50 bytes. -/
def single_sched : AvahiProbeScheduler :=
  { jobs := [example_job 0 (example_record "a" 1 38)], effects := [], next_time_event := 1 }

/-- The MTU-sized packet of `single_sched` after the question was appended. -/
def single_p1 : AvahiDnsPacket :=
  { max_size := 1500, questions := [probe_key (byte_codec 1500 9000) (example_record "a" 1 38)],
    authority := [], qdcount := 0, nscount := 0 }

/-- The packet of `single_sched` after QDCOUNT was set and the record was appended. -/
def single_p2 : AvahiDnsPacket :=
  { max_size := 1500, questions := [probe_key (byte_codec 1500 9000) (example_record "a" 1 38)],
    authority := [example_record "a" 1 38], qdcount := 1, nscount := 0 }

/-- A queue with two pending jobs for records of the same name, 50 bytes each. -/
def same_name_sched : AvahiProbeScheduler :=
  { jobs := [example_job 1 (example_record "a" 28 38), example_job 0 (example_record "a" 1 38)],
    effects := [], next_time_event := 2 }

/-- The packet of `same_name_sched` (MTU 1500, first job fired) with `n` as QDCOUNT and
the records `rs` in the authority section. -/
def same_name_packet (n : Nat) (rs : List AvahiRecord) : AvahiDnsPacket :=
  { max_size := 1500, questions := [probe_key (byte_codec 1500 9000) (example_record "a" 28 38)],
    authority := rs, qdcount := n, nscount := 0 }

/-- A queue with two pending jobs for records of different names; key and record of each
take 6 + 94 = 100 bytes. -/
def two_names_sched : AvahiProbeScheduler :=
  { jobs := [example_job 1 (example_record "b" 1 82), example_job 0 (example_record "a" 1 82)],
    effects := [], next_time_event := 2 }

/-- A queue with two pending jobs for small records of different names. -/
def two_small_sched : AvahiProbeScheduler :=
  { jobs := [example_job 1 (example_record "b" 1 4), example_job 0 (example_record "a" 1 4)],
    effects := [], next_time_event := 2 }

/-- The packet of `two_small_sched` (MTU 1500) with the questions `ks`, `n` as QDCOUNT and
the records `rs` in the authority section. -/
def two_small_packet (ks : List AvahiKey) (n : Nat) (rs : List AvahiRecord) : AvahiDnsPacket :=
  { max_size := 1500, questions := ks, authority := rs, qdcount := n, nscount := 0 }

/-- Number of `avahi_record_unref` calls among the effects. -/
def unref_count : List Effect → Nat
  | [] => 0
  | Effect.record_unref _ :: rest => unref_count rest + 1
  | _ :: rest => unref_count rest

/-- Number of `avahi_time_event_queue_remove` calls among the effects. -/
def remove_count : List Effect → Nat
  | [] => 0
  | Effect.time_event_queue_remove _ :: rest => remove_count rest + 1
  | _ :: rest => remove_count rest

/-- A queue whose head job has a record of 112 bytes, larger than the space of a packet for
MTU 112, followed by a small job. -/
def large_sched : AvahiProbeScheduler :=
  { jobs := [example_job 1 (example_record "a" 1 100), example_job 0 (example_record "b" 1 4)],
    effects := [], next_time_event := 2 }

/-- A sequence of `avahi_probe_scheduler_post` calls, earliest call first.  Each request
holds the record, the `immediately` flag and the time of the call. -/
def post_all (c : Codec) :
    AvahiProbeScheduler → List (AvahiRecord × Bool × Nat) → Except Abort AvahiProbeScheduler
  | s, [] => .ok s
  | s, (r, imm, now) :: rest =>
    match avahi_probe_scheduler_post c s r imm now with
    | .error e => .error e
    | .ok (s1, _) => post_all c s1 rest

/-- The records of the queued jobs in iteration order: from the list head along the
`jobs_next` links. -/
def queue_records (s : AvahiProbeScheduler) : List AvahiRecord :=
  s.jobs.map (fun pj => pj.record)

/-- The calls `avahi_probe_scheduler_clear` makes for a queue: those of `job_free` for each
job, from the list head on. -/
def clear_effects : List AvahiProbeJob → List Effect
  | [] => []
  | pj :: rest => job_free_effects pj ++ clear_effects rest

/-- A queue with three pending jobs. -/
def three_sched : AvahiProbeScheduler :=
  { jobs := [example_job 2 (example_record "c" 1 4), example_job 1 (example_record "b" 1 4),
      example_job 0 (example_record "a" 1 4)],
    effects := [], next_time_event := 3 }

/-- The predicate of C7: every job in the queue has `chosen = false`. -/
def AllUnchosen (s : AvahiProbeScheduler) : Prop := ∀ pj ∈ s.jobs, pj.chosen = false

/-- A job with its `chosen` flag cleared. -/
def unmark (pj : AvahiProbeJob) : AvahiProbeJob := { pj with chosen := false }

/-- The states the unit can be in between operations: a new scheduler, and what `post`,
`clear` and a complete run of `elapse_callback` for any queued job make of such a state. -/
inductive Reachable (c : Codec) : AvahiProbeScheduler → Prop where
  | new : Reachable c avahi_probe_scheduler_new
  | post {s s1 : AvahiProbeScheduler} {r : AvahiRecord} {imm b : Bool} {now : Nat} :
      Reachable c s → avahi_probe_scheduler_post c s r imm now = .ok (s1, b) → Reachable c s1
  | clear {s s1 : AvahiProbeScheduler} {fuel : Nat} :
      Reachable c s → avahi_probe_scheduler_clear fuel s = some s1 → Reachable c s1
  | elapse {s s1 : AvahiProbeScheduler} {i : Nat} :
      Reachable c s → elapse_callback c s i = .ok s1 → Reachable c s1

/-- The hypotheses of C8 on a codec, for given byte counts of keys and records: no
estimate is below the bytes the append consumes, an append succeeds whenever its bytes
fit the remaining space, a successful append consumes exactly its bytes, and the header
counters do not take space. -/
structure EstimatesNotOptimistic (c : Codec) (key_bytes : AvahiKey → Nat)
    (record_bytes : AvahiRecord → Nat) : Prop where
  key_estimate : ∀ k, key_bytes k ≤ c.avahi_key_get_estimate_size k
  record_estimate : ∀ r, record_bytes r ≤ c.avahi_record_get_estimate_size r
  key_succeeds : ∀ p k, key_bytes k ≤ c.avahi_dns_packet_space p → c.key_fits p k = true
  record_succeeds : ∀ p r,
    record_bytes r ≤ c.avahi_dns_packet_space p → c.record_fits p r = true
  key_consumes : ∀ p k, c.avahi_dns_packet_space { p with questions := p.questions ++ [k] }
    = c.avahi_dns_packet_space p - key_bytes k
  record_consumes : ∀ p r,
    c.avahi_dns_packet_space { p with authority := p.authority ++ [r] }
      = c.avahi_dns_packet_space p - record_bytes r
  field_free : ∀ p f v,
    c.avahi_dns_packet_space (avahi_dns_packet_set_field p f v) = c.avahi_dns_packet_space p

/-- The test of line 144, as a boolean: the record has the class of the probe key `k` and
`avahi_domain_equal` accepts its name. -/
def key_matches (c : Codec) (k : AvahiKey) (r : AvahiRecord) : Bool :=
  decide (k.clazz = r.key.clazz) && c.avahi_domain_equal k.name r.key.name

/-- What the same-key pass does to a job it does not stop at: an unchosen job that matches
the probe key is marked chosen, every other job is left as it is. -/
def mark_matching (c : Codec) (k : AvahiKey) (pj : AvahiProbeJob) : AvahiProbeJob :=
  if pj.chosen = false ∧ key_matches c k pj.record = true then { pj with chosen := true } else pj

/-- The job at which the same-key pass stops (line 148): unchosen, matching the probe key,
with a record estimate larger than the remaining space of the packet. -/
def stops_scan (c : Codec) (p : AvahiDnsPacket) (k : AvahiKey) (pj : AvahiProbeJob) : Prop :=
  pj.chosen = false ∧ key_matches c k pj.record = true
    ∧ c.avahi_dns_packet_space p < c.avahi_record_get_estimate_size pj.record

/-- A queue for the same-key pass: a job of another name, a small job named "a", a job
named "a" whose record does not fit 94 bytes, and a small job named "a" behind it. -/
def scan_jobs : List AvahiProbeJob :=
  [example_job 3 (example_record "b" 1 4), example_job 2 (example_record "a" 28 4),
    example_job 1 (example_record "a" 16 90), example_job 0 (example_record "a" 1 4)]

/-- The packet for MTU 112 after the question for the name "a" was appended: 94 bytes of
space are left. -/
def scan_packet : AvahiDnsPacket :=
  { max_size := 112, questions := [probe_key (byte_codec 112 9000) (example_record "a" 1 4)],
    authority := [], qdcount := 0, nscount := 0 }

/-- Outcome of the authority pass: the jobs left in the queue, the jobs whose records were
appended (each removed by `job_free`), the packet, and whether an append failed. -/
structure AuthorityOutcome where
  kept : List AvahiProbeJob
  removed : List AvahiProbeJob
  packet : AvahiDnsPacket
  failed : Bool
deriving DecidableEq, Repr

/-- The authority pass of lines 225-246 described by recursion on the jobs from the cursor
on: an unchosen job is kept; a chosen job whose record is appended is removed; at a chosen
job whose append fails, that job and all jobs behind it are kept with `chosen` cleared
and the pass ends.  `authority_loop_eq` shows that `authority_loop` computes this. -/
def authority_pass (c : Codec) : List AvahiProbeJob → AvahiDnsPacket → AuthorityOutcome
  | [], p => { kept := [], removed := [], packet := p, failed := false }
  | pj :: rest, p =>
    if pj.chosen = false then
      let r := authority_pass c rest p
      { r with kept := pj :: r.kept }
    else
      match avahi_dns_packet_append_record c p pj.record with
      | none => { kept := (pj :: rest).map unmark, removed := [], packet := p, failed := true }
      | some p1 =>
        let r := authority_pass c rest p1
        { r with removed := pj :: r.removed }

/-- The counter `n` after `k` steps of `n++` on a `guint`. -/
def guint_count : Nat → Nat → Nat
  | n, 0 => n
  | n, k + 1 => guint_count (guint (n + 1)) k

/-- The warning of line 234 when an append failed, nothing otherwise. -/
def estimate_warning (failed : Bool) : List Effect :=
  if failed then [Effect.warning "Bad probe size estimate!"] else []

/-- The assumption behind the `g_assert(b)` of line 133: a question whose estimate (taken
together with the record estimate) fits the remaining space can be appended. -/
def QuestionsFit (c : Codec) : Prop :=
  ∀ (p : AvahiDnsPacket) (r : AvahiRecord),
    probe_estimate c r ≤ c.avahi_dns_packet_space p → c.key_fits p (probe_key c r) = true

/-- Several `avahi_dns_packet_append_record` calls in a row; `none` when one of them
fails. -/
def append_records (c : Codec) : AvahiDnsPacket → List AvahiRecord → Option AvahiDnsPacket
  | p, [] => some p
  | p, r :: rest =>
    match avahi_dns_packet_append_record c p r with
    | none => none
    | some p1 => append_records c p1 rest

/-- The list `whole` is made of the lists `kept` and `removed`, each in its own order:
`kept` is `whole` with exactly the elements of `removed` deleted. -/
inductive Interleaved {α : Type} : List α → List α → List α → Prop where
  | nil : Interleaved [] [] []
  | keep (a : α) {kept removed whole : List α} :
      Interleaved kept removed whole → Interleaved (a :: kept) removed (a :: whole)
  | remove (a : α) {kept removed whole : List α} :
      Interleaved kept removed whole → Interleaved kept (a :: removed) (a :: whole)

/-- A queue as the fill loop can leave it, for the authority pass: a chosen job, an unchosen
job, and two more chosen jobs, all with records of 50 bytes. -/
def authority_sched : AvahiProbeScheduler :=
  { jobs := [{ example_job 3 (example_record "a" 1 38) with chosen := true },
      example_job 2 (example_record "b" 1 38),
      { example_job 1 (example_record "a" 28 38) with chosen := true },
      { example_job 0 (example_record "a" 16 38) with chosen := true }],
    effects := [], next_time_event := 4 }

/-- The packet for MTU 112 with the question for the name "a", QDCOUNT 1 and the records
`rs` in the authority section. -/
def authority_packet (rs : List AvahiRecord) : AvahiDnsPacket :=
  { max_size := 112, questions := [probe_key (byte_codec 112 9000) (example_record "a" 1 38)],
    authority := rs, qdcount := 1, nscount := 0 }

/-- The jobs for which the `packet_add_probe_query` call of the fill loop (line 215)
returned TRUE, in the order of the calls; the recursion is that of `fill_loop`. -/
def fill_successes (c : Codec) :
    Nat → Nat → AvahiProbeScheduler → AvahiDnsPacket → List AvahiProbeJob
  | 0, _, _, _ => []
  | todo + 1, i, s, p =>
    match s.jobs[i]? with
    | none => []
    | some pj =>
      if pj.chosen then fill_successes c todo (i + 1) s p
      else
        match packet_add_probe_query c s p i with
        | .error _ => []
        | .ok (_, _, false) => []
        | .ok (s1, p1, true) => pj :: fill_successes c todo (i + 1) s1 p1

/-- The questions the unit builds for a list of jobs. -/
def probe_keys (c : Codec) (jobs : List AvahiProbeJob) : List AvahiKey :=
  jobs.map (fun pj => probe_key c pj.record)

/-- Number of `avahi_record_ref` calls among the effects. -/
def ref_count : List Effect → Nat
  | [] => 0
  | Effect.record_ref _ :: rest => ref_count rest + 1
  | _ :: rest => ref_count rest

/-- Modelled from the spec: the time queue of section 6, `schedule(deadline, callback,
payload) -> handle` and `cancel(handle)`, applied to a list of outstanding registrations.
`avahi_time_event_queue_add` puts the new handle among them,
`avahi_time_event_queue_remove` takes the handle out and does nothing for a handle that is
not outstanding, every other call of the unit leaves them alone.  The firing of a timer is
not a call of the unit; it is `time_queue_fire`. -/
def register_step (reg : List Nat) : Effect → List Nat
  | Effect.time_event_queue_add e _ => e :: reg
  | Effect.time_event_queue_remove e => reg.erase e
  | _ => reg

/-- Modelled from the spec: the registrations outstanding after the given calls of the unit,
starting from the outstanding registrations `reg`. -/
def registered_from (reg : List Nat) (effects : List Effect) : List Nat :=
  effects.foldl register_step reg

/-- Modelled from the spec: the handles the unit has scheduled and not cancelled again by
its own calls, whether or not their timer has fired since.  The outstanding registrations
are `TimeQueue.pending`. -/
def registered (effects : List Effect) : List Nat := registered_from [] effects

/-- The timer handles of the queued jobs, in queue order. -/
def job_handles (jobs : List AvahiProbeJob) : List Nat :=
  jobs.filterMap (fun pj => pj.time_event)

/-- The calls that only report: sending a packet and warning. -/
def is_report : Effect → Bool
  | Effect.send_packet _ => true
  | Effect.warning _ => true
  | _ => false

/-- A state reached, for MTU 62, by three posts (records "c", "a", "b"), the firing of the
job for "a", which sends the probes for "a" and "b" in one packet, and one more post. -/
def reached_sched : AvahiProbeScheduler :=
  { jobs := [example_job 3 (example_record "d" 1 4), example_job 0 (example_record "c" 1 50)],
    effects :=
      [Effect.record_ref (example_record "c" 1 50), Effect.time_event_queue_add 0 70,
        Effect.record_ref (example_record "a" 1 4), Effect.time_event_queue_add 1 70,
        Effect.record_ref (example_record "b" 1 4), Effect.time_event_queue_add 2 70,
        Effect.time_event_queue_remove 2, Effect.record_unref (example_record "b" 1 4),
        Effect.time_event_queue_remove 1, Effect.record_unref (example_record "a" 1 4),
        Effect.send_packet
          { max_size := 62,
            questions := [probe_key (byte_codec 62 9000) (example_record "a" 1 4),
              probe_key (byte_codec 62 9000) (example_record "b" 1 4)],
            authority := [example_record "b" 1 4, example_record "a" 1 4],
            qdcount := 2, nscount := 2 },
        Effect.record_ref (example_record "d" 1 4), Effect.time_event_queue_add 3 70],
    next_time_event := 4 }

/-- The bookkeeping of the handles: every queued job holds a timer handle, the handles
scheduled and not cancelled by the unit are the handles of the queued jobs, the handles
are pairwise different, and all of them were handed out before. -/
structure TimersMatch (s : AvahiProbeScheduler) : Prop where
  held : ∀ pj ∈ s.jobs, pj.time_event.isSome = true
  same : (registered s.effects).Perm (job_handles s.jobs)
  distinct : (job_handles s.jobs).Nodup
  fresh : ∀ e ∈ job_handles s.jobs, e < s.next_time_event

/-- Between two states of the fill loop the jobs keep their places and their contents, and
a chosen flag that is set stays set. -/
def Grown (l l1 : List AvahiProbeJob) : Prop :=
  l1.length = l.length
    ∧ ∀ (x : Nat) (b : AvahiProbeJob), l1[x]? = some b →
        ∃ a, l[x]? = some a ∧ unmark a = unmark b ∧ (a.chosen = true → b.chosen = true)

/-- The question `k` is a question for the record `r`: it has the class of the record and
its name, either literally or as accepted by `avahi_domain_equal`. -/
def covers (c : Codec) (k : AvahiKey) (r : AvahiRecord) : Prop :=
  k.clazz = r.key.clazz
    ∧ (k.name = r.key.name ∨ c.avahi_domain_equal k.name r.key.name = true)

/-- Every chosen job of the queue has a question in the packet. -/
def Covered (c : Codec) (jobs : List AvahiProbeJob) (p : AvahiDnsPacket) : Prop :=
  ∀ pj ∈ jobs, pj.chosen = true → ∃ k ∈ p.questions, covers c k pj.record

/-- The question `k2` asks for the name and class of the question `k1`: same class, and
`avahi_domain_equal` accepts the two names. -/
def same_question (c : Codec) (k1 k2 : AvahiKey) : Prop :=
  k1.clazz = k2.clazz ∧ c.avahi_domain_equal k1.name k2.name = true

/-- For the asked key `k`: in front of, or at, every unchosen job that matches `k` stands an
unchosen job whose record estimate exceeds the space left in the packet. -/
def Blocked (c : Codec) (jobs : List AvahiProbeJob) (p : AvahiDnsPacket) (k : AvahiKey) : Prop :=
  ∀ (x : Nat) (u : AvahiProbeJob), jobs[x]? = some u → u.chosen = false →
    key_matches c k u.record = true →
    ∃ y B, y ≤ x ∧ jobs[y]? = some B ∧ B.chosen = false
      ∧ c.avahi_dns_packet_space p < c.avahi_record_get_estimate_size B.record

/-- The `guint` sums of the estimates of the queued records do not wrap around. -/
def NoOverflow (c : Codec) (jobs : List AvahiProbeJob) : Prop :=
  ∀ pj ∈ jobs, c.avahi_key_get_estimate_size pj.record.key
    + c.avahi_record_get_estimate_size pj.record < 4294967296

/-- The byte counting codec with a record estimate that is 10 bytes below the bytes the
record takes in a packet; everything else is as in `byte_codec`. -/
def low_estimate_codec (mtu : Nat) (max_size : Nat) : Codec :=
  { byte_codec mtu max_size with
    avahi_record_get_estimate_size := fun r => record_wire_size r - 10 }

/-- A queue whose head job has a record of 80 bytes, followed by a small job. -/
def tight_sched : AvahiProbeScheduler :=
  { jobs := [example_job 1 (example_record "a" 1 68), example_job 0 (example_record "b" 1 4)],
    effects := [], next_time_event := 2 }

/-- The byte counting codec with a record estimate of 4294967295, the largest `guint`, for
records with exactly one data byte; everything else is as in `byte_codec`. -/
def wrapping_codec (mtu : Nat) (max_size : Nat) : Codec :=
  { byte_codec mtu max_size with
    avahi_record_get_estimate_size := fun r =>
      if r.data.length = 1 then 4294967295 else record_wire_size r }

/-- A queue with two pending jobs for the name "a"; the record of the second job has one
data byte. -/
def wrapping_sched : AvahiProbeScheduler :=
  { jobs := [example_job 1 (example_record "a" 1 4), example_job 0 (example_record "a" 28 1)],
    effects := [], next_time_event := 2 }

/-- Modelled from the spec: the time queue as far as this scheduler is concerned (sections
4.3 and 6).  `pending` holds the handles of its outstanding one-shot registrations,
`fired` the handles whose timer has fired so far. -/
structure TimeQueue where
  pending : List Nat
  fired : List Nat
deriving DecidableEq, Repr

/-- The calls the unit has made between the state `before` and the later state `after`. -/
def calls_since (before after : AvahiProbeScheduler) : List Effect :=
  after.effects.drop before.effects.length

/-- Modelled from the spec: the time queue after an operation of the unit that led from
`before` to `after`; the add and remove calls of the operation are applied to the
outstanding registrations. -/
def time_queue_after (q : TimeQueue) (before after : AvahiProbeScheduler) : TimeQueue :=
  { q with pending := registered_from q.pending (calls_since before after) }

/-- Modelled from the spec: the timer with handle `e` fires.  A fired timer is consumed
(section 4.3): its registration is no longer outstanding when the callback runs. -/
def time_queue_fire (q : TimeQueue) (e : Nat) : TimeQueue :=
  { pending := q.pending.erase e, fired := e :: q.fired }

/-- Modelled from the spec: the states of the scheduler, together with its time queue,
that are reachable by post, clear and timer firings.  A timer fires only while its
registration is outstanding; the firing consumes the registration and runs
`elapse_callback` for the job that holds the handle. -/
inductive Scheduled (c : Codec) : AvahiProbeScheduler → TimeQueue → Prop where
  | new : Scheduled c avahi_probe_scheduler_new { pending := [], fired := [] }
  | post {s s1 : AvahiProbeScheduler} {q : TimeQueue} {r : AvahiRecord} {imm b : Bool}
      {now : Nat} :
      Scheduled c s q → avahi_probe_scheduler_post c s r imm now = .ok (s1, b) →
      Scheduled c s1 (time_queue_after q s s1)
  | clear {s s1 : AvahiProbeScheduler} {q : TimeQueue} {fuel : Nat} :
      Scheduled c s q → avahi_probe_scheduler_clear fuel s = some s1 →
      Scheduled c s1 (time_queue_after q s s1)
  | fire {s s1 : AvahiProbeScheduler} {q : TimeQueue} {i : Nat} {pj : AvahiProbeJob}
      {e : Nat} :
      Scheduled c s q → s.jobs[i]? = some pj → pj.time_event = some e → e ∈ q.pending →
      elapse_callback c s i = .ok s1 →
      Scheduled c s1 (time_queue_after (time_queue_fire q e) s s1)

/-- The state reached, for MTU 112, by two posts of records of 50 bytes for the name "a"
and the firing of the timer of the first job: both jobs are chosen, the later job is sent
and freed, the append of the seed's record fails and the seed stays in the queue. -/
def left_behind_sched : AvahiProbeScheduler :=
  { jobs := [example_job 0 (example_record "a" 1 38)],
    effects :=
      [Effect.record_ref (example_record "a" 1 38), Effect.time_event_queue_add 0 70,
        Effect.record_ref (example_record "a" 28 38), Effect.time_event_queue_add 1 70,
        Effect.time_event_queue_remove 1, Effect.record_unref (example_record "a" 28 38),
        Effect.warning "Bad probe size estimate!",
        Effect.send_packet
          { max_size := 112,
            questions := [probe_key (byte_codec 112 9000) (example_record "a" 1 38)],
            authority := [example_record "a" 28 38], qdcount := 1, nscount := 1 }],
    next_time_event := 2 }

/-- The state `left_behind_sched` after one more post, of a small record "d". -/
def left_behind_posted : AvahiProbeScheduler :=
  { jobs := example_job 2 (example_record "d" 1 4) :: left_behind_sched.jobs,
    effects := left_behind_sched.effects
      ++ [Effect.record_ref (example_record "d" 1 4), Effect.time_event_queue_add 2 70],
    next_time_event := 3 }

/-! ## Helper lemmas -/

theorem sent_packets_append (a b : List Effect) :
    sent_packets (a ++ b) = sent_packets a ++ sent_packets b := by
  induction a with
  | nil => rfl
  | cons e rest ih => cases e <;> simp [sent_packets, ih]

theorem sent_packets_job_free_effects (pj : AvahiProbeJob) :
    sent_packets (job_free_effects pj) = [] := by
  unfold job_free_effects
  cases pj.time_event <;> rfl

theorem guint_le (n : Nat) : guint n ≤ n := Nat.mod_le _ _

theorem guint_one : guint 1 = 1 := rfl

theorem guint_two : guint 2 = 2 := rfl

theorem append_record_some {c : Codec} {p p1 : AvahiDnsPacket} {r : AvahiRecord}
    (h : avahi_dns_packet_append_record c p r = some p1) :
    p1 = { p with authority := p.authority ++ [r] } := by
  unfold avahi_dns_packet_append_record at h
  split at h
  · exact (Option.some.inj h).symm
  · cases h

theorem append_key_some {c : Codec} {p p1 : AvahiDnsPacket} {k : AvahiKey}
    (h : avahi_dns_packet_append_key c p k = some p1) :
    p1 = { p with questions := p.questions ++ [k] } := by
  unfold avahi_dns_packet_append_key at h
  split at h
  · exact (Option.some.inj h).symm
  · cases h

theorem packet_add_probe_query_fits {c : Codec} {s : AvahiProbeScheduler} {p p1 : AvahiDnsPacket}
    {i : Nat} {pj : AvahiProbeJob} (hi : s.jobs[i]? = some pj) (hch : pj.chosen = false)
    (hfit : probe_estimate c pj.record ≤ c.avahi_dns_packet_space p)
    (hk : avahi_dns_packet_append_key c p (probe_key c pj.record) = some p1) :
    packet_add_probe_query c s p i
      = .ok ({ s with jobs := (scan_matching c p1 (probe_key c pj.record)
                (s.jobs.set i { pj with chosen := true })) }, p1, true) := by
  unfold probe_estimate at hfit
  unfold probe_key at hk
  simp only [packet_add_probe_query, hi, hch, Nat.not_lt.mpr hfit, hk, probe_key]
  simp

theorem packet_add_probe_query_too_large {c : Codec} {s : AvahiProbeScheduler}
    {p : AvahiDnsPacket} {i : Nat} {pj : AvahiProbeJob} (hi : s.jobs[i]? = some pj)
    (hch : pj.chosen = false)
    (hbig : c.avahi_dns_packet_space p < probe_estimate c pj.record) :
    packet_add_probe_query c s p i = .ok (s, p, false) := by
  unfold probe_estimate at hbig
  simp only [packet_add_probe_query, hi, hch]
  simp [hbig]

theorem elapse_callback_normal {c : Codec} {s s1 s2 : AvahiProbeScheduler}
    {p1 p2 : AvahiDnsPacket} {i n : Nat} {pj : AvahiProbeJob} (hi : s.jobs[i]? = some pj)
    (hadd : packet_add_probe_query c s (avahi_dns_packet_new_query c.mtu) i = .ok (s1, p1, true))
    (hfill : fill_loop c s1.jobs.length 0 s1 p1 1 = .ok (s2, p2, n)) :
    elapse_callback c s i
      = .ok (finish_build (authority_loop c s2.jobs.length 0 s2
                (avahi_dns_packet_set_field p2 .QDCOUNT n) 0)) := by
  simp only [elapse_callback, hi, hadd, hfill]

theorem elapse_callback_large {c : Codec} {s : AvahiProbeScheduler} {i : Nat}
    {pj : AvahiProbeJob} (hi : s.jobs[i]? = some pj) (hch : pj.chosen = false)
    (hbig : c.avahi_dns_packet_space (avahi_dns_packet_new_query c.mtu)
      < probe_estimate c pj.record) :
    elapse_callback c s i = .ok (elapse_large c s i pj) := by
  simp only [elapse_callback, hi, packet_add_probe_query_too_large hi hch hbig]

theorem probe_estimate_le_of_sum_le {c : Codec} {r : AvahiRecord} {n : Nat}
    (h : c.avahi_key_get_estimate_size r.key + c.avahi_record_get_estimate_size r ≤ n) :
    probe_estimate c r ≤ n := le_trans (guint_le _) h

/-! ## C1 -/

/-- C1: a queue holding exactly one (unchosen) job whose key estimate plus record estimate
does not exceed the space of a fresh MTU-sized packet, and whose question and record
appends succeed: firing the job sends exactly one packet, with QDCOUNT 1 and NSCOUNT 1,
and the queue is empty afterwards. -/
theorem single_job_one_packet (c : Codec) (s : AvahiProbeScheduler) (pj : AvahiProbeJob)
    (p1 p2 : AvahiDnsPacket)
    (hq : s.jobs = [pj]) (hch : pj.chosen = false)
    (hfit : c.avahi_key_get_estimate_size pj.record.key
      + c.avahi_record_get_estimate_size pj.record
        ≤ c.avahi_dns_packet_space (avahi_dns_packet_new_query c.mtu))
    (hk : avahi_dns_packet_append_key c (avahi_dns_packet_new_query c.mtu)
      (probe_key c pj.record) = some p1)
    (hr : avahi_dns_packet_append_record c (avahi_dns_packet_set_field p1 .QDCOUNT 1)
      pj.record = some p2) :
    ∃ s1, elapse_callback c s 0 = .ok s1 ∧ s1.jobs = []
      ∧ sent_packets s1.effects
          = sent_packets s.effects ++ [avahi_dns_packet_set_field p2 .NSCOUNT 1]
      ∧ (avahi_dns_packet_set_field p2 .NSCOUNT 1).qdcount = 1
      ∧ (avahi_dns_packet_set_field p2 .NSCOUNT 1).nscount = 1 := by
  have hi : s.jobs[0]? = some pj := by simp [hq]
  have hadd := packet_add_probe_query_fits hi hch (probe_estimate_le_of_sum_le hfit) hk
  have hscan : scan_matching c p1 (probe_key c pj.record)
      (s.jobs.set 0 { pj with chosen := true }) = [{ pj with chosen := true }] := by
    simp [hq, scan_matching]
  rw [hscan] at hadd
  have hfill : fill_loop c 1 0 { s with jobs := [{ pj with chosen := true }] } p1 1
      = .ok ({ s with jobs := [{ pj with chosen := true }] }, p1, 1) := by
    simp [fill_loop]
  rw [elapse_callback_normal hi hadd hfill]
  have hp2 := append_record_some hr
  refine ⟨_, rfl, ?_⟩
  simp [authority_loop, hr, job_free, finish_build, sent_packets_append, sent_packets,
    sent_packets_job_free_effects, guint_one]
  subst hp2
  simp [avahi_dns_packet_set_field]

/-- C1 at a concrete queue: one record of 50 bytes on an interface with MTU 1500. -/
theorem single_job_one_packet_witness :
    ∃ s1, elapse_callback (byte_codec 1500 9000) single_sched 0 = .ok s1 ∧ s1.jobs = []
      ∧ sent_packets s1.effects = [] ++ [avahi_dns_packet_set_field single_p2 .NSCOUNT 1]
      ∧ (avahi_dns_packet_set_field single_p2 .NSCOUNT 1).qdcount = 1
      ∧ (avahi_dns_packet_set_field single_p2 .NSCOUNT 1).nscount = 1 :=
  single_job_one_packet (byte_codec 1500 9000) single_sched (example_job 0 (example_record "a" 1 38))
    single_p1 single_p2 rfl rfl (by decide) (by decide) (by decide)

/-! ## C2 -/

/-- C2: a queue holding exactly two (unchosen) jobs whose records have the same class and
equal names and which both fit the MTU-sized packet together (the seed's key estimate
plus record estimate fits the fresh packet, the other job's record estimate fits what
is left after the question, and the appends succeed): firing either job sends exactly
one packet, with the single shared ANY question, QDCOUNT 1 and NSCOUNT 2, and both jobs
are removed from the queue. -/
theorem same_name_jobs_share_question (c : Codec) (s : AvahiProbeScheduler)
    (j0 j1 seed other : AvahiProbeJob) (i : Nat) (p1 p2 p3 : AvahiDnsPacket)
    (hq : s.jobs = [j0, j1]) (h0 : j0.chosen = false) (h1 : j1.chosen = false)
    (hi : (i = 0 ∧ seed = j0 ∧ other = j1) ∨ (i = 1 ∧ seed = j1 ∧ other = j0))
    (hclass : seed.record.key.clazz = other.record.key.clazz)
    (hname : c.avahi_domain_equal seed.record.key.name other.record.key.name = true)
    (hfit : c.avahi_key_get_estimate_size seed.record.key
      + c.avahi_record_get_estimate_size seed.record
        ≤ c.avahi_dns_packet_space (avahi_dns_packet_new_query c.mtu))
    (hk : avahi_dns_packet_append_key c (avahi_dns_packet_new_query c.mtu)
      (probe_key c seed.record) = some p1)
    (hfit1 : c.avahi_record_get_estimate_size other.record ≤ c.avahi_dns_packet_space p1)
    (hr0 : avahi_dns_packet_append_record c (avahi_dns_packet_set_field p1 .QDCOUNT 1)
      j0.record = some p2)
    (hr1 : avahi_dns_packet_append_record c p2 j1.record = some p3) :
    ∃ s1, elapse_callback c s i = .ok s1 ∧ s1.jobs = []
      ∧ sent_packets s1.effects
          = sent_packets s.effects ++ [avahi_dns_packet_set_field p3 .NSCOUNT 2]
      ∧ (avahi_dns_packet_set_field p3 .NSCOUNT 2).questions = [probe_key c seed.record]
      ∧ (avahi_dns_packet_set_field p3 .NSCOUNT 2).qdcount = 1
      ∧ (avahi_dns_packet_set_field p3 .NSCOUNT 2).nscount = 2 := by
  have hp1 := append_key_some hk
  have hp2 := append_record_some hr0
  have hp3 := append_record_some hr1
  have hfit2 : ¬ (c.avahi_record_get_estimate_size other.record
      > c.avahi_dns_packet_space p1) := Nat.not_lt.mpr hfit1
  rcases hi with ⟨rfl, rfl, rfl⟩ | ⟨rfl, rfl, rfl⟩
  · have hi : s.jobs[0]? = some seed := by simp [hq]
    have hadd := packet_add_probe_query_fits hi h0 (probe_estimate_le_of_sum_le hfit) hk
    have hscan : scan_matching c p1 (probe_key c seed.record)
        (s.jobs.set 0 { seed with chosen := true })
          = [{ seed with chosen := true }, { other with chosen := true }] := by
      simp [hq, scan_matching, probe_key, avahi_key_new, hclass, hname, hfit2, h1]
    rw [hscan] at hadd
    have hfill : fill_loop c 2 0
        { s with jobs := [{ seed with chosen := true }, { other with chosen := true }] } p1 1
        = .ok ({ s with jobs := [{ seed with chosen := true }, { other with chosen := true }] },
            p1, 1) := by
      simp [fill_loop]
    rw [elapse_callback_normal hi hadd hfill]
    refine ⟨_, rfl, ?_⟩
    simp [authority_loop, hr0, hr1, job_free, finish_build, sent_packets_append, sent_packets,
      sent_packets_job_free_effects, guint_one, guint_two]
    subst hp3; subst hp2; subst hp1
    simp [avahi_dns_packet_set_field, avahi_dns_packet_new_query]
  · have hi : s.jobs[1]? = some seed := by simp [hq]
    have hadd := packet_add_probe_query_fits hi h1 (probe_estimate_le_of_sum_le hfit) hk
    have hscan : scan_matching c p1 (probe_key c seed.record)
        (s.jobs.set 1 { seed with chosen := true })
          = [{ other with chosen := true }, { seed with chosen := true }] := by
      simp [hq, scan_matching, probe_key, avahi_key_new, hclass, hname, hfit2, h0]
    rw [hscan] at hadd
    have hfill : fill_loop c 2 0
        { s with jobs := [{ other with chosen := true }, { seed with chosen := true }] } p1 1
        = .ok ({ s with jobs := [{ other with chosen := true }, { seed with chosen := true }] },
            p1, 1) := by
      simp [fill_loop]
    rw [elapse_callback_normal hi hadd hfill]
    refine ⟨_, rfl, ?_⟩
    simp [authority_loop, hr0, hr1, job_free, finish_build, sent_packets_append, sent_packets,
      sent_packets_job_free_effects, guint_one, guint_two]
    subst hp3; subst hp2; subst hp1
    simp [avahi_dns_packet_set_field, avahi_dns_packet_new_query]

/-- C2 at a concrete queue: two records named "a" (types 28 and 1), MTU 1500, the job at
the list head fires. -/
theorem same_name_jobs_share_question_witness :
    ∃ s1, elapse_callback (byte_codec 1500 9000) same_name_sched 0 = .ok s1 ∧ s1.jobs = []
      ∧ sent_packets s1.effects = [] ++ [avahi_dns_packet_set_field
          (same_name_packet 1 [example_record "a" 28 38, example_record "a" 1 38]) .NSCOUNT 2]
      ∧ (avahi_dns_packet_set_field
          (same_name_packet 1 [example_record "a" 28 38, example_record "a" 1 38])
            .NSCOUNT 2).questions = [probe_key (byte_codec 1500 9000) (example_record "a" 28 38)]
      ∧ (avahi_dns_packet_set_field
          (same_name_packet 1 [example_record "a" 28 38, example_record "a" 1 38])
            .NSCOUNT 2).qdcount = 1
      ∧ (avahi_dns_packet_set_field
          (same_name_packet 1 [example_record "a" 28 38, example_record "a" 1 38])
            .NSCOUNT 2).nscount = 2 :=
  same_name_jobs_share_question (byte_codec 1500 9000) same_name_sched
    (example_job 1 (example_record "a" 28 38)) (example_job 0 (example_record "a" 1 38))
    (example_job 1 (example_record "a" 28 38)) (example_job 0 (example_record "a" 1 38)) 0
    (same_name_packet 0 []) (same_name_packet 1 [example_record "a" 28 38])
    (same_name_packet 1 [example_record "a" 28 38, example_record "a" 1 38])
    rfl rfl rfl (Or.inl ⟨rfl, rfl, rfl⟩) rfl (by decide) (by decide) (by decide) (by decide)
    (by decide) (by decide)

/-! ## C3 -/

/-- C3, as stated, fails: two jobs with different names, each of which individually fits a
fresh packet with 100 bytes of space (6 + 94 bytes), do not fit together.  Firing the first
sends a packet with QDCOUNT 1 and NSCOUNT 1 and leaves the other job in the queue. -/
theorem two_names_counterexample :
    (byte_codec 112 9000).avahi_domain_equal "b" "a" = false
      ∧ (byte_codec 112 9000).avahi_key_get_estimate_size (example_record "b" 1 82).key
          + (byte_codec 112 9000).avahi_record_get_estimate_size (example_record "b" 1 82)
          ≤ (byte_codec 112 9000).avahi_dns_packet_space (avahi_dns_packet_new_query 112)
      ∧ (byte_codec 112 9000).avahi_key_get_estimate_size (example_record "a" 1 82).key
          + (byte_codec 112 9000).avahi_record_get_estimate_size (example_record "a" 1 82)
          ≤ (byte_codec 112 9000).avahi_dns_packet_space (avahi_dns_packet_new_query 112)
      ∧ ∃ s1 p, elapse_callback (byte_codec 112 9000) two_names_sched 0 = .ok s1
          ∧ sent_packets s1.effects = [p] ∧ p.qdcount = 1 ∧ p.nscount = 1
          ∧ s1.jobs = [example_job 0 (example_record "a" 1 82)] := by
  refine ⟨by decide, by decide, by decide, _, _, rfl, rfl, rfl, rfl, rfl⟩

/-- C3, amended: a queue holding exactly two (unchosen) jobs whose records have different
names, where the seed's key estimate plus record estimate does not exceed the space of a
fresh MTU-sized packet, the other job's key estimate plus record estimate does not exceed
the space left after the seed's question, and the appends succeed: firing the seed sends
one packet with QDCOUNT 2 and NSCOUNT 2, and both jobs are removed. -/
theorem two_names_two_questions (c : Codec) (s : AvahiProbeScheduler)
    (j0 j1 seed other : AvahiProbeJob) (i : Nat) (p1 p2 p3 p4 : AvahiDnsPacket)
    (hq : s.jobs = [j0, j1]) (h0 : j0.chosen = false) (h1 : j1.chosen = false)
    (hi : (i = 0 ∧ seed = j0 ∧ other = j1) ∨ (i = 1 ∧ seed = j1 ∧ other = j0))
    (hname : c.avahi_domain_equal seed.record.key.name other.record.key.name = false)
    (hfit : c.avahi_key_get_estimate_size seed.record.key
      + c.avahi_record_get_estimate_size seed.record
        ≤ c.avahi_dns_packet_space (avahi_dns_packet_new_query c.mtu))
    (hk : avahi_dns_packet_append_key c (avahi_dns_packet_new_query c.mtu)
      (probe_key c seed.record) = some p1)
    (hfit1 : c.avahi_key_get_estimate_size other.record.key
      + c.avahi_record_get_estimate_size other.record ≤ c.avahi_dns_packet_space p1)
    (hk1 : avahi_dns_packet_append_key c p1 (probe_key c other.record) = some p2)
    (hr0 : avahi_dns_packet_append_record c (avahi_dns_packet_set_field p2 .QDCOUNT 2)
      j0.record = some p3)
    (hr1 : avahi_dns_packet_append_record c p3 j1.record = some p4) :
    ∃ s1, elapse_callback c s i = .ok s1 ∧ s1.jobs = []
      ∧ sent_packets s1.effects
          = sent_packets s.effects ++ [avahi_dns_packet_set_field p4 .NSCOUNT 2]
      ∧ (avahi_dns_packet_set_field p4 .NSCOUNT 2).questions
          = [probe_key c seed.record, probe_key c other.record]
      ∧ (avahi_dns_packet_set_field p4 .NSCOUNT 2).qdcount = 2
      ∧ (avahi_dns_packet_set_field p4 .NSCOUNT 2).nscount = 2 := by
  have hp1 := append_key_some hk
  have hp2 := append_key_some hk1
  have hp3 := append_record_some hr0
  have hp4 := append_record_some hr1
  rcases hi with ⟨rfl, rfl, rfl⟩ | ⟨rfl, rfl, rfl⟩
  · have hi : s.jobs[0]? = some seed := by simp [hq]
    have hadd := packet_add_probe_query_fits hi h0 (probe_estimate_le_of_sum_le hfit) hk
    have hscan : scan_matching c p1 (probe_key c seed.record)
        (s.jobs.set 0 { seed with chosen := true })
          = [{ seed with chosen := true }, other] := by
      simp [hq, scan_matching, probe_key, avahi_key_new, hname, h1]
    rw [hscan] at hadd
    have hi1 : ({ s with jobs := [{ seed with chosen := true }, other] }
        : AvahiProbeScheduler).jobs[1]? = some other := rfl
    have hadd1 := packet_add_probe_query_fits hi1 h1 (probe_estimate_le_of_sum_le hfit1) hk1
    have hfill : fill_loop c 2 0
        { s with jobs := [{ seed with chosen := true }, other] } p1 1
        = .ok ({ s with jobs := [{ seed with chosen := true }, { other with chosen := true }] },
            p2, 2) := by
      simp [fill_loop, h1, hadd1, scan_matching, guint_two]
    rw [elapse_callback_normal hi hadd hfill]
    refine ⟨_, rfl, ?_⟩
    simp [authority_loop, hr0, hr1, job_free, finish_build, sent_packets_append, sent_packets,
      sent_packets_job_free_effects, guint_one, guint_two]
    subst hp4; subst hp3; subst hp2; subst hp1
    simp [avahi_dns_packet_set_field, avahi_dns_packet_new_query]
  · have hi : s.jobs[1]? = some seed := by simp [hq]
    have hadd := packet_add_probe_query_fits hi h1 (probe_estimate_le_of_sum_le hfit) hk
    have hscan : scan_matching c p1 (probe_key c seed.record)
        (s.jobs.set 1 { seed with chosen := true })
          = [other, { seed with chosen := true }] := by
      simp [hq, scan_matching, probe_key, avahi_key_new, hname, h0]
    rw [hscan] at hadd
    have hi1 : ({ s with jobs := [other, { seed with chosen := true }] }
        : AvahiProbeScheduler).jobs[0]? = some other := rfl
    have hadd1 := packet_add_probe_query_fits hi1 h0 (probe_estimate_le_of_sum_le hfit1) hk1
    have hfill : fill_loop c 2 0
        { s with jobs := [other, { seed with chosen := true }] } p1 1
        = .ok ({ s with jobs := [{ other with chosen := true }, { seed with chosen := true }] },
            p2, 2) := by
      simp [fill_loop, h0, hadd1, scan_matching, guint_two]
    rw [elapse_callback_normal hi hadd hfill]
    refine ⟨_, rfl, ?_⟩
    simp [authority_loop, hr0, hr1, job_free, finish_build, sent_packets_append, sent_packets,
      sent_packets_job_free_effects, guint_one, guint_two]
    subst hp4; subst hp3; subst hp2; subst hp1
    simp [avahi_dns_packet_set_field, avahi_dns_packet_new_query]

/-- C3, amended, at a concrete queue: two small records named "b" and "a", MTU 1500, the
job at the list head fires. -/
theorem two_names_two_questions_witness :
    ∃ s1, elapse_callback (byte_codec 1500 9000) two_small_sched 0 = .ok s1 ∧ s1.jobs = []
      ∧ sent_packets s1.effects = [] ++ [avahi_dns_packet_set_field
          (two_small_packet [probe_key (byte_codec 1500 9000) (example_record "b" 1 4),
            probe_key (byte_codec 1500 9000) (example_record "a" 1 4)] 2
            [example_record "b" 1 4, example_record "a" 1 4]) .NSCOUNT 2]
      ∧ (avahi_dns_packet_set_field
          (two_small_packet [probe_key (byte_codec 1500 9000) (example_record "b" 1 4),
            probe_key (byte_codec 1500 9000) (example_record "a" 1 4)] 2
            [example_record "b" 1 4, example_record "a" 1 4]) .NSCOUNT 2).questions
          = [probe_key (byte_codec 1500 9000) (example_record "b" 1 4),
              probe_key (byte_codec 1500 9000) (example_record "a" 1 4)]
      ∧ (avahi_dns_packet_set_field
          (two_small_packet [probe_key (byte_codec 1500 9000) (example_record "b" 1 4),
            probe_key (byte_codec 1500 9000) (example_record "a" 1 4)] 2
            [example_record "b" 1 4, example_record "a" 1 4]) .NSCOUNT 2).qdcount = 2
      ∧ (avahi_dns_packet_set_field
          (two_small_packet [probe_key (byte_codec 1500 9000) (example_record "b" 1 4),
            probe_key (byte_codec 1500 9000) (example_record "a" 1 4)] 2
            [example_record "b" 1 4, example_record "a" 1 4]) .NSCOUNT 2).nscount = 2 :=
  two_names_two_questions (byte_codec 1500 9000) two_small_sched
    (example_job 1 (example_record "b" 1 4)) (example_job 0 (example_record "a" 1 4))
    (example_job 1 (example_record "b" 1 4)) (example_job 0 (example_record "a" 1 4)) 0
    (two_small_packet [probe_key (byte_codec 1500 9000) (example_record "b" 1 4)] 0 [])
    (two_small_packet [probe_key (byte_codec 1500 9000) (example_record "b" 1 4),
      probe_key (byte_codec 1500 9000) (example_record "a" 1 4)] 0 [])
    (two_small_packet [probe_key (byte_codec 1500 9000) (example_record "b" 1 4),
      probe_key (byte_codec 1500 9000) (example_record "a" 1 4)] 2 [example_record "b" 1 4])
    (two_small_packet [probe_key (byte_codec 1500 9000) (example_record "b" 1 4),
      probe_key (byte_codec 1500 9000) (example_record "a" 1 4)] 2
      [example_record "b" 1 4, example_record "a" 1 4])
    rfl rfl rfl (Or.inl ⟨rfl, rfl, rfl⟩) (by decide) (by decide) (by decide) (by decide)
    (by decide) (by decide) (by decide)

/-! ## C4 and C5 -/

theorem unref_count_append (a b : List Effect) :
    unref_count (a ++ b) = unref_count a + unref_count b := by
  induction a with
  | nil => simp [unref_count]
  | cons e rest ih =>
    cases e <;> simp [unref_count, ih]
    omega

theorem remove_count_append (a b : List Effect) :
    remove_count (a ++ b) = remove_count a + remove_count b := by
  induction a with
  | nil => simp [remove_count]
  | cons e rest ih =>
    cases e <;> simp [remove_count, ih]
    omega

theorem unref_count_job_free_effects (pj : AvahiProbeJob) :
    unref_count (job_free_effects pj) = 1 := by
  unfold job_free_effects
  cases pj.time_event <;> rfl

theorem remove_count_job_free_effects (pj : AvahiProbeJob) :
    remove_count (job_free_effects pj) = if pj.time_event.isSome then 1 else 0 := by
  unfold job_free_effects
  cases pj.time_event <;> rfl

theorem job_free_at {s : AvahiProbeScheduler} {i : Nat} {pj : AvahiProbeJob}
    (hi : s.jobs[i]? = some pj) :
    job_free s i
      = { s with jobs := s.jobs.eraseIdx i, effects := s.effects ++ job_free_effects pj } := by
  simp only [job_free, hi]

/-- C4, as stated, fails: for MTU 112 and a record estimate that is 10 bytes low, the
estimates of the seed (6 + 102 bytes) exceed the 100 bytes left in the MTU-sized packet, and
its question and its record of 112 bytes can both be appended to a packet of the absolute
maximum size 9000; but the packet the branch allocates has capacity 108 + 12 = 120, the
record does not go in after the question, nothing is sent and the seed job is dropped. -/
theorem large_probe_low_estimate_counterexample :
    (low_estimate_codec 112 9000).avahi_dns_packet_space
        (avahi_dns_packet_new_query (low_estimate_codec 112 9000).mtu)
      < (low_estimate_codec 112 9000).avahi_key_get_estimate_size (example_record "a" 1 100).key
        + (low_estimate_codec 112 9000).avahi_record_get_estimate_size (example_record "a" 1 100)
    ∧ (∃ p1 p2, avahi_dns_packet_append_key (low_estimate_codec 112 9000)
          (avahi_dns_packet_new_query (low_estimate_codec 112 9000).AVAHI_DNS_PACKET_MAX_SIZE)
          (probe_key (low_estimate_codec 112 9000) (example_record "a" 1 100)) = some p1
        ∧ avahi_dns_packet_append_record (low_estimate_codec 112 9000) p1
            (example_record "a" 1 100) = some p2)
    ∧ ∃ s1, elapse_callback (low_estimate_codec 112 9000) large_sched 0 = .ok s1
        ∧ sent_packets s1.effects = []
        ∧ s1.effects = [Effect.warning "Probe record too large, cannot send"]
            ++ job_free_effects (example_job 1 (example_record "a" 1 100))
        ∧ s1.jobs = [example_job 0 (example_record "b" 1 4)] :=
  ⟨by decide, ⟨_, _, rfl, rfl⟩, _, rfl, rfl, rfl, rfl⟩

/-- C4, amended: a seed job (unchosen, at position `i`) whose key estimate plus record
estimate, as the `guint` sum the code computes, exceeds the space of the MTU-sized packet,
while its question and record can both be appended to the packet this branch allocates,
of capacity min(key estimate + record estimate + header size, absolute maximum packet
size): firing it sends exactly one packet, created with that capacity, holding that
question and that record, with QDCOUNT 1 and NSCOUNT 1; the seed job is removed and the
other jobs stay in the queue as they were. -/
theorem large_probe_one_packet (c : Codec) (s : AvahiProbeScheduler) (i : Nat)
    (pj : AvahiProbeJob) (p1 p2 : AvahiDnsPacket)
    (hi : s.jobs[i]? = some pj) (hch : pj.chosen = false)
    (hbig : c.avahi_dns_packet_space (avahi_dns_packet_new_query c.mtu)
      < probe_estimate c pj.record)
    (hk : avahi_dns_packet_append_key c (avahi_dns_packet_new_query (large_packet_size c pj.record))
      (probe_key c pj.record) = some p1)
    (hr : avahi_dns_packet_append_record c p1 pj.record = some p2) :
    ∃ s1 p, elapse_callback c s i = .ok s1
      ∧ s1.jobs = s.jobs.eraseIdx i
      ∧ sent_packets s1.effects = sent_packets s.effects ++ [p]
      ∧ p.max_size = min (guint (c.avahi_key_get_estimate_size pj.record.key
          + c.avahi_record_get_estimate_size pj.record + c.AVAHI_DNS_PACKET_HEADER_SIZE))
          c.AVAHI_DNS_PACKET_MAX_SIZE
      ∧ p.questions = [probe_key c pj.record] ∧ p.authority = [pj.record]
      ∧ p.qdcount = 1 ∧ p.nscount = 1 := by
  have hsize : (if guint (c.avahi_key_get_estimate_size pj.record.key
      + c.avahi_record_get_estimate_size pj.record + c.AVAHI_DNS_PACKET_HEADER_SIZE)
        > c.AVAHI_DNS_PACKET_MAX_SIZE then c.AVAHI_DNS_PACKET_MAX_SIZE
      else guint (c.avahi_key_get_estimate_size pj.record.key
      + c.avahi_record_get_estimate_size pj.record + c.AVAHI_DNS_PACKET_HEADER_SIZE))
      = large_packet_size c pj.record := by
    unfold large_packet_size
    split
    · exact (Nat.min_eq_right (Nat.le_of_lt (by assumption))).symm
    · exact (Nat.min_eq_left (Nat.le_of_not_lt (by assumption))).symm
  have hk1 : avahi_dns_packet_append_key c (avahi_dns_packet_new_query (large_packet_size c pj.record))
      (avahi_key_new pj.record.key.name pj.record.key.clazz c.AVAHI_DNS_TYPE_ANY) = some p1 := hk
  have hp1 := append_key_some hk
  have hp2 := append_record_some hr
  refine ⟨_, avahi_dns_packet_set_field (avahi_dns_packet_set_field p2 .NSCOUNT 1) .QDCOUNT 1,
    elapse_callback_large hi hch hbig, ?_⟩
  have hi1 : ({ s with effects := s.effects ++ [Effect.send_packet (avahi_dns_packet_set_field
      (avahi_dns_packet_set_field p2 .NSCOUNT 1) .QDCOUNT 1)] } : AvahiProbeScheduler).jobs[i]?
        = some pj := hi
  simp only [elapse_large, hsize, hk1, hr, job_free_at hi1]
  subst hp2; subst hp1
  simp [sent_packets_append, sent_packets, sent_packets_job_free_effects,
    avahi_dns_packet_set_field, avahi_dns_packet_new_query, large_packet_size]

/-- C4, amended, at a concrete queue: MTU 112, a record with 118 bytes of estimates at the
list head and a second job behind it. -/
theorem large_probe_one_packet_witness :
    ∃ s1 p, elapse_callback (byte_codec 112 9000) large_sched 0 = .ok s1
      ∧ s1.jobs = [example_job 0 (example_record "b" 1 4)]
      ∧ sent_packets s1.effects = [] ++ [p]
      ∧ p.max_size = 130
      ∧ p.questions = [probe_key (byte_codec 112 9000) (example_record "a" 1 100)]
      ∧ p.authority = [example_record "a" 1 100]
      ∧ p.qdcount = 1 ∧ p.nscount = 1 :=
  large_probe_one_packet (byte_codec 112 9000) large_sched 0
    (example_job 1 (example_record "a" 1 100))
    { max_size := 130, questions := [probe_key (byte_codec 112 9000) (example_record "a" 1 100)],
      authority := [], qdcount := 0, nscount := 0 }
    { max_size := 130, questions := [probe_key (byte_codec 112 9000) (example_record "a" 1 100)],
      authority := [example_record "a" 1 100], qdcount := 0, nscount := 0 }
    rfl rfl (by decide) (by decide) (by decide)

/-- C5, as stated, fails: for MTU 90, absolute maximum size 90 and a record estimate that
is 10 bytes low, the record of 80 bytes of the seed cannot be appended to a packet of the
absolute maximum size, neither to the empty one (78 bytes left) nor after the question
(72 bytes left); but its estimates (6 + 70 bytes) fit the MTU-sized packet, so the
normal path is taken: the append of the record fails in the authority loop, a packet with
two questions and no record is sent, and both jobs stay in the queue. -/
theorem too_large_probe_sent_counterexample :
    avahi_dns_packet_append_record (low_estimate_codec 90 90)
        (avahi_dns_packet_new_query (low_estimate_codec 90 90).AVAHI_DNS_PACKET_MAX_SIZE)
        (example_record "a" 1 68) = none
    ∧ (∃ p1, avahi_dns_packet_append_key (low_estimate_codec 90 90)
          (avahi_dns_packet_new_query (low_estimate_codec 90 90).AVAHI_DNS_PACKET_MAX_SIZE)
          (probe_key (low_estimate_codec 90 90) (example_record "a" 1 68)) = some p1
        ∧ avahi_dns_packet_append_record (low_estimate_codec 90 90) p1
            (example_record "a" 1 68) = none)
    ∧ ∃ s1 p, elapse_callback (low_estimate_codec 90 90) tight_sched 0 = .ok s1
        ∧ s1.effects = [Effect.warning "Bad probe size estimate!", Effect.send_packet p]
        ∧ p.questions = [probe_key (low_estimate_codec 90 90) (example_record "a" 1 68),
            probe_key (low_estimate_codec 90 90) (example_record "b" 1 4)]
        ∧ p.authority = [] ∧ p.qdcount = 2 ∧ p.nscount = 0
        ∧ s1.jobs = tight_sched.jobs :=
  ⟨rfl, ⟨_, rfl, rfl⟩, _, _, rfl, rfl, rfl, rfl, rfl, rfl, rfl⟩

/-- C5, amended: a seed job (unchosen, at position `i`) whose key estimate plus record
estimate, as the `guint` sum the code computes, exceeds the space of the MTU-sized packet,
and whose question or record cannot be appended to the packet the larger-packet branch
allocates, of capacity min(key estimate + record estimate + header size, absolute maximum
packet size): firing it sends no packet, only warns, removes the seed job from the queue
with exactly one release of its record reference, and leaves the other jobs in the queue
as they were. -/
theorem too_large_probe_dropped (c : Codec) (s : AvahiProbeScheduler) (i : Nat)
    (pj : AvahiProbeJob)
    (hi : s.jobs[i]? = some pj) (hch : pj.chosen = false)
    (hbig : c.avahi_dns_packet_space (avahi_dns_packet_new_query c.mtu)
      < probe_estimate c pj.record)
    (hfail : avahi_dns_packet_append_key c
          (avahi_dns_packet_new_query (large_packet_size c pj.record))
          (probe_key c pj.record) = none
      ∨ ∃ p1, avahi_dns_packet_append_key c
          (avahi_dns_packet_new_query (large_packet_size c pj.record))
          (probe_key c pj.record) = some p1
        ∧ avahi_dns_packet_append_record c p1 pj.record = none) :
    ∃ s1, elapse_callback c s i = .ok s1
      ∧ s1.jobs = s.jobs.eraseIdx i
      ∧ sent_packets s1.effects = sent_packets s.effects
      ∧ s1.effects = s.effects ++ [Effect.warning "Probe record too large, cannot send"]
          ++ job_free_effects pj
      ∧ unref_count s1.effects = unref_count s.effects + 1 := by
  have hsize : (if guint (c.avahi_key_get_estimate_size pj.record.key
      + c.avahi_record_get_estimate_size pj.record + c.AVAHI_DNS_PACKET_HEADER_SIZE)
        > c.AVAHI_DNS_PACKET_MAX_SIZE then c.AVAHI_DNS_PACKET_MAX_SIZE
      else guint (c.avahi_key_get_estimate_size pj.record.key
      + c.avahi_record_get_estimate_size pj.record + c.AVAHI_DNS_PACKET_HEADER_SIZE))
      = large_packet_size c pj.record := by
    unfold large_packet_size
    split
    · exact (Nat.min_eq_right (Nat.le_of_lt (by assumption))).symm
    · exact (Nat.min_eq_left (Nat.le_of_not_lt (by assumption))).symm
  refine ⟨_, elapse_callback_large hi hch hbig, ?_⟩
  have hi1 : ({ s with effects := s.effects
      ++ [Effect.warning "Probe record too large, cannot send"] }
        : AvahiProbeScheduler).jobs[i]? = some pj := hi
  have hl : elapse_large c s i pj
      = { s with jobs := s.jobs.eraseIdx i,
                 effects := s.effects ++ [Effect.warning "Probe record too large, cannot send"]
                   ++ job_free_effects pj } := by
    rcases hfail with hk | ⟨p1, hk, hr⟩
    · have hk1 : avahi_dns_packet_append_key c
          (avahi_dns_packet_new_query (large_packet_size c pj.record))
          (avahi_key_new pj.record.key.name pj.record.key.clazz c.AVAHI_DNS_TYPE_ANY)
            = none := hk
      simp only [elapse_large, hsize, hk1, job_free_at hi1]
    · have hk1 : avahi_dns_packet_append_key c
          (avahi_dns_packet_new_query (large_packet_size c pj.record))
          (avahi_key_new pj.record.key.name pj.record.key.clazz c.AVAHI_DNS_TYPE_ANY)
            = some p1 := hk
      simp only [elapse_large, hsize, hk1, hr, job_free_at hi1]
  rw [hl]
  simp [sent_packets_append, sent_packets, sent_packets_job_free_effects, unref_count_append,
    unref_count, unref_count_job_free_effects]

/-- C5, amended, at a concrete queue: MTU 62, absolute maximum 90, a record of 112 bytes at
the list head and a second job behind it. -/
theorem too_large_probe_dropped_witness :
    ∃ s1, elapse_callback (byte_codec 62 90) large_sched 0 = .ok s1
      ∧ s1.jobs = [example_job 0 (example_record "b" 1 4)]
      ∧ sent_packets s1.effects = []
      ∧ s1.effects = [] ++ [Effect.warning "Probe record too large, cannot send"]
          ++ job_free_effects (example_job 1 (example_record "a" 1 100))
      ∧ unref_count s1.effects = 0 + 1 :=
  too_large_probe_dropped (byte_codec 62 90) large_sched 0
    (example_job 1 (example_record "a" 1 100)) rfl rfl (by decide)
    (Or.inr ⟨{ max_size := 90,
               questions := [probe_key (byte_codec 62 90) (example_record "a" 1 100)],
               authority := [], qdcount := 0, nscount := 0 }, by decide, by decide⟩)

/-! ## C6 -/

theorem post_ok (c : Codec) (s : AvahiProbeScheduler) (r : AvahiRecord) (imm : Bool) (now : Nat)
    (hp : c.avahi_key_is_pattern r.key = false) :
    avahi_probe_scheduler_post c s r imm now
      = .ok ({ jobs := { time_event := some s.next_time_event, chosen := false,
                         delivery := avahi_elapse_time now
                           (if imm then 0 else AVAHI_PROBE_DEFER_MSEC),
                         record := r } :: s.jobs,
               effects := s.effects ++ [Effect.record_ref r]
                 ++ [Effect.time_event_queue_add s.next_time_event
                      (avahi_elapse_time now (if imm then 0 else AVAHI_PROBE_DEFER_MSEC))],
               next_time_event := s.next_time_event + 1 }, true) := by
  simp [avahi_probe_scheduler_post, hp, job_new]

/-- C6, as stated, fails: after posting a record named "a" and then one named "b" on a new
scheduler, iteration from the list head visits "b", the job posted last, first. -/
theorem post_order_counterexample :
    ∃ s, post_all (byte_codec 1500 9000) avahi_probe_scheduler_new
        [(example_record "a" 1 4, false, 0), (example_record "b" 1 4, false, 5)] = .ok s
      ∧ queue_records s = [example_record "b" 1 4, example_record "a" 1 4]
      ∧ queue_records s ≠ [example_record "a" 1 4, example_record "b" 1 4] :=
  ⟨_, rfl, rfl, by decide⟩

/-- C6, amended: for every sequence of post calls (with non-pattern keys) on a scheduler,
all calls succeed and the iteration order of the queue is the reverse of the arrival
order: the job posted last is at the list head, followed by the earlier ones, followed
by the jobs that were already queued. -/
theorem post_order_reversed (c : Codec) (reqs : List (AvahiRecord × Bool × Nat))
    (s : AvahiProbeScheduler)
    (hp : ∀ q ∈ reqs, c.avahi_key_is_pattern q.1.key = false) :
    ∃ s1, post_all c s reqs = .ok s1
      ∧ queue_records s1 = (reqs.map (fun q => q.1)).reverse ++ queue_records s := by
  induction reqs generalizing s with
  | nil => exact ⟨s, rfl, by simp⟩
  | cons q rest ih =>
    obtain ⟨r, imm, now⟩ := q
    have hr : c.avahi_key_is_pattern r.key = false := hp (r, imm, now) (List.mem_cons_self _ _)
    obtain ⟨s1, h1, h2⟩ := ih _ (fun q hq => hp q (List.mem_cons_of_mem _ hq))
    refine ⟨s1, ?_, ?_⟩
    · simp only [post_all, post_ok c s r imm now hr]
      exact h1
    · rw [h2]
      simp [queue_records]

/-- C6, amended, at a concrete sequence: three posts on a new scheduler. -/
theorem post_order_reversed_witness :
    ∃ s1, post_all (byte_codec 1500 9000) avahi_probe_scheduler_new
        [(example_record "a" 1 4, false, 0), (example_record "b" 1 4, true, 5),
          (example_record "c" 1 4, false, 9)] = .ok s1
      ∧ queue_records s1
          = ([(example_record "a" 1 4, false, 0), (example_record "b" 1 4, true, 5),
              (example_record "c" 1 4, false, 9)].map (fun q => q.1)).reverse
            ++ queue_records avahi_probe_scheduler_new :=
  post_order_reversed (byte_codec 1500 9000) _ avahi_probe_scheduler_new (by decide)

/-! ## C9 -/

theorem job_free_head (s : AvahiProbeScheduler) (pj : AvahiProbeJob) (rest : List AvahiProbeJob)
    (h : s.jobs = pj :: rest) :
    job_free s 0 = { s with jobs := rest, effects := s.effects ++ job_free_effects pj } := by
  simp [job_free, h]

theorem clear_run (fuel : Nat) (s : AvahiProbeScheduler) (h : s.jobs.length ≤ fuel) :
    avahi_probe_scheduler_clear fuel s
      = some { s with jobs := [], effects := s.effects ++ clear_effects s.jobs } := by
  induction fuel generalizing s with
  | zero =>
    have hnil : s.jobs = [] := List.length_eq_zero.mp (Nat.le_zero.mp h)
    cases s
    simp_all [avahi_probe_scheduler_clear, clear_effects]
  | succ fuel ih =>
    cases hj : s.jobs with
    | nil =>
      cases s
      simp_all [avahi_probe_scheduler_clear, clear_effects]
    | cons pj rest =>
      have hlen : rest.length ≤ fuel := by
        rw [hj] at h
        simpa using h
      simp only [avahi_probe_scheduler_clear, hj, List.isEmpty_cons, Bool.false_eq_true,
        if_false, job_free_head s pj rest hj]
      rw [ih _ hlen]
      simp [clear_effects]

theorem unref_count_clear_effects (jobs : List AvahiProbeJob) :
    unref_count (clear_effects jobs) = jobs.length := by
  induction jobs with
  | nil => rfl
  | cons pj rest ih =>
    simp [clear_effects, unref_count_append, unref_count_job_free_effects, ih]
    omega

theorem remove_count_clear_effects (jobs : List AvahiProbeJob)
    (h : ∀ pj ∈ jobs, pj.time_event.isSome = true) :
    remove_count (clear_effects jobs) = jobs.length := by
  induction jobs with
  | nil => rfl
  | cons pj rest ih =>
    have h1 : pj.time_event.isSome = true := h pj (List.mem_cons_self _ _)
    have h2 := ih (fun q hq => h q (List.mem_cons_of_mem _ hq))
    simp [clear_effects, remove_count_append, remove_count_job_free_effects, h1, h2]
    omega

/-- C9: for a queue of N pending jobs (each holding its timer handle),
`avahi_probe_scheduler_clear` terminates (N iterations are enough, and any larger bound
gives the same result), leaves the queue empty, performs exactly N timer removals and
exactly N record releases, namely those of `job_free` for each job in turn; for N = 0 it
changes nothing, so clearing the cleared queue again has no further effect. -/
theorem clear_releases_all (s : AvahiProbeScheduler)
    (hpending : ∀ pj ∈ s.jobs, pj.time_event.isSome = true) :
    ∃ s1, avahi_probe_scheduler_clear s.jobs.length s = some s1
      ∧ (∀ fuel, s.jobs.length ≤ fuel → avahi_probe_scheduler_clear fuel s = some s1)
      ∧ s1.jobs = []
      ∧ s1.effects = s.effects ++ clear_effects s.jobs
      ∧ remove_count s1.effects = remove_count s.effects + s.jobs.length
      ∧ unref_count s1.effects = unref_count s.effects + s.jobs.length
      ∧ (s.jobs.length = 0 → s1 = s)
      ∧ (∀ fuel, avahi_probe_scheduler_clear fuel s1 = some s1) := by
  refine ⟨_, clear_run _ s (Nat.le_refl _), fun fuel hf => clear_run fuel s hf, rfl, rfl,
    ?_, ?_, ?_, ?_⟩
  · simp [remove_count_append, remove_count_clear_effects s.jobs hpending]
  · simp [unref_count_append, unref_count_clear_effects]
  · intro h0
    have hnil : s.jobs = [] := List.length_eq_zero.mp h0
    cases s
    simp_all [clear_effects]
  · intro fuel
    rw [clear_run fuel _ (Nat.zero_le _)]
    simp [clear_effects]

/-- C9 at a concrete queue of three pending jobs. -/
theorem clear_releases_all_witness :
    ∃ s1, avahi_probe_scheduler_clear 3 three_sched = some s1
      ∧ (∀ fuel, 3 ≤ fuel → avahi_probe_scheduler_clear fuel three_sched = some s1)
      ∧ s1.jobs = []
      ∧ s1.effects = [] ++ clear_effects three_sched.jobs
      ∧ remove_count s1.effects = 0 + 3
      ∧ unref_count s1.effects = 0 + 3
      ∧ (3 = 0 → s1 = three_sched)
      ∧ (∀ fuel, avahi_probe_scheduler_clear fuel s1 = some s1) :=
  clear_releases_all three_sched (by decide)

/-! ## C7 -/

theorem unmark_unmark (pj : AvahiProbeJob) : unmark (unmark pj) = unmark pj := rfl

theorem unmark_mark (pj : AvahiProbeJob) : unmark { pj with chosen := true } = unmark pj := rfl

theorem unmark_of_unchosen {pj : AvahiProbeJob} (h : pj.chosen = false) : unmark pj = pj := by
  cases pj
  simp_all [unmark]

theorem map_unmark_scan_matching (c : Codec) (p : AvahiDnsPacket) (k : AvahiKey)
    (jobs : List AvahiProbeJob) :
    (scan_matching c p k jobs).map unmark = jobs.map unmark := by
  induction jobs with
  | nil => rfl
  | cons pj rest ih =>
    unfold scan_matching
    split
    · simp [ih]
    · split
      · simp [ih]
      · split
        · rfl
        · simp [ih, unmark_mark]

theorem map_unmark_set_mark {jobs : List AvahiProbeJob} {i : Nat} {pj : AvahiProbeJob}
    (hi : jobs[i]? = some pj) :
    (jobs.set i { pj with chosen := true }).map unmark = jobs.map unmark := by
  rw [List.map_set, unmark_mark]
  apply List.ext_getElem?
  intro j
  by_cases hj : i = j
  · subst hj
    have hlt : i < jobs.length := by
      by_contra hge
      rw [List.getElem?_eq_none (Nat.le_of_not_lt hge)] at hi
      cases hi
    have hget : jobs[i] = pj := by
      rw [List.getElem?_eq_getElem hlt] at hi
      exact Option.some.inj hi
    rw [List.getElem?_set]
    simp [hlt, hget]
  · rw [List.getElem?_set_ne hj]

theorem packet_add_probe_query_false {c : Codec} {s s1 : AvahiProbeScheduler}
    {p p1 : AvahiDnsPacket} {i : Nat}
    (h : packet_add_probe_query c s p i = .ok (s1, p1, false)) : s1 = s ∧ p1 = p := by
  unfold packet_add_probe_query at h
  split at h
  · cases h
  · split at h
    · cases h
    · dsimp only at h
      split at h
      · cases h
        exact ⟨rfl, rfl⟩
      · split at h <;> cases h

theorem packet_add_probe_query_jobs {c : Codec} {s s1 : AvahiProbeScheduler}
    {p p1 : AvahiDnsPacket} {i : Nat} {b : Bool}
    (h : packet_add_probe_query c s p i = .ok (s1, p1, b)) :
    s1.jobs.map unmark = s.jobs.map unmark ∧ s1.effects = s.effects
      ∧ s1.next_time_event = s.next_time_event := by
  unfold packet_add_probe_query at h
  split at h
  · cases h
  · rename_i pj hi
    split at h
    · cases h
    · dsimp only at h
      split at h
      · cases h
        exact ⟨rfl, rfl, rfl⟩
      · split at h
        · cases h
        · cases h
          refine ⟨?_, rfl, rfl⟩
          simp only [map_unmark_scan_matching]
          exact map_unmark_set_mark hi

theorem packet_add_probe_query_assert {c : Codec} {s : AvahiProbeScheduler}
    {p : AvahiDnsPacket} {i : Nat}
    (h : packet_add_probe_query c s p i = .error .assert_not_chosen) :
    ∃ pj, s.jobs[i]? = some pj ∧ pj.chosen = true := by
  unfold packet_add_probe_query at h
  split at h
  · cases h
  · rename_i pj hi
    split at h
    · exact ⟨pj, hi, by assumption⟩
    · dsimp only at h
      split at h
      · cases h
      · split at h <;> cases h

theorem fill_loop_jobs (c : Codec) (todo : Nat) :
    ∀ (i : Nat) (s : AvahiProbeScheduler) (p : AvahiDnsPacket) (n : Nat)
      (s1 : AvahiProbeScheduler) (p1 : AvahiDnsPacket) (n1 : Nat),
      fill_loop c todo i s p n = .ok (s1, p1, n1) →
      s1.jobs.map unmark = s.jobs.map unmark ∧ s1.effects = s.effects
        ∧ s1.next_time_event = s.next_time_event := by
  induction todo with
  | zero =>
    intro i s p n s1 p1 n1 h
    simp only [fill_loop] at h
    cases h
    exact ⟨rfl, rfl, rfl⟩
  | succ todo ih =>
    intro i s p n s1 p1 n1 h
    simp only [fill_loop] at h
    split at h
    · cases h
      exact ⟨rfl, rfl, rfl⟩
    · split at h
      · exact ih _ _ _ _ _ _ _ h
      · split at h
        · cases h
        · rename_i s2 p2 hadd
          cases h
          exact packet_add_probe_query_jobs hadd
        · rename_i s2 p2 hadd
          obtain ⟨h1, h2, h3⟩ := packet_add_probe_query_jobs hadd
          obtain ⟨h4, h5, h6⟩ := ih _ _ _ _ _ _ _ h
          exact ⟨h4.trans h1, h5.trans h2, h6.trans h3⟩

theorem fill_loop_no_chosen_assert (c : Codec) (todo : Nat) :
    ∀ (i : Nat) (s : AvahiProbeScheduler) (p : AvahiDnsPacket) (n : Nat),
      fill_loop c todo i s p n ≠ .error .assert_not_chosen := by
  induction todo with
  | zero =>
    intro i s p n h
    simp only [fill_loop] at h
    cases h
  | succ todo ih =>
    intro i s p n h
    simp only [fill_loop] at h
    split at h
    · cases h
    · rename_i pj hi
      split at h
      · exact ih _ _ _ _ h
      · rename_i hch
        split at h
        · rename_i e hadd
          cases h
          obtain ⟨pj1, hi1, hch1⟩ := packet_add_probe_query_assert hadd
          rw [hi] at hi1
          cases hi1
          exact hch hch1
        · cases h
        · exact ih _ _ _ _ h

theorem getElem?_lt_length {jobs : List AvahiProbeJob} {i : Nat} {pj : AvahiProbeJob}
    (hi : jobs[i]? = some pj) : i < jobs.length := by
  by_contra hge
  rw [List.getElem?_eq_none (Nat.le_of_not_lt hge)] at hi
  cases hi

theorem unmark_following_unchosen (i : Nat) (jobs : List AvahiProbeJob)
    (hfront : ∀ j pj, j < i → jobs[j]? = some pj → pj.chosen = false) :
    ∀ pj ∈ unmark_following i jobs, pj.chosen = false := by
  intro pj hpj
  unfold unmark_following at hpj
  rcases List.mem_append.mp hpj with h | h
  · obtain ⟨j, hj⟩ := List.mem_iff_getElem?.mp h
    rw [List.getElem?_take] at hj
    split at hj
    · exact hfront j pj (by assumption) hj
    · cases hj
  · obtain ⟨q, _, rfl⟩ := List.mem_map.mp h
    rfl

theorem authority_loop_unchosen (c : Codec) (todo : Nat) :
    ∀ (i : Nat) (s : AvahiProbeScheduler) (p : AvahiDnsPacket) (n : Nat),
      s.jobs.length ≤ i + todo →
      (∀ j pj, j < i → s.jobs[j]? = some pj → pj.chosen = false) →
      AllUnchosen (authority_loop c todo i s p n).1 := by
  induction todo with
  | zero =>
    intro i s p n hlen hfront pj hpj
    simp only [authority_loop] at hpj
    obtain ⟨j, hj⟩ := List.mem_iff_getElem?.mp hpj
    exact hfront j pj (Nat.lt_of_lt_of_le (getElem?_lt_length hj) hlen) hj
  | succ todo ih =>
    intro i s p n hlen hfront
    simp only [authority_loop]
    split
    · rename_i hnone
      intro pj hpj
      obtain ⟨j, hj⟩ := List.mem_iff_getElem?.mp hpj
      have hjl := getElem?_lt_length hj
      have hil : s.jobs.length ≤ i := by
        by_contra hlt
        rw [List.getElem?_eq_getElem (Nat.lt_of_not_le hlt)] at hnone
        cases hnone
      exact hfront j pj (Nat.lt_of_lt_of_le hjl hil) hj
    · rename_i pj hi
      split
      · rename_i hch
        apply ih (i + 1) s p n (by omega)
        intro j q hj hq
        rcases Nat.lt_succ_iff_lt_or_eq.mp hj with hlt | heq
        · exact hfront j q hlt hq
        · subst heq
          rw [hi] at hq
          cases hq
          exact hch
      · split
        · exact unmark_following_unchosen i s.jobs hfront
        · have hil := getElem?_lt_length hi
          apply ih i (job_free s i) _ _
          · rw [job_free_at hi]
            simp only [List.length_eraseIdx_of_lt hil]
            omega
          · intro j q hj hq
            rw [job_free_at hi] at hq
            simp only [List.getElem?_eraseIdx_of_lt _ _ _ hj] at hq
            exact hfront j q hj hq

/-! ## The iteration bounds of the two loops are enough

`fill_loop` and `authority_loop` are run with the list length as bound; any bound that
covers the jobs from the cursor on gives the same result, so the bound never cuts a loop
short. -/

theorem getElem?_none_of_le {jobs : List AvahiProbeJob} {i : Nat} (h : jobs.length ≤ i) :
    jobs[i]? = none := List.getElem?_eq_none h

theorem packet_add_probe_query_length {c : Codec} {s s1 : AvahiProbeScheduler}
    {p p1 : AvahiDnsPacket} {i : Nat} {b : Bool}
    (h : packet_add_probe_query c s p i = .ok (s1, p1, b)) :
    s1.jobs.length = s.jobs.length := by
  have h1 := congrArg List.length (packet_add_probe_query_jobs h).1
  simpa using h1

theorem fill_loop_bound (c : Codec) (todo : Nat) :
    ∀ (todo1 i : Nat) (s : AvahiProbeScheduler) (p : AvahiDnsPacket) (n : Nat),
      s.jobs.length ≤ i + todo → s.jobs.length ≤ i + todo1 →
      fill_loop c todo i s p n = fill_loop c todo1 i s p n := by
  induction todo with
  | zero =>
    intro todo1 i s p n h _
    cases todo1 with
    | zero => rfl
    | succ todo1 => simp only [fill_loop, getElem?_none_of_le (show s.jobs.length ≤ i from h)]
  | succ todo ih =>
    intro todo1 i s p n h h1
    cases todo1 with
    | zero => simp only [fill_loop, getElem?_none_of_le (show s.jobs.length ≤ i from h1)]
    | succ todo1 =>
      simp only [fill_loop]
      split
      · rfl
      · split
        · exact ih todo1 (i + 1) s p n (by omega) (by omega)
        · split
          · rfl
          · rfl
          · rename_i s2 p2 hadd
            have hl := packet_add_probe_query_length hadd
            exact ih todo1 (i + 1) s2 p2 _ (by omega) (by omega)

theorem authority_loop_bound (c : Codec) (todo : Nat) :
    ∀ (todo1 i : Nat) (s : AvahiProbeScheduler) (p : AvahiDnsPacket) (n : Nat),
      s.jobs.length ≤ i + todo → s.jobs.length ≤ i + todo1 →
      authority_loop c todo i s p n = authority_loop c todo1 i s p n := by
  induction todo with
  | zero =>
    intro todo1 i s p n h _
    cases todo1 with
    | zero => rfl
    | succ todo1 => simp only [authority_loop, getElem?_none_of_le (show s.jobs.length ≤ i from h)]
  | succ todo ih =>
    intro todo1 i s p n h h1
    cases todo1 with
    | zero => simp only [authority_loop, getElem?_none_of_le (show s.jobs.length ≤ i from h1)]
    | succ todo1 =>
      simp only [authority_loop]
      split
      · rfl
      · rename_i pj hi
        split
        · exact ih todo1 (i + 1) s p n (by omega) (by omega)
        · split
          · rfl
          · have hil := getElem?_lt_length hi
            have hl : (job_free s i).jobs.length = s.jobs.length - 1 := by
              rw [job_free_at hi]
              exact List.length_eraseIdx_of_lt hil
            exact ih todo1 i (job_free s i) _ _ (by omega) (by omega)

theorem job_free_unchosen {s : AvahiProbeScheduler} (i : Nat) (h : AllUnchosen s) :
    AllUnchosen (job_free s i) := by
  intro pj hpj
  unfold job_free at hpj
  split at hpj
  · exact h pj hpj
  · exact h pj ((List.eraseIdx_sublist _ _).subset hpj)

theorem clear_unchosen (fuel : Nat) :
    ∀ (s s1 : AvahiProbeScheduler), AllUnchosen s →
      avahi_probe_scheduler_clear fuel s = some s1 → AllUnchosen s1 := by
  induction fuel with
  | zero =>
    intro s s1 h hc
    simp only [avahi_probe_scheduler_clear] at hc
    split at hc
    · cases hc
      exact h
    · cases hc
  | succ fuel ih =>
    intro s s1 h hc
    simp only [avahi_probe_scheduler_clear] at hc
    split at hc
    · cases hc
      exact h
    · exact ih _ _ (job_free_unchosen 0 h) hc

theorem post_unchosen {c : Codec} {s s1 : AvahiProbeScheduler} {r : AvahiRecord}
    {imm b : Bool} {now : Nat} (h : AllUnchosen s)
    (hp : avahi_probe_scheduler_post c s r imm now = .ok (s1, b)) : AllUnchosen s1 := by
  unfold avahi_probe_scheduler_post at hp
  split at hp
  · cases hp
  · cases hp
    intro pj hpj
    simp only [job_new, List.mem_cons] at hpj
    rcases hpj with rfl | hpj
    · rfl
    · exact h pj hpj

theorem elapse_large_unchosen (c : Codec) {s : AvahiProbeScheduler} (i : Nat)
    (pj : AvahiProbeJob) (h : AllUnchosen s) : AllUnchosen (elapse_large c s i pj) := by
  unfold elapse_large
  apply job_free_unchosen
  dsimp only
  split <;> exact h

theorem elapse_callback_unchosen {c : Codec} {s s1 : AvahiProbeScheduler} {i : Nat}
    (h : AllUnchosen s) (he : elapse_callback c s i = .ok s1) : AllUnchosen s1 := by
  unfold elapse_callback at he
  split at he
  · cases he
  · dsimp only at he
    split at he
    · cases he
    · rename_i s2 p2 hadd
      cases he
      obtain ⟨rfl, _⟩ := packet_add_probe_query_false hadd
      exact elapse_large_unchosen c i _ h
    · split at he
      · cases he
      · cases he
        intro pj hpj
        simp only [finish_build] at hpj
        exact authority_loop_unchosen c _ 0 _ _ _ (by omega)
          (fun j q hj _ => absurd hj (Nat.not_lt_zero j)) pj hpj

theorem elapse_callback_no_chosen_assert {c : Codec} {s : AvahiProbeScheduler} (i : Nat)
    (h : AllUnchosen s) : elapse_callback c s i ≠ .error .assert_not_chosen := by
  intro he
  unfold elapse_callback at he
  split at he
  · cases he
  · rename_i pj hi
    dsimp only at he
    split at he
    · rename_i e hadd
      cases he
      obtain ⟨pj1, hi1, hch1⟩ := packet_add_probe_query_assert hadd
      have := h pj1 (List.mem_iff_getElem?.mpr ⟨i, hi1⟩)
      rw [this] at hch1
      cases hch1
    · cases he
    · split at he
      · rename_i e hfill
        cases he
        exact fill_loop_no_chosen_assert c _ _ _ _ _ hfill
      · cases he

theorem reachable_unchosen {c : Codec} {s : AvahiProbeScheduler} (h : Reachable c s) :
    AllUnchosen s := by
  induction h with
  | new => intro pj hpj; cases hpj
  | post _ hp ih => exact post_unchosen ih hp
  | clear _ hc ih => exact clear_unchosen _ _ _ ih hc
  | elapse _ he ih => exact elapse_callback_unchosen ih he

/-- C7: the predicate "every job in the queue has chosen = false" is preserved by post, by
clear and by every complete run of elapse_callback (whichever branch it takes); from a
state that satisfies it the assertion `!pj->chosen` never fails; and it holds in every
state reachable from a new scheduler by these operations. -/
theorem chosen_flag_invariant (c : Codec) :
    (∀ s, AllUnchosen s →
        (∀ r imm now s1 b, avahi_probe_scheduler_post c s r imm now = .ok (s1, b)
          → AllUnchosen s1)
      ∧ (∀ fuel s1, avahi_probe_scheduler_clear fuel s = some s1 → AllUnchosen s1)
      ∧ (∀ i s1, elapse_callback c s i = .ok s1 → AllUnchosen s1)
      ∧ (∀ i, elapse_callback c s i ≠ .error .assert_not_chosen))
    ∧ (∀ s, Reachable c s →
        AllUnchosen s ∧ ∀ i, elapse_callback c s i ≠ .error .assert_not_chosen) :=
  ⟨fun _ h => ⟨fun _ _ _ _ _ hp => post_unchosen h hp,
      fun fuel _ hc => clear_unchosen fuel _ _ h hc,
      fun _ _ he => elapse_callback_unchosen h he,
      fun i => elapse_callback_no_chosen_assert i h⟩,
   fun _ h => ⟨reachable_unchosen h,
      fun i => elapse_callback_no_chosen_assert i (reachable_unchosen h)⟩⟩

theorem same_name_sched_unchosen : AllUnchosen same_name_sched := by
  intro pj hpj
  simp only [same_name_sched, List.mem_cons, List.mem_singleton, List.not_mem_nil,
    or_false] at hpj
  rcases hpj with rfl | rfl <;> rfl

/-- C7 at a concrete run: a build that takes the authority-append failure branch. -/
theorem chosen_flag_invariant_witness :
    AllUnchosen same_name_sched
      ∧ ∃ s1, elapse_callback (byte_codec 112 9000) same_name_sched 1 = .ok s1
          ∧ AllUnchosen s1 :=
  ⟨same_name_sched_unchosen, _, rfl,
    ((chosen_flag_invariant (byte_codec 112 9000)).1 same_name_sched
      same_name_sched_unchosen).2.2.1 1 _ rfl⟩

/-! ## C8 -/

theorem byte_codec_not_optimistic (mtu max_size : Nat) :
    EstimatesNotOptimistic (byte_codec mtu max_size) key_wire_size record_wire_size where
  key_estimate := fun _ => Nat.le_refl _
  record_estimate := fun _ => Nat.le_refl _
  key_succeeds := fun p k h => by simpa [byte_codec] using h
  record_succeeds := fun p r h => by simpa [byte_codec] using h
  key_consumes := fun p k => by
    simp only [byte_codec, packet_size, List.map_append, List.sum_append, List.map_cons,
      List.map_nil, List.sum_cons, List.sum_nil]
    omega
  record_consumes := fun p r => by
    simp only [byte_codec, packet_size, List.map_append, List.sum_append, List.map_cons,
      List.map_nil, List.sum_cons, List.sum_nil]
    omega
  field_free := fun p f v => by
    cases f <;> rfl

/-- C8 fails on the code: with the byte counting codec (exact estimates, appends succeed
whenever the bytes fit) and 100 bytes of space, two jobs for the name "a" with records of
50 bytes each are both chosen, because line 148 compares each record with the whole
remaining space; the second record append fails and "Bad probe size estimate!" is
reported. -/
theorem bad_estimate_branch_with_exact_estimates :
    EstimatesNotOptimistic (byte_codec 112 9000) key_wire_size record_wire_size
      ∧ ∃ s1 p, elapse_callback (byte_codec 112 9000) same_name_sched 0 = .ok s1
          ∧ s1.effects = job_free_effects (example_job 1 (example_record "a" 28 38))
              ++ [Effect.warning "Bad probe size estimate!", Effect.send_packet p]
          ∧ p.qdcount = 1 ∧ p.nscount = 1
          ∧ s1.jobs = [example_job 0 (example_record "a" 1 38)] :=
  ⟨byte_codec_not_optimistic 112 9000, _, _, rfl, rfl, rfl, rfl, rfl⟩

/-! ## C10 -/

theorem map_unmark_of_unchosen (jobs : List AvahiProbeJob)
    (h : ∀ pj ∈ jobs, pj.chosen = false) : jobs.map unmark = jobs := by
  induction jobs with
  | nil => rfl
  | cons pj rest ih =>
    simp only [List.map_cons]
    rw [unmark_of_unchosen (h pj (List.mem_cons_self _ _)),
      ih (fun q hq => h q (List.mem_cons_of_mem _ hq))]

theorem map_unmark_unmark_following (i : Nat) (jobs : List AvahiProbeJob) :
    (unmark_following i jobs).map unmark = jobs.map unmark := by
  have hcomp : (unmark ∘ fun pj : AvahiProbeJob => { pj with chosen := false }) = unmark := rfl
  unfold unmark_following
  rw [List.map_append, List.map_map, hcomp, ← List.map_append, List.take_append_drop]

theorem authority_loop_sublist (c : Codec) (todo : Nat) :
    ∀ (i : Nat) (s : AvahiProbeScheduler) (p : AvahiDnsPacket) (n : Nat),
      ((authority_loop c todo i s p n).1.jobs.map unmark).Sublist (s.jobs.map unmark) := by
  induction todo with
  | zero =>
    intro i s p n
    exact List.Sublist.refl _
  | succ todo ih =>
    intro i s p n
    simp only [authority_loop]
    split
    · exact List.Sublist.refl _
    · rename_i pj hi
      split
      · exact ih _ _ _ _
      · split
        · simp only [map_unmark_unmark_following]
          exact List.Sublist.refl _
        · refine (ih i (job_free s i) _ _).trans ?_
          rw [job_free_at hi]
          exact (List.eraseIdx_sublist _ _).map _

theorem elapse_large_sublist (c : Codec) (s : AvahiProbeScheduler) (i : Nat)
    (pj : AvahiProbeJob) : (elapse_large c s i pj).jobs.Sublist s.jobs := by
  unfold elapse_large job_free
  dsimp only
  split <;> split <;> first | exact List.Sublist.refl _ | exact List.eraseIdx_sublist _ _

theorem elapse_callback_sublist {c : Codec} {s s1 : AvahiProbeScheduler} {i : Nat}
    (he : elapse_callback c s i = .ok s1) :
    (s1.jobs.map unmark).Sublist (s.jobs.map unmark) := by
  unfold elapse_callback at he
  split at he
  · cases he
  · dsimp only at he
    split at he
    · cases he
    · rename_i s2 p2 hadd
      cases he
      obtain ⟨rfl, _⟩ := packet_add_probe_query_false hadd
      exact (elapse_large_sublist c _ i _).map _
    · rename_i s2 p2 hadd
      split at he
      · cases he
      · rename_i s3 p3 n hfill
        cases he
        simp only [finish_build]
        have h1 := (packet_add_probe_query_jobs hadd).1
        have h2 := (fill_loop_jobs c _ _ _ _ _ _ _ _ hfill).1
        rw [← h1, ← h2]
        exact authority_loop_sublist c _ _ _ _ _

/-- C10, as stated, fails: with 100 bytes of space and two records of 50 bytes for the
name "a", firing the second job chooses both, the append of the seed's record fails, and
the seed stays in the queue with its timer handle 0 still in place. -/
theorem seed_handle_counterexample :
    ∃ s1 p, elapse_callback (byte_codec 112 9000) same_name_sched 1 = .ok s1
      ∧ s1.effects = job_free_effects (example_job 1 (example_record "a" 28 38))
          ++ [Effect.warning "Bad probe size estimate!", Effect.send_packet p]
      ∧ s1.jobs = [example_job 0 (example_record "a" 1 38)]
      ∧ s1.jobs.map (fun pj => pj.time_event) = [some 0] :=
  ⟨_, _, rfl, rfl, rfl, rfl⟩

/-- C10, amended: `elapse_callback` never clears a timer handle.  After a complete run from
a state between operations, the queue is a sub-list of the queue before, each remaining
job exactly as it was; so a seed job left in the queue by the authority-append failure
path still holds the handle it had when its timer fired, and when every job held a
handle before, every remaining job holds one afterwards. -/
theorem elapse_callback_keeps_handles (c : Codec) (s s1 : AvahiProbeScheduler) (i : Nat)
    (h : AllUnchosen s) (he : elapse_callback c s i = .ok s1) :
    s1.jobs.Sublist s.jobs
      ∧ ((∀ pj ∈ s.jobs, pj.time_event.isSome = true)
          → ∀ pj ∈ s1.jobs, pj.time_event.isSome = true) := by
  have hsub : s1.jobs.Sublist s.jobs := by
    have h1 := elapse_callback_sublist he
    rw [map_unmark_of_unchosen _ h,
      map_unmark_of_unchosen _ (elapse_callback_unchosen h he)] at h1
    exact h1
  exact ⟨hsub, fun hall pj hpj => hall pj (hsub.subset hpj)⟩

/-- C10, amended, at a concrete run: the build that leaves the seed in the queue. -/
theorem elapse_callback_keeps_handles_witness :
    ∃ s1, elapse_callback (byte_codec 112 9000) same_name_sched 1 = .ok s1
      ∧ s1.jobs.Sublist same_name_sched.jobs
      ∧ ∀ pj ∈ s1.jobs, pj.time_event.isSome = true :=
  ⟨_, rfl,
    (elapse_callback_keeps_handles (byte_codec 112 9000) same_name_sched _ 1
      same_name_sched_unchosen rfl).1,
    (elapse_callback_keeps_handles (byte_codec 112 9000) same_name_sched _ 1
      same_name_sched_unchosen rfl).2 (by decide)⟩

/-! ## C13 -/

/-- C13: for every record with a non-pattern key, `avahi_probe_scheduler_post` returns
success (TRUE), and the job it creates, at the head of the queue, holds the record, a
fresh timer handle registered for the delivery time, and has delivery time `now` when
`immediately` is true and `now + 70` milliseconds otherwise; the delivery time is never
earlier than `now`. -/
theorem post_deadline (c : Codec) (s : AvahiProbeScheduler) (record : AvahiRecord)
    (immediately : Bool) (now : Nat) (hp : c.avahi_key_is_pattern record.key = false) :
    ∃ s1 pj, avahi_probe_scheduler_post c s record immediately now = .ok (s1, true)
      ∧ s1.jobs = pj :: s.jobs
      ∧ pj.record = record
      ∧ pj.delivery = (if immediately then now else now + 70)
      ∧ now ≤ pj.delivery
      ∧ pj.time_event = some s.next_time_event
      ∧ s1.effects = s.effects ++ [Effect.record_ref record,
          Effect.time_event_queue_add s.next_time_event pj.delivery] := by
  refine ⟨_, _, post_ok c s record immediately now hp, rfl, rfl, ?_, ?_, rfl, ?_⟩
  · cases immediately <;> rfl
  · cases immediately <;> simp [avahi_elapse_time]
  · simp

/-- C13 at a concrete call: a deferred post at time 1000 on a new scheduler. -/
theorem post_deadline_witness :
    ∃ s1 pj, avahi_probe_scheduler_post (byte_codec 1500 9000) avahi_probe_scheduler_new
        (example_record "a" 1 4) false 1000 = .ok (s1, true)
      ∧ s1.jobs = pj :: avahi_probe_scheduler_new.jobs
      ∧ pj.record = example_record "a" 1 4
      ∧ pj.delivery = (if false = true then 1000 else 1000 + 70)
      ∧ 1000 ≤ pj.delivery
      ∧ pj.time_event = some avahi_probe_scheduler_new.next_time_event
      ∧ s1.effects = avahi_probe_scheduler_new.effects
          ++ [Effect.record_ref (example_record "a" 1 4),
              Effect.time_event_queue_add avahi_probe_scheduler_new.next_time_event
                pj.delivery] :=
  post_deadline (byte_codec 1500 9000) avahi_probe_scheduler_new (example_record "a" 1 4)
    false 1000 (by decide)

/-! ## C14 -/

theorem scan_matching_cons_mark (c : Codec) (p : AvahiDnsPacket) (k : AvahiKey)
    (pj : AvahiProbeJob) (rest : List AvahiProbeJob) (h : ¬ stops_scan c p k pj) :
    scan_matching c p k (pj :: rest) = mark_matching c k pj :: scan_matching c p k rest := by
  unfold stops_scan at h
  unfold mark_matching key_matches
  simp only [scan_matching]
  by_cases hch : pj.chosen = true
  · simp [hch]
  · have hch1 : pj.chosen = false := by simpa using hch
    by_cases hcl : k.clazz = pj.record.key.clazz
    · by_cases hn : c.avahi_domain_equal k.name pj.record.key.name = true
      · have hfit : ¬ c.avahi_dns_packet_space p
            < c.avahi_record_get_estimate_size pj.record := by
          intro hlt
          exact h ⟨hch1, by simp [key_matches, hcl, hn], hlt⟩
        simp [hch1, hcl, hn, hfit]
      · have hn1 : c.avahi_domain_equal k.name pj.record.key.name = false := by simpa using hn
        simp [hch1, hcl, hn1]
    · simp [hch1, hcl]

theorem scan_matching_cons_stop (c : Codec) (p : AvahiDnsPacket) (k : AvahiKey)
    (pj : AvahiProbeJob) (rest : List AvahiProbeJob) (h : stops_scan c p k pj) :
    scan_matching c p k (pj :: rest) = pj :: rest := by
  obtain ⟨hch, hm, hlt⟩ := h
  unfold key_matches at hm
  simp only [Bool.and_eq_true, decide_eq_true_eq] at hm
  simp [scan_matching, hch, hm.1, hm.2, hlt]

/-- C14: the same-key pass of `packet_add_probe_query` over a queue.  As long as it meets
no unchosen same-key job whose record estimate exceeds the remaining space, it marks
every unchosen job with the class and name of the probe key and leaves every other job
(chosen already, or of another class or name) as it is, going on with the scan; at the
first unchosen same-key job that does not fit it stops, and that job and all jobs after
it in queue order stay exactly as they were, whether they would fit or not. -/
theorem scan_matching_stops_at_first_misfit (c : Codec) (p : AvahiDnsPacket) (k : AvahiKey)
    (front : List AvahiProbeJob) (hfront : ∀ pj ∈ front, ¬ stops_scan c p k pj) :
    scan_matching c p k front = front.map (mark_matching c k)
      ∧ ∀ x back, stops_scan c p k x →
          scan_matching c p k (front ++ x :: back)
            = front.map (mark_matching c k) ++ x :: back := by
  induction front with
  | nil =>
    refine ⟨rfl, fun x back hx => ?_⟩
    simpa using scan_matching_cons_stop c p k x back hx
  | cons pj rest ih =>
    have h1 : ¬ stops_scan c p k pj := hfront pj (List.mem_cons_self _ _)
    obtain ⟨ih1, ih2⟩ := ih (fun q hq => hfront q (List.mem_cons_of_mem _ hq))
    refine ⟨?_, fun x back hx => ?_⟩
    · rw [scan_matching_cons_mark c p k pj rest h1, ih1]
      rfl
    · rw [List.cons_append, scan_matching_cons_mark c p k pj _ h1, ih2 x back hx]
      rfl

/-- C14 at a concrete queue: a job named "b" is skipped, the small job named "a" behind it is
marked, the scan stops at the job named "a" whose record of 102 bytes exceeds the 94
bytes left, and the small job named "a" behind that one is not marked. -/
theorem scan_matching_stops_at_first_misfit_witness :
    scan_matching (byte_codec 112 9000) scan_packet
        (probe_key (byte_codec 112 9000) (example_record "a" 1 4)) scan_jobs
      = [example_job 3 (example_record "b" 1 4),
          { example_job 2 (example_record "a" 28 4) with chosen := true },
          example_job 1 (example_record "a" 16 90), example_job 0 (example_record "a" 1 4)] :=
  (scan_matching_stops_at_first_misfit (byte_codec 112 9000) scan_packet
      (probe_key (byte_codec 112 9000) (example_record "a" 1 4))
      [example_job 3 (example_record "b" 1 4), example_job 2 (example_record "a" 28 4)]
      (by
        intro pj hpj
        simp only [List.mem_cons, List.mem_singleton, List.not_mem_nil, or_false] at hpj
        rcases hpj with rfl | rfl <;> unfold stops_scan <;> decide)).2
    (example_job 1 (example_record "a" 16 90)) [example_job 0 (example_record "a" 1 4)]
    (by unfold stops_scan; decide)

/-! ## The authority pass on the list -/

theorem guint_count_eq (k : Nat) : ∀ n, n + k < 4294967296 → guint_count n k = n + k := by
  induction k with
  | zero => intro n _; rfl
  | succ k ih =>
    intro n h
    have h1 : guint (n + 1) = n + 1 := Nat.mod_eq_of_lt (by omega)
    simp only [guint_count, h1]
    rw [ih (n + 1) (by omega)]
    omega

theorem getElem?_append_cons_length (done rest : List AvahiProbeJob) (pj : AvahiProbeJob) :
    (done ++ pj :: rest)[done.length]? = some pj := by
  rw [List.getElem?_append_right (Nat.le_refl _)]
  simp

theorem eraseIdx_append_cons_length (done rest : List AvahiProbeJob) (pj : AvahiProbeJob) :
    (done ++ pj :: rest).eraseIdx done.length = done ++ rest := by
  induction done with
  | nil => rfl
  | cons a done ih => simp [List.eraseIdx, ih]

theorem unmark_following_append (done rest : List AvahiProbeJob) :
    unmark_following done.length (done ++ rest) = done ++ rest.map unmark := by
  unfold unmark_following
  rw [List.take_left', List.drop_left']
  · rfl
  · rfl
  · rfl

theorem authority_pass_unchosen (c : Codec) (pj : AvahiProbeJob)
    (rest : List AvahiProbeJob) (p : AvahiDnsPacket) (h : pj.chosen = false) :
    authority_pass c (pj :: rest) p
      = { authority_pass c rest p with kept := pj :: (authority_pass c rest p).kept } := by
  simp [authority_pass, h]

theorem authority_pass_fail (c : Codec) (pj : AvahiProbeJob)
    (rest : List AvahiProbeJob) (p : AvahiDnsPacket) (h : pj.chosen = true)
    (hap : avahi_dns_packet_append_record c p pj.record = none) :
    authority_pass c (pj :: rest) p
      = { kept := (pj :: rest).map unmark, removed := [], packet := p, failed := true } := by
  simp [authority_pass, h, hap]

theorem authority_pass_append (c : Codec) (pj : AvahiProbeJob)
    (rest : List AvahiProbeJob) (p p1 : AvahiDnsPacket) (h : pj.chosen = true)
    (hap : avahi_dns_packet_append_record c p pj.record = some p1) :
    authority_pass c (pj :: rest) p
      = { authority_pass c rest p1 with removed := pj :: (authority_pass c rest p1).removed } := by
  simp [authority_pass, h, hap]

theorem authority_loop_eq (c : Codec) (todo : Nat) :
    ∀ (done rest : List AvahiProbeJob) (s : AvahiProbeScheduler) (p : AvahiDnsPacket) (n : Nat),
      s.jobs = done ++ rest → rest.length ≤ todo →
      authority_loop c todo done.length s p n
        = ({ s with jobs := done ++ (authority_pass c rest p).kept,
                    effects := s.effects ++ clear_effects (authority_pass c rest p).removed
                      ++ estimate_warning (authority_pass c rest p).failed },
            (authority_pass c rest p).packet,
            guint_count n (authority_pass c rest p).removed.length) := by
  induction todo with
  | zero =>
    intro done rest s p n hs hlen
    have hnil : rest = [] := List.length_eq_zero.mp (Nat.le_zero.mp hlen)
    subst hnil
    cases s
    simp_all [authority_loop, authority_pass, clear_effects, estimate_warning, guint_count]
  | succ todo ih =>
    intro done rest s p n hs hlen
    cases rest with
    | nil =>
      have hnone : s.jobs[done.length]? = none := by
        rw [hs]
        simp
      cases s
      simp_all [authority_loop, authority_pass, clear_effects, estimate_warning, guint_count]
    | cons pj rest =>
      have hi : s.jobs[done.length]? = some pj := by
        rw [hs]
        exact getElem?_append_cons_length done rest pj
      have hlen1 : rest.length ≤ todo := by simpa using hlen
      simp only [authority_loop, hi]
      by_cases hch : pj.chosen = false
      · have hs1 : s.jobs = (done ++ [pj]) ++ rest := by simp [hs]
        have h1 := ih (done ++ [pj]) rest s p n hs1 hlen1
        simp only [List.length_append, List.length_singleton] at h1
        rw [if_pos hch, h1, authority_pass_unchosen c pj rest p hch]
        simp
      · have hch1 : pj.chosen = true := by simpa using hch
        rw [if_neg hch]
        cases hap : avahi_dns_packet_append_record c p pj.record with
        | none =>
          rw [authority_pass_fail c pj rest p hch1 hap]
          dsimp only
          simp only [hs, unmark_following_append, estimate_warning, clear_effects, guint_count,
            List.length_nil, List.append_nil, if_true]
        | some p1 =>
          have hfree : job_free s done.length
              = { s with jobs := done ++ rest,
                         effects := s.effects ++ job_free_effects pj } := by
            rw [job_free_at hi, hs, eraseIdx_append_cons_length]
          have h1 := ih done rest (job_free s done.length) p1 (guint (n + 1))
            (by rw [hfree]) hlen1
          rw [authority_pass_append c pj rest p p1 hch1 hap]
          dsimp only
          rw [h1, hfree]
          simp only [clear_effects, guint_count, List.length_cons, List.append_assoc]

/-! ## Cases of `packet_add_probe_query` and `elapse_callback` -/

theorem packet_add_probe_query_true {c : Codec} {s s1 : AvahiProbeScheduler}
    {p p1 : AvahiDnsPacket} {i : Nat}
    (h : packet_add_probe_query c s p i = .ok (s1, p1, true)) :
    ∃ pj, s.jobs[i]? = some pj ∧ pj.chosen = false
      ∧ probe_estimate c pj.record ≤ c.avahi_dns_packet_space p
      ∧ avahi_dns_packet_append_key c p (probe_key c pj.record) = some p1
      ∧ s1 = { s with jobs := (scan_matching c p1 (probe_key c pj.record)
                 (s.jobs.set i { pj with chosen := true })) } := by
  unfold packet_add_probe_query at h
  split at h
  · cases h
  · rename_i pj hi
    split at h
    · cases h
    · rename_i hch
      dsimp only at h
      split at h
      · cases h
      · rename_i hfit
        split at h
        · cases h
        · rename_i p2 hk
          cases h
          exact ⟨pj, hi, by simpa using hch, Nat.le_of_not_lt hfit, hk, rfl⟩

theorem packet_add_probe_query_false_inv {c : Codec} {s s1 : AvahiProbeScheduler}
    {p p1 : AvahiDnsPacket} {i : Nat}
    (h : packet_add_probe_query c s p i = .ok (s1, p1, false)) :
    ∃ pj, s.jobs[i]? = some pj ∧ pj.chosen = false
      ∧ c.avahi_dns_packet_space p < probe_estimate c pj.record ∧ s1 = s ∧ p1 = p := by
  unfold packet_add_probe_query at h
  split at h
  · cases h
  · rename_i pj hi
    split at h
    · cases h
    · rename_i hch
      dsimp only at h
      split at h
      · rename_i hbig
        cases h
        exact ⟨pj, hi, by simpa using hch, hbig, rfl, rfl⟩
      · split at h <;> cases h

theorem packet_add_probe_query_returns {c : Codec} (hq : QuestionsFit c)
    (s : AvahiProbeScheduler) (p : AvahiDnsPacket) {i : Nat} {pj : AvahiProbeJob}
    (hi : s.jobs[i]? = some pj) (hch : pj.chosen = false) :
    ∃ s1 p1 b, packet_add_probe_query c s p i = .ok (s1, p1, b) := by
  by_cases hfit : probe_estimate c pj.record ≤ c.avahi_dns_packet_space p
  · have hk : avahi_dns_packet_append_key c p (probe_key c pj.record)
        = some { p with questions := p.questions ++ [probe_key c pj.record] } := by
      simp [avahi_dns_packet_append_key, hq p pj.record hfit]
    exact ⟨_, _, _, packet_add_probe_query_fits hi hch hfit hk⟩
  · exact ⟨_, _, _, packet_add_probe_query_too_large hi hch (Nat.lt_of_not_le hfit)⟩

theorem fill_loop_returns {c : Codec} (hq : QuestionsFit c) (todo : Nat) :
    ∀ (i : Nat) (s : AvahiProbeScheduler) (p : AvahiDnsPacket) (n : Nat),
      ∃ s1 p1 n1, fill_loop c todo i s p n = .ok (s1, p1, n1) := by
  induction todo with
  | zero => intro i s p n; exact ⟨s, p, n, rfl⟩
  | succ todo ih =>
    intro i s p n
    simp only [fill_loop]
    cases hi : s.jobs[i]? with
    | none => exact ⟨s, p, n, rfl⟩
    | some pj =>
      by_cases hch : pj.chosen = true
      · simp only [hch, if_true]
        exact ih _ _ _ _
      · have hch1 : pj.chosen = false := by simpa using hch
        obtain ⟨s1, p1, b, hadd⟩ := packet_add_probe_query_returns hq s p hi hch1
        simp only [hch, if_false, hadd]
        cases b with
        | false => exact ⟨s1, p1, n, rfl⟩
        | true => exact ih _ _ _ _

theorem elapse_callback_returns {c : Codec} (hq : QuestionsFit c) (s : AvahiProbeScheduler)
    {i : Nat} {pj : AvahiProbeJob} (hi : s.jobs[i]? = some pj) (hch : pj.chosen = false) :
    ∃ s1, elapse_callback c s i = .ok s1 := by
  obtain ⟨sa, pa, b, hadd⟩ :=
    packet_add_probe_query_returns hq s (avahi_dns_packet_new_query c.mtu) hi hch
  cases b with
  | false => exact ⟨elapse_large c sa i pj, by simp only [elapse_callback, hi, hadd]⟩
  | true =>
    obtain ⟨s2, p2, n, hfill⟩ := fill_loop_returns hq sa.jobs.length 0 sa pa 1
    exact ⟨_, elapse_callback_normal hi hadd hfill⟩

theorem finish_authority (c : Codec) (s : AvahiProbeScheduler) (p : AvahiDnsPacket) :
    finish_build (authority_loop c s.jobs.length 0 s p 0)
      = { s with jobs := (authority_pass c s.jobs p).kept,
                 effects := s.effects ++ clear_effects (authority_pass c s.jobs p).removed
                   ++ estimate_warning (authority_pass c s.jobs p).failed
                   ++ [Effect.send_packet (avahi_dns_packet_set_field
                        (authority_pass c s.jobs p).packet .NSCOUNT
                        (guint_count 0 (authority_pass c s.jobs p).removed.length))] } := by
  have h := authority_loop_eq c s.jobs.length [] s.jobs s p 0 rfl (Nat.le_refl _)
  simp only [List.length_nil, List.nil_append] at h
  rw [h]
  rfl

theorem elapse_callback_cases {c : Codec} {s s1 : AvahiProbeScheduler} {i : Nat}
    (he : elapse_callback c s i = .ok s1) :
    (∃ pj, s.jobs[i]? = some pj ∧ pj.chosen = false
        ∧ c.avahi_dns_packet_space (avahi_dns_packet_new_query c.mtu)
            < probe_estimate c pj.record
        ∧ s1 = elapse_large c s i pj)
    ∨ (∃ pj sa pa s2 p2 n, s.jobs[i]? = some pj ∧ pj.chosen = false
        ∧ probe_estimate c pj.record
            ≤ c.avahi_dns_packet_space (avahi_dns_packet_new_query c.mtu)
        ∧ packet_add_probe_query c s (avahi_dns_packet_new_query c.mtu) i = .ok (sa, pa, true)
        ∧ fill_loop c sa.jobs.length 0 sa pa 1 = .ok (s2, p2, n)
        ∧ s1 = finish_build (authority_loop c s2.jobs.length 0 s2
            (avahi_dns_packet_set_field p2 .QDCOUNT n) 0)) := by
  unfold elapse_callback at he
  split at he
  · cases he
  · rename_i pj hi
    dsimp only at he
    split at he
    · cases he
    · rename_i sa pa hadd
      cases he
      obtain ⟨pj1, hi1, hch, hbig, rfl, _⟩ := packet_add_probe_query_false_inv hadd
      rw [hi] at hi1
      cases hi1
      exact Or.inl ⟨pj, hi, hch, hbig, rfl⟩
    · rename_i sa pa hadd
      split at he
      · cases he
      · rename_i s2 p2 n hfill
        cases he
        obtain ⟨pj1, hi1, hch, hfit, _, _⟩ := packet_add_probe_query_true hadd
        rw [hi] at hi1
        cases hi1
        exact Or.inr ⟨pj, sa, pa, s2, p2, n, hi, hch, hfit, hadd, hfill, rfl⟩

/-! ## Properties of the authority pass -/

theorem interleaved_length {α : Type} {kept removed whole : List α}
    (h : Interleaved kept removed whole) : whole.length = kept.length + removed.length := by
  induction h with
  | nil => rfl
  | keep a _ ih => simp only [List.length_cons, ih]; omega
  | remove a _ ih => simp only [List.length_cons, ih]; omega

theorem interleaved_sublist {α : Type} {kept removed whole : List α}
    (h : Interleaved kept removed whole) : kept.Sublist whole := by
  induction h with
  | nil => exact List.Sublist.refl _
  | keep a _ ih => exact ih.cons₂ a
  | remove a _ ih => exact ih.cons a

theorem interleaved_all_kept {α : Type} (l : List α) : Interleaved l [] l := by
  induction l with
  | nil => exact Interleaved.nil
  | cons a l ih => exact Interleaved.keep a ih

theorem authority_pass_interleaved (c : Codec) (jobs : List AvahiProbeJob) :
    ∀ p, Interleaved ((authority_pass c jobs p).kept.map unmark)
      ((authority_pass c jobs p).removed.map unmark) (jobs.map unmark) := by
  induction jobs with
  | nil => intro p; exact Interleaved.nil
  | cons pj rest ih =>
    intro p
    by_cases hch : pj.chosen = false
    · rw [authority_pass_unchosen c pj rest p hch]
      exact Interleaved.keep _ (ih p)
    · have hch1 : pj.chosen = true := by simpa using hch
      cases hap : avahi_dns_packet_append_record c p pj.record with
      | none =>
        rw [authority_pass_fail c pj rest p hch1 hap]
        simp only [List.map_map, List.map_nil]
        exact interleaved_all_kept _
      | some p1 =>
        rw [authority_pass_append c pj rest p p1 hch1 hap]
        exact Interleaved.remove _ (ih p1)

theorem authority_pass_packet (c : Codec) (jobs : List AvahiProbeJob) :
    ∀ p, (authority_pass c jobs p).packet
      = { p with authority := p.authority
            ++ (authority_pass c jobs p).removed.map (fun pj => pj.record) } := by
  induction jobs with
  | nil => intro p; simp [authority_pass]
  | cons pj rest ih =>
    intro p
    by_cases hch : pj.chosen = false
    · rw [authority_pass_unchosen c pj rest p hch]
      exact ih p
    · have hch1 : pj.chosen = true := by simpa using hch
      cases hap : avahi_dns_packet_append_record c p pj.record with
      | none =>
        rw [authority_pass_fail c pj rest p hch1 hap]
        simp
      | some p1 =>
        rw [authority_pass_append c pj rest p p1 hch1 hap]
        have h1 := ih p1
        have hp1 := append_record_some hap
        dsimp only
        rw [h1, hp1]
        simp

theorem authority_pass_removed_chosen (c : Codec) (jobs : List AvahiProbeJob) :
    ∀ p, ∀ pj ∈ (authority_pass c jobs p).removed, pj ∈ jobs ∧ pj.chosen = true := by
  induction jobs with
  | nil => intro p pj hpj; simp [authority_pass] at hpj
  | cons q rest ih =>
    intro p pj hpj
    by_cases hch : q.chosen = false
    · rw [authority_pass_unchosen c q rest p hch] at hpj
      obtain ⟨h1, h2⟩ := ih p pj hpj
      exact ⟨List.mem_cons_of_mem _ h1, h2⟩
    · have hch1 : q.chosen = true := by simpa using hch
      cases hap : avahi_dns_packet_append_record c p q.record with
      | none =>
        rw [authority_pass_fail c q rest p hch1 hap] at hpj
        simp at hpj
      | some p1 =>
        rw [authority_pass_append c q rest p p1 hch1 hap] at hpj
        rcases List.mem_cons.mp hpj with rfl | h
        · exact ⟨List.mem_cons_self _ _, hch1⟩
        · obtain ⟨h1, h2⟩ := ih p1 pj h
          exact ⟨List.mem_cons_of_mem _ h1, h2⟩

theorem authority_pass_at_failure (c : Codec) (front : List AvahiProbeJob) :
    ∀ (p pX : AvahiDnsPacket) (X : AvahiProbeJob) (back : List AvahiProbeJob),
      X.chosen = true →
      append_records c p ((front.filter (fun pj => pj.chosen)).map (fun pj => pj.record))
        = some pX →
      avahi_dns_packet_append_record c pX X.record = none →
      authority_pass c (front ++ X :: back) p
        = { kept := front.filter (fun pj => !pj.chosen) ++ (X :: back).map unmark,
            removed := front.filter (fun pj => pj.chosen),
            packet := pX, failed := true } := by
  induction front with
  | nil =>
    intro p pX X back hX hfront hfail
    simp only [List.filter_nil, List.map_nil, append_records] at hfront
    cases hfront
    simpa using authority_pass_fail c X back p hX hfail
  | cons q rest ih =>
    intro p pX X back hX hfront hfail
    by_cases hch : q.chosen = false
    · have hf : (q :: rest).filter (fun pj => pj.chosen) = rest.filter (fun pj => pj.chosen) := by
        simp [List.filter_cons, hch]
      rw [hf] at hfront
      rw [List.cons_append, authority_pass_unchosen c q _ p hch, ih p pX X back hX hfront hfail]
      simp [List.filter_cons, hch]
    · have hch1 : q.chosen = true := by simpa using hch
      have hf : (q :: rest).filter (fun pj => pj.chosen)
          = q :: rest.filter (fun pj => pj.chosen) := by
        simp [List.filter_cons, hch1]
      rw [hf] at hfront
      simp only [List.map_cons, append_records] at hfront
      cases hap : avahi_dns_packet_append_record c p q.record with
      | none => simp [hap] at hfront
      | some p1 =>
        simp only [hap] at hfront
        rw [List.cons_append, authority_pass_append c q _ p p1 hch1 hap,
          ih p1 pX X back hX hfront hfail]
        simp [List.filter_cons, hch1]

theorem append_records_authority (c : Codec) (rs : List AvahiRecord) :
    ∀ (p p1 : AvahiDnsPacket), append_records c p rs = some p1 →
      p1 = { p with authority := p.authority ++ rs } := by
  induction rs with
  | nil =>
    intro p p1 h
    simp only [append_records] at h
    cases h
    simp
  | cons r rest ih =>
    intro p p1 h
    simp only [append_records] at h
    cases hap : avahi_dns_packet_append_record c p r with
    | none => simp [hap] at h
    | some p2 =>
      simp only [hap] at h
      rw [ih p2 p1 h, append_record_some hap]
      simp

/-! ## C18 -/

/-- C18: the authority pass on a queue `front ++ X :: back` in which the appends for the
chosen jobs of `front` succeed and the append for the chosen job X fails.  X and every
job after X stay in the queue, behind the unchosen jobs of `front`, all with chosen =
false; every chosen job before X has been appended and removed by `job_free`; the warning
is given, and the packet is sent exactly once, holding the records of the chosen jobs
before X, with NSCOUNT equal to their number. -/
theorem authority_append_failure (c : Codec) (s : AvahiProbeScheduler) (p pX : AvahiDnsPacket)
    (front back : List AvahiProbeJob) (X : AvahiProbeJob)
    (hs : s.jobs = front ++ X :: back) (hlen : s.jobs.length < 4294967296)
    (hX : X.chosen = true)
    (hfront : append_records c p
      ((front.filter (fun pj => pj.chosen)).map (fun pj => pj.record)) = some pX)
    (hfail : avahi_dns_packet_append_record c pX X.record = none) :
    (finish_build (authority_loop c s.jobs.length 0 s p 0)).jobs
        = front.filter (fun pj => !pj.chosen) ++ (X :: back).map unmark
      ∧ (∀ pj ∈ (finish_build (authority_loop c s.jobs.length 0 s p 0)).jobs,
          pj.chosen = false)
      ∧ (finish_build (authority_loop c s.jobs.length 0 s p 0)).effects
          = s.effects ++ clear_effects (front.filter (fun pj => pj.chosen))
            ++ [Effect.warning "Bad probe size estimate!",
                Effect.send_packet (avahi_dns_packet_set_field pX .NSCOUNT
                  (front.filter (fun pj => pj.chosen)).length)]
      ∧ sent_packets (finish_build (authority_loop c s.jobs.length 0 s p 0)).effects
          = sent_packets s.effects ++ [avahi_dns_packet_set_field pX .NSCOUNT
              (front.filter (fun pj => pj.chosen)).length]
      ∧ pX.authority = p.authority
          ++ (front.filter (fun pj => pj.chosen)).map (fun pj => pj.record) := by
  have hpass := authority_pass_at_failure c front p pX X back hX hfront hfail
  have hk : (front.filter (fun pj => pj.chosen)).length < 4294967296 := by
    have h1 := List.length_filter_le (fun pj : AvahiProbeJob => pj.chosen) front
    have h2 : s.jobs.length = front.length + (back.length + 1) := by simp [hs]
    omega
  have hn : guint_count 0 (front.filter (fun pj => pj.chosen)).length
      = (front.filter (fun pj => pj.chosen)).length := by
    rw [guint_count_eq _ 0 (by omega)]
    omega
  have hfin := finish_authority c s p
  rw [hs] at hfin
  rw [hpass] at hfin
  simp only [hn, estimate_warning, if_true] at hfin
  rw [hs, hfin]
  refine ⟨rfl, ?_, by simp, ?_, ?_⟩
  · intro pj hpj
    rcases List.mem_append.mp hpj with h | h
    · have := (List.mem_filter.mp h).2
      simpa using this
    · obtain ⟨q, _, rfl⟩ := List.mem_map.mp h
      rfl
  · have hq : sent_packets (clear_effects (front.filter (fun pj => pj.chosen))) = [] := by
      induction front.filter (fun pj => pj.chosen) with
      | nil => rfl
      | cons a l ih => simp [clear_effects, sent_packets_append, sent_packets_job_free_effects, ih]
    simp [sent_packets_append, sent_packets, hq]
  · rw [append_records_authority c _ p pX hfront]

/-- C18 at a concrete queue: 94 bytes are left for records of 50 bytes each; the first chosen
job is appended and removed, the append for the second chosen job fails. -/
theorem authority_append_failure_witness :
    (finish_build (authority_loop (byte_codec 112 9000) authority_sched.jobs.length 0
        authority_sched (authority_packet []) 0)).jobs
        = [example_job 2 (example_record "b" 1 38)]
          ++ [example_job 1 (example_record "a" 28 38), example_job 0 (example_record "a" 16 38)]
      ∧ (∀ pj ∈ (finish_build (authority_loop (byte_codec 112 9000)
            authority_sched.jobs.length 0 authority_sched (authority_packet []) 0)).jobs,
          pj.chosen = false)
      ∧ (finish_build (authority_loop (byte_codec 112 9000) authority_sched.jobs.length 0
            authority_sched (authority_packet []) 0)).effects
          = [] ++ clear_effects [{ example_job 3 (example_record "a" 1 38) with chosen := true }]
            ++ [Effect.warning "Bad probe size estimate!",
                Effect.send_packet (avahi_dns_packet_set_field
                  (authority_packet [example_record "a" 1 38]) .NSCOUNT 1)]
      ∧ sent_packets (finish_build (authority_loop (byte_codec 112 9000)
            authority_sched.jobs.length 0 authority_sched (authority_packet []) 0)).effects
          = [] ++ [avahi_dns_packet_set_field (authority_packet [example_record "a" 1 38])
              .NSCOUNT 1]
      ∧ (authority_packet [example_record "a" 1 38]).authority
          = [] ++ [example_record "a" 1 38] :=
  authority_append_failure (byte_codec 112 9000) authority_sched (authority_packet [])
    (authority_packet [example_record "a" 1 38])
    [{ example_job 3 (example_record "a" 1 38) with chosen := true },
      example_job 2 (example_record "b" 1 38)]
    [{ example_job 0 (example_record "a" 16 38) with chosen := true }]
    { example_job 1 (example_record "a" 28 38) with chosen := true }
    rfl (by decide) rfl (by decide) (by decide)

/-! ## The packet during the fill loop -/

theorem sent_packets_clear_effects (jobs : List AvahiProbeJob) :
    sent_packets (clear_effects jobs) = [] := by
  induction jobs with
  | nil => rfl
  | cons a l ih => simp [clear_effects, sent_packets_append, sent_packets_job_free_effects, ih]

theorem sent_packets_estimate_warning (b : Bool) : sent_packets (estimate_warning b) = [] := by
  cases b <;> rfl

theorem fill_loop_packet (c : Codec) (todo : Nat) :
    ∀ (i : Nat) (s : AvahiProbeScheduler) (p : AvahiDnsPacket) (n : Nat)
      (s1 : AvahiProbeScheduler) (p1 : AvahiDnsPacket) (n1 : Nat),
      fill_loop c todo i s p n = .ok (s1, p1, n1) →
      p1 = { p with questions := p.questions ++ probe_keys c (fill_successes c todo i s p) }
        ∧ (fill_successes c todo i s p).length ≤ todo
        ∧ (n + todo < 4294967296 → n1 = n + (fill_successes c todo i s p).length) := by
  induction todo with
  | zero =>
    intro i s p n s1 p1 n1 h
    simp only [fill_loop] at h
    cases h
    simp [fill_successes, probe_keys]
  | succ todo ih =>
    intro i s p n s1 p1 n1 h
    simp only [fill_loop] at h
    simp only [fill_successes]
    split at h
    · cases h
      simp [probe_keys]
    · rename_i pj hi
      split at h
      · rename_i hch
        obtain ⟨h1, h2, h3⟩ := ih _ _ _ _ _ _ _ h
        simp only [hch, if_true]
        exact ⟨h1, by omega, fun hn => h3 (by omega)⟩
      · rename_i hch
        have hch1 : pj.chosen = false := by simpa using hch
        simp only [hch1, Bool.false_eq_true, if_false]
        split at h
        · cases h
        · rename_i sa pa hadd
          cases h
          obtain ⟨_, hp⟩ := packet_add_probe_query_false hadd
          subst hp
          simp [probe_keys]
        · rename_i sa pa hadd
          obtain ⟨pj1, hi1, _, _, hk, _⟩ := packet_add_probe_query_true hadd
          rw [hi] at hi1
          cases hi1
          obtain ⟨h1, h2, h3⟩ := ih _ _ _ _ _ _ _ h
          refine ⟨?_, by simp only [List.length_cons]; omega, fun hn => ?_⟩
          · rw [h1, append_key_some hk]
            simp [probe_keys]
          · have hg : guint (n + 1) = n + 1 := Nat.mod_eq_of_lt (by omega)
            rw [hg] at h3
            rw [h3 (by omega)]
            simp only [List.length_cons]
            omega

/-! ## C16 -/

/-- C16: in the normal path (the seed, unchosen, fits the MTU-sized packet), for every queue
of fewer than 2^32 - 1 jobs and every seed: a run of `elapse_callback` that returns (as
it does whenever questions that fit can be appended) sends exactly one packet; its
questions are the seed's question followed by one question for each job whose
`packet_add_probe_query` call in the fill loop succeeded, and its QDCOUNT field equals the
number of these questions. -/
theorem qdcount_counts_questions (c : Codec) (s : AvahiProbeScheduler) (i : Nat)
    (pj : AvahiProbeJob) (hi : s.jobs[i]? = some pj) (hch : pj.chosen = false)
    (hfit : probe_estimate c pj.record
      ≤ c.avahi_dns_packet_space (avahi_dns_packet_new_query c.mtu))
    (hlen : s.jobs.length + 1 < 4294967296) :
    (QuestionsFit c → ∃ s1, elapse_callback c s i = .ok s1)
      ∧ ∀ s1, elapse_callback c s i = .ok s1 →
          ∃ p sa pa, packet_add_probe_query c s (avahi_dns_packet_new_query c.mtu) i
                = .ok (sa, pa, true)
            ∧ sent_packets s1.effects = sent_packets s.effects ++ [p]
            ∧ p.questions = probe_key c pj.record
                :: probe_keys c (fill_successes c sa.jobs.length 0 sa pa)
            ∧ p.qdcount = 1 + (fill_successes c sa.jobs.length 0 sa pa).length
            ∧ p.qdcount = p.questions.length := by
  refine ⟨fun hq => elapse_callback_returns hq s hi hch, fun s1 he => ?_⟩
  rcases elapse_callback_cases he with ⟨pj1, hi1, _, hbig, _⟩
    | ⟨pj1, sa, pa, s2, p2, n, hi1, _, _, hadd, hfill, hs1⟩
  · rw [hi] at hi1
    cases hi1
    exact absurd hfit (Nat.not_le_of_lt hbig)
  · rw [hi] at hi1
    cases hi1
    obtain ⟨pj2, hi2, _, _, hk, _⟩ := packet_add_probe_query_true hadd
    rw [hi] at hi2
    cases hi2
    have hpa : pa.questions = [probe_key c pj.record] := by
      rw [append_key_some hk]
      rfl
    have hla : sa.jobs.length = s.jobs.length := packet_add_probe_query_length hadd
    obtain ⟨hp2, _, hn⟩ := fill_loop_packet c _ _ _ _ _ _ _ _ hfill
    have hn1 := hn (by omega)
    obtain ⟨_, h2e, _⟩ := fill_loop_jobs c _ _ _ _ _ _ _ _ hfill
    obtain ⟨_, hae, _⟩ := packet_add_probe_query_jobs hadd
    refine ⟨avahi_dns_packet_set_field
      (authority_pass c s2.jobs (avahi_dns_packet_set_field p2 .QDCOUNT n)).packet .NSCOUNT
      (guint_count 0
        (authority_pass c s2.jobs (avahi_dns_packet_set_field p2 .QDCOUNT n)).removed.length),
      sa, pa, hadd, ?_, ?_, ?_, ?_⟩
    · rw [hs1, finish_authority]
      simp only [sent_packets_append, sent_packets_clear_effects,
        sent_packets_estimate_warning, sent_packets, h2e, hae, List.append_nil]
    · rw [authority_pass_packet, hp2]
      simp [avahi_dns_packet_set_field, hpa, avahi_dns_packet_new_query]
    · rw [authority_pass_packet, hn1]
      simp [avahi_dns_packet_set_field]
    · rw [authority_pass_packet, hp2, hn1]
      simp [avahi_dns_packet_set_field, hpa, avahi_dns_packet_new_query, probe_keys]
      omega

/-- C16 at a concrete queue: two small records named "b" and "a", MTU 1500, the job at the
list head fires. -/
theorem qdcount_counts_questions_witness :
    (QuestionsFit (byte_codec 1500 9000) →
        ∃ s1, elapse_callback (byte_codec 1500 9000) two_small_sched 0 = .ok s1)
      ∧ ∀ s1, elapse_callback (byte_codec 1500 9000) two_small_sched 0 = .ok s1 →
          ∃ p sa pa, packet_add_probe_query (byte_codec 1500 9000) two_small_sched
                (avahi_dns_packet_new_query (byte_codec 1500 9000).mtu) 0 = .ok (sa, pa, true)
            ∧ sent_packets s1.effects = sent_packets two_small_sched.effects ++ [p]
            ∧ p.questions = probe_key (byte_codec 1500 9000) (example_record "b" 1 4)
                :: probe_keys (byte_codec 1500 9000)
                    (fill_successes (byte_codec 1500 9000) sa.jobs.length 0 sa pa)
            ∧ p.qdcount
                = 1 + (fill_successes (byte_codec 1500 9000) sa.jobs.length 0 sa pa).length
            ∧ p.qdcount = p.questions.length :=
  qdcount_counts_questions (byte_codec 1500 9000) two_small_sched 0
    (example_job 1 (example_record "b" 1 4)) rfl rfl (by decide) (by decide)

/-! ## C17 -/

/-- C17: in the normal path (the seed fits the MTU-sized packet), for every queue of fewer
than 2^32 jobs in a state between operations and every seed: a run of `elapse_callback`
that returns (as it does whenever questions that fit can be appended) sends exactly one
packet; its authority section holds the records of the removed jobs, in queue order, its
NSCOUNT field equals their number, which is the number of jobs by which the queue got
shorter; and the queue before is made of the queue afterwards and the removed jobs, each
in their order, so the remaining jobs are unchanged and keep their relative order. -/
theorem nscount_counts_removed (c : Codec) (s : AvahiProbeScheduler) (i : Nat)
    (pj : AvahiProbeJob) (hall : AllUnchosen s) (hi : s.jobs[i]? = some pj)
    (hfit : probe_estimate c pj.record
      ≤ c.avahi_dns_packet_space (avahi_dns_packet_new_query c.mtu))
    (hlen : s.jobs.length < 4294967296) :
    (QuestionsFit c → ∃ s1, elapse_callback c s i = .ok s1)
      ∧ ∀ s1, elapse_callback c s i = .ok s1 →
          ∃ p removed, sent_packets s1.effects = sent_packets s.effects ++ [p]
            ∧ p.authority = removed.map (fun q => q.record)
            ∧ p.nscount = p.authority.length
            ∧ p.nscount = removed.length
            ∧ s.jobs.length = s1.jobs.length + removed.length
            ∧ Interleaved s1.jobs removed s.jobs := by
  have hch : pj.chosen = false := hall pj (List.mem_iff_getElem?.mpr ⟨i, hi⟩)
  refine ⟨fun hq => elapse_callback_returns hq s hi hch, fun s1 he => ?_⟩
  have hall1 : AllUnchosen s1 := elapse_callback_unchosen hall he
  rcases elapse_callback_cases he with ⟨pj1, hi1, _, hbig, _⟩
    | ⟨pj1, sa, pa, s2, p2, n, hi1, _, _, hadd, hfill, hs1⟩
  · rw [hi] at hi1
    cases hi1
    exact absurd hfit (Nat.not_le_of_lt hbig)
  · obtain ⟨pj2, _, _, _, hk, _⟩ := packet_add_probe_query_true hadd
    have hpa : pa.authority = [] := by
      rw [append_key_some hk]
      rfl
    obtain ⟨hp2, _, _⟩ := fill_loop_packet c _ _ _ _ _ _ _ _ hfill
    obtain ⟨h2j, h2e, _⟩ := fill_loop_jobs c _ _ _ _ _ _ _ _ hfill
    obtain ⟨haj, hae, _⟩ := packet_add_probe_query_jobs hadd
    have hint := authority_pass_interleaved c s2.jobs (avahi_dns_packet_set_field p2 .QDCOUNT n)
    rw [h2j, haj, map_unmark_of_unchosen _ hall] at hint
    have hfin := finish_authority c s2 (avahi_dns_packet_set_field p2 .QDCOUNT n)
    rw [← hs1] at hfin
    have hkept : (authority_pass c s2.jobs
        (avahi_dns_packet_set_field p2 .QDCOUNT n)).kept = s1.jobs := by
      rw [hfin]
    rw [hkept, map_unmark_of_unchosen _ hall1] at hint
    have hlen1 := interleaved_length hint
    simp only [List.length_map] at hlen1
    have hcount : guint_count 0 (authority_pass c s2.jobs
        (avahi_dns_packet_set_field p2 .QDCOUNT n)).removed.length
        = (authority_pass c s2.jobs
            (avahi_dns_packet_set_field p2 .QDCOUNT n)).removed.length := by
      rw [guint_count_eq _ 0 (by omega)]
      omega
    refine ⟨avahi_dns_packet_set_field
      (authority_pass c s2.jobs (avahi_dns_packet_set_field p2 .QDCOUNT n)).packet .NSCOUNT
      (guint_count 0
        (authority_pass c s2.jobs (avahi_dns_packet_set_field p2 .QDCOUNT n)).removed.length),
      (authority_pass c s2.jobs (avahi_dns_packet_set_field p2 .QDCOUNT n)).removed.map unmark,
      ?_, ?_, ?_, ?_, ?_, hint⟩
    · rw [hfin]
      simp only [sent_packets_append, sent_packets_clear_effects,
        sent_packets_estimate_warning, sent_packets, h2e, hae, List.append_nil]
    · rw [authority_pass_packet, hp2]
      simp [avahi_dns_packet_set_field, hpa, unmark]
    · rw [hcount, authority_pass_packet, hp2]
      simp [avahi_dns_packet_set_field, hpa]
    · rw [hcount]
      simp [avahi_dns_packet_set_field]
    · simpa using hlen1

/-- C17 at a concrete run: 100 bytes of space, two records of 50 bytes for the name "a"; one
record is appended and its job removed, the other job stays. -/
theorem nscount_counts_removed_witness :
    (QuestionsFit (byte_codec 112 9000) →
        ∃ s1, elapse_callback (byte_codec 112 9000) same_name_sched 0 = .ok s1)
      ∧ ∀ s1, elapse_callback (byte_codec 112 9000) same_name_sched 0 = .ok s1 →
          ∃ p removed, sent_packets s1.effects = sent_packets same_name_sched.effects ++ [p]
            ∧ p.authority = removed.map (fun q => q.record)
            ∧ p.nscount = p.authority.length
            ∧ p.nscount = removed.length
            ∧ same_name_sched.jobs.length = s1.jobs.length + removed.length
            ∧ Interleaved s1.jobs removed same_name_sched.jobs :=
  nscount_counts_removed (byte_codec 112 9000) same_name_sched 0
    (example_job 1 (example_record "a" 28 38)) same_name_sched_unchosen rfl (by decide)
    (by decide)

/-! ## What a run of `elapse_callback` does to the queue and to the outside -/

theorem interleaved_eraseIdx {α : Type} (l : List α) :
    ∀ (i : Nat) (a : α), l[i]? = some a → Interleaved (l.eraseIdx i) [a] l := by
  induction l with
  | nil => intro i a h; simp at h
  | cons b l ih =>
    intro i a h
    cases i with
    | zero =>
      simp only [List.getElem?_cons_zero, Option.some.injEq] at h
      subst h
      exact Interleaved.remove _ (interleaved_all_kept l)
    | succ i =>
      simp only [List.getElem?_cons_succ] at h
      exact Interleaved.keep _ (ih i a h)

theorem interleaved_map {α β : Type} (f : α → β) {kept removed whole : List α}
    (h : Interleaved kept removed whole) :
    Interleaved (kept.map f) (removed.map f) (whole.map f) := by
  induction h with
  | nil => exact Interleaved.nil
  | keep a _ ih => exact Interleaved.keep _ ih
  | remove a _ ih => exact Interleaved.remove _ ih

theorem clear_effects_map_unmark (jobs : List AvahiProbeJob) :
    clear_effects (jobs.map unmark) = clear_effects jobs := by
  induction jobs with
  | nil => rfl
  | cons a l ih => simp only [List.map_cons, clear_effects, ih]; rfl

theorem elapse_large_eq (c : Codec) (s : AvahiProbeScheduler) {i : Nat} {pj : AvahiProbeJob}
    (hi : s.jobs[i]? = some pj) :
    ∃ x, is_report x = true
      ∧ elapse_large c s i pj
          = { s with jobs := s.jobs.eraseIdx i,
                     effects := s.effects ++ [x] ++ job_free_effects pj } := by
  unfold elapse_large
  dsimp only
  split
  · rename_i p2 _
    refine ⟨Effect.send_packet (avahi_dns_packet_set_field
      (avahi_dns_packet_set_field p2 .NSCOUNT 1) .QDCOUNT 1), rfl, ?_⟩
    exact job_free_at (s := { s with effects := s.effects ++ [_] }) hi
  · refine ⟨Effect.warning "Probe record too large, cannot send", rfl, ?_⟩
    exact job_free_at (s := { s with effects := s.effects ++ [_] }) hi

theorem elapse_callback_outcome {c : Codec} {s s1 : AvahiProbeScheduler} {i : Nat}
    (he : elapse_callback c s i = .ok s1) :
    ∃ (removed : List AvahiProbeJob) (mid tail : List Effect),
      Interleaved (s1.jobs.map unmark) (removed.map unmark) (s.jobs.map unmark)
        ∧ s1.effects = s.effects ++ mid ++ clear_effects removed ++ tail
        ∧ mid.all is_report = true ∧ tail.all is_report = true
        ∧ s1.next_time_event = s.next_time_event := by
  rcases elapse_callback_cases he with ⟨pj, hi, _, _, hs1⟩
    | ⟨pj, sa, pa, s2, p2, n, _, _, _, hadd, hfill, hs1⟩
  · have hint := interleaved_map unmark (interleaved_eraseIdx s.jobs i pj hi)
    obtain ⟨x, hx, hl⟩ := elapse_large_eq c s hi
    rw [hl] at hs1
    subst hs1
    exact ⟨[pj], [x], [], hint, by simp [clear_effects], by simp [hx], rfl, rfl⟩
  · obtain ⟨h2j, h2e, h2n⟩ := fill_loop_jobs c _ _ _ _ _ _ _ _ hfill
    obtain ⟨haj, hae, han⟩ := packet_add_probe_query_jobs hadd
    have hint := authority_pass_interleaved c s2.jobs (avahi_dns_packet_set_field p2 .QDCOUNT n)
    rw [h2j, haj] at hint
    rw [finish_authority] at hs1
    subst hs1
    refine ⟨(authority_pass c s2.jobs (avahi_dns_packet_set_field p2 .QDCOUNT n)).removed, [],
      estimate_warning (authority_pass c s2.jobs (avahi_dns_packet_set_field p2 .QDCOUNT n)).failed
        ++ [Effect.send_packet (avahi_dns_packet_set_field
              (authority_pass c s2.jobs (avahi_dns_packet_set_field p2 .QDCOUNT n)).packet
              .NSCOUNT (guint_count 0 (authority_pass c s2.jobs
                (avahi_dns_packet_set_field p2 .QDCOUNT n)).removed.length))],
      hint, ?_, rfl, ?_, ?_⟩
    · simp only [h2e, hae, List.append_nil, List.append_assoc]
    · cases (authority_pass c s2.jobs (avahi_dns_packet_set_field p2 .QDCOUNT n)).failed <;> rfl
    · exact h2n.trans han

theorem post_inv {c : Codec} {s s1 : AvahiProbeScheduler} {r : AvahiRecord} {imm b : Bool}
    {now : Nat} (h : avahi_probe_scheduler_post c s r imm now = .ok (s1, b)) :
    ∃ pj, pj.time_event = some s.next_time_event ∧ pj.chosen = false ∧ pj.record = r
      ∧ s1.jobs = pj :: s.jobs
      ∧ s1.effects = s.effects ++ [Effect.record_ref r,
          Effect.time_event_queue_add s.next_time_event pj.delivery]
      ∧ s1.next_time_event = s.next_time_event + 1 := by
  by_cases hp : c.avahi_key_is_pattern r.key = true
  · simp [avahi_probe_scheduler_post, hp] at h
  · have hp1 : c.avahi_key_is_pattern r.key = false := by simpa using hp
    rw [post_ok c s r imm now hp1] at h
    cases h
    exact ⟨_, rfl, rfl, rfl, rfl, by simp, rfl⟩

theorem clear_inv (fuel : Nat) :
    ∀ (s s1 : AvahiProbeScheduler), avahi_probe_scheduler_clear fuel s = some s1 →
      s1 = { s with jobs := [], effects := s.effects ++ clear_effects s.jobs } := by
  intro s s1 h
  by_cases hlen : s.jobs.length ≤ fuel
  · rw [clear_run fuel s hlen] at h
    exact (Option.some.inj h).symm
  · exfalso
    induction fuel generalizing s with
    | zero =>
      simp only [avahi_probe_scheduler_clear] at h
      split at h
      · rename_i he
        have : s.jobs = [] := by simpa using he
        simp [this] at hlen
      · cases h
    | succ fuel ih =>
      simp only [avahi_probe_scheduler_clear] at h
      split at h
      · rename_i he
        have : s.jobs = [] := by simpa using he
        simp [this] at hlen
      · cases hj : s.jobs with
        | nil => simp [hj] at hlen
        | cons pj rest =>
          rw [job_free_head s pj rest hj] at h
          exact ih _ h (by simp [hj] at hlen ⊢; omega)

/-! ## C11 -/

theorem ref_count_append (a b : List Effect) :
    ref_count (a ++ b) = ref_count a + ref_count b := by
  induction a with
  | nil => simp [ref_count]
  | cons e rest ih =>
    cases e <;> simp [ref_count, ih]
    omega

theorem report_counts (l : List Effect) (h : l.all is_report = true) :
    ref_count l = 0 ∧ unref_count l = 0
      ∧ (∀ r, l.count (Effect.record_ref r) = 0 ∧ l.count (Effect.record_unref r) = 0)
      ∧ ∀ reg, registered_from reg l = reg := by
  induction l with
  | nil => exact ⟨rfl, rfl, fun _ => ⟨rfl, rfl⟩, fun _ => rfl⟩
  | cons e rest ih =>
    simp only [List.all_cons, Bool.and_eq_true] at h
    obtain ⟨h1, h2, h3, h4⟩ := ih h.2
    cases e <;> simp [is_report] at h
    · refine ⟨h1, h2, fun r => ?_, fun reg => ?_⟩
      · simp [List.count_cons, h3 r]
      · simpa [registered_from, register_step] using h4 reg
    · refine ⟨h1, h2, fun r => ?_, fun reg => ?_⟩
      · simp [List.count_cons, h3 r]
      · simpa [registered_from, register_step] using h4 reg

theorem clear_effects_counts (jobs : List AvahiProbeJob) :
    ref_count (clear_effects jobs) = 0
      ∧ (∀ r, (clear_effects jobs).count (Effect.record_ref r) = 0
          ∧ (clear_effects jobs).count (Effect.record_unref r)
              = (jobs.map (fun pj => pj.record)).count r) := by
  induction jobs with
  | nil => exact ⟨rfl, fun _ => ⟨rfl, rfl⟩⟩
  | cons pj rest ih =>
    obtain ⟨h1, h2⟩ := ih
    refine ⟨?_, fun r => ?_⟩
    · simp only [clear_effects, ref_count_append, h1, job_free_effects]
      cases pj.time_event <;> simp [ref_count]
    · simp only [clear_effects, List.count_append, (h2 r).1, (h2 r).2, job_free_effects,
        List.map_cons, List.count_cons]
      cases pj.time_event <;> simp [List.count_cons] <;> omega

theorem interleaved_perm {α : Type} {kept removed whole : List α}
    (h : Interleaved kept removed whole) : whole.Perm (kept ++ removed) := by
  induction h with
  | nil => exact List.Perm.refl _
  | keep a _ ih => exact ih.cons a
  | remove a _ ih => exact (ih.cons a).trans List.perm_middle.symm

theorem interleaved_records {kept removed whole : List AvahiProbeJob}
    (h : Interleaved (kept.map unmark) (removed.map unmark) (whole.map unmark)) :
    Interleaved (kept.map (fun pj => pj.record)) (removed.map (fun pj => pj.record))
      (whole.map (fun pj => pj.record)) := by
  have h1 := interleaved_map (fun pj : AvahiProbeJob => pj.record) h
  simpa [List.map_map, Function.comp_def, unmark] using h1

theorem balance_elapse {c : Codec} {s s1 : AvahiProbeScheduler} {i : Nat}
    (he : elapse_callback c s i = .ok s1)
    (htotal : ref_count s.effects = unref_count s.effects + s.jobs.length)
    (heach : ∀ r, s.effects.count (Effect.record_ref r)
      = s.effects.count (Effect.record_unref r) + (queue_records s).count r) :
    ref_count s1.effects = unref_count s1.effects + s1.jobs.length
      ∧ ∀ r, s1.effects.count (Effect.record_ref r)
          = s1.effects.count (Effect.record_unref r) + (queue_records s1).count r := by
  obtain ⟨removed, mid, tail, hint, heff, hmid, htail, _⟩ := elapse_callback_outcome he
  obtain ⟨m1, m2, m3, _⟩ := report_counts mid hmid
  obtain ⟨t1, t2, t3, _⟩ := report_counts tail htail
  obtain ⟨c1, c2⟩ := clear_effects_counts removed
  have hlen := interleaved_length hint
  simp only [List.length_map] at hlen
  have hrec := interleaved_perm (interleaved_records hint)
  refine ⟨?_, fun r => ?_⟩
  · rw [heff]
    simp only [ref_count_append, unref_count_append, m1, m2, t1, t2, c1,
      unref_count_clear_effects]
    omega
  · have hcount := hrec.count_eq r
    rw [List.count_append] at hcount
    have h0 := heach r
    unfold queue_records at h0 ⊢
    rw [heff]
    simp only [List.count_append, (m3 r).1, (m3 r).2, (t3 r).1, (t3 r).2, (c2 r).1, (c2 r).2]
    omega

/-- C11: in every state reached by post, clear and timer firings, the number of record
references the scheduler has taken minus the number it has released equals the number of
jobs in the queue; and the same holds record by record, counting the queued jobs that
hold the record.  So every job holds the one reference taken at its creation, released
once, by the `job_free` that takes it out of the queue. -/
theorem references_balance (c : Codec) (s : AvahiProbeScheduler) (h : Reachable c s) :
    ref_count s.effects = unref_count s.effects + s.jobs.length
      ∧ ∀ r, s.effects.count (Effect.record_ref r)
          = s.effects.count (Effect.record_unref r) + (queue_records s).count r := by
  induction h with
  | new => exact ⟨rfl, fun _ => rfl⟩
  | @post s s1 r imm b now _ hp ih =>
    obtain ⟨htotal, heach⟩ := ih
    obtain ⟨pj, _, _, hrec, hjobs, heff, _⟩ := post_inv hp
    refine ⟨?_, fun r1 => ?_⟩
    · rw [heff, hjobs]
      simp only [ref_count_append, unref_count_append, ref_count, unref_count,
        List.length_cons]
      omega
    · have h0 := heach r1
      unfold queue_records at h0 ⊢
      rw [heff, hjobs]
      simp only [List.count_append, List.map_cons, List.count_cons, hrec, List.count_nil]
      by_cases hr : r = r1
      · subst hr
        simp
        omega
      · have hr1 : ¬ (Effect.record_ref r = Effect.record_ref r1) := by
          intro heq
          exact hr (Effect.record_ref.inj heq)
        simp [hr, hr1]
        omega
  | @clear s s1 fuel _ hc ih =>
    obtain ⟨htotal, heach⟩ := ih
    have hs1 := clear_inv fuel s s1 hc
    obtain ⟨c1, c2⟩ := clear_effects_counts s.jobs
    subst hs1
    refine ⟨?_, fun r => ?_⟩
    · simp only [ref_count_append, unref_count_append, c1, unref_count_clear_effects,
        List.length_nil]
      omega
    · have h0 := heach r
      unfold queue_records at h0 ⊢
      simp only [List.count_append, (c2 r).1, (c2 r).2, List.map_nil, List.count_nil]
      omega
  | elapse _ he ih => exact balance_elapse he ih.1 ih.2

theorem reached_sched_reachable : Reachable (byte_codec 62 9000) reached_sched := by
  have h0 : Reachable (byte_codec 62 9000) avahi_probe_scheduler_new := Reachable.new
  have h1 := @Reachable.post (byte_codec 62 9000) _ _ (example_record "c" 1 50) false true 0
    h0 rfl
  have h2 := @Reachable.post (byte_codec 62 9000) _ _ (example_record "a" 1 4) false true 0
    h1 rfl
  have h3 := @Reachable.post (byte_codec 62 9000) _ _ (example_record "b" 1 4) false true 0
    h2 rfl
  have h4 := @Reachable.elapse (byte_codec 62 9000) _ _ 1 h3 rfl
  exact @Reachable.post (byte_codec 62 9000) _ _ (example_record "d" 1 4) false true 0 h4 rfl

/-- C11 at a concrete state: four references taken, two released, two jobs queued. -/
theorem references_balance_witness :
    ref_count reached_sched.effects
        = unref_count reached_sched.effects + reached_sched.jobs.length
      ∧ ∀ r, reached_sched.effects.count (Effect.record_ref r)
          = reached_sched.effects.count (Effect.record_unref r)
            + (queue_records reached_sched).count r :=
  references_balance (byte_codec 62 9000) reached_sched reached_sched_reachable

/-! ## C12 -/

theorem registered_from_append (reg : List Nat) (a b : List Effect) :
    registered_from reg (a ++ b) = registered_from (registered_from reg a) b := by
  simp [registered_from, List.foldl_append]

theorem registered_from_clear_effects (jobs : List AvahiProbeJob) :
    ∀ reg, registered_from reg (clear_effects jobs) = (job_handles jobs).foldl List.erase reg := by
  induction jobs with
  | nil => intro reg; rfl
  | cons pj rest ih =>
    intro reg
    simp only [clear_effects, registered_from_append, ih]
    cases hte : pj.time_event with
    | none => simp [job_handles, hte, job_free_effects, registered_from, register_step]
    | some e => simp [job_handles, hte, job_free_effects, registered_from, register_step]

theorem erase_all_perm (removed : List Nat) :
    ∀ (reg kept : List Nat), reg.Perm (kept ++ removed) →
      (removed.foldl List.erase reg).Perm kept := by
  induction removed with
  | nil => intro reg kept h; simpa using h
  | cons e rest ih =>
    intro reg kept h
    simp only [List.foldl_cons]
    apply ih
    have h1 : (kept ++ e :: rest).Perm (e :: (kept ++ rest)) := List.perm_middle
    have h2 := (h.trans h1).erase e
    simpa using h2

theorem job_handles_map_unmark (jobs : List AvahiProbeJob) :
    job_handles (jobs.map unmark) = job_handles jobs := by
  simp [job_handles, List.filterMap_map, Function.comp_def, unmark]

theorem job_handles_interleaved {kept removed whole : List AvahiProbeJob}
    (h : Interleaved (kept.map unmark) (removed.map unmark) (whole.map unmark)) :
    (job_handles whole).Perm (job_handles kept ++ job_handles removed)
      ∧ (job_handles kept).Sublist (job_handles whole) := by
  constructor
  · have h1 := (interleaved_perm h).filterMap (fun pj : AvahiProbeJob => pj.time_event)
    rw [List.filterMap_append] at h1
    simpa [job_handles, List.filterMap_map, Function.comp_def, unmark] using h1
  · have h1 := (interleaved_sublist h).filterMap (fun pj : AvahiProbeJob => pj.time_event)
    simpa [job_handles, List.filterMap_map, Function.comp_def, unmark] using h1

theorem held_of_sublist {kept whole : List AvahiProbeJob}
    (h : (kept.map unmark).Sublist (whole.map unmark))
    (hw : ∀ pj ∈ whole, pj.time_event.isSome = true) :
    ∀ pj ∈ kept, pj.time_event.isSome = true := by
  intro pj hpj
  have h1 : unmark pj ∈ whole.map unmark := h.subset (List.mem_map_of_mem _ hpj)
  obtain ⟨q, hq, hqe⟩ := List.mem_map.mp h1
  have h2 : (unmark q).time_event = (unmark pj).time_event :=
    congrArg AvahiProbeJob.time_event hqe
  have h3 : q.time_event = pj.time_event := h2
  rw [← h3]
  exact hw q hq

theorem timers_match_reachable {c : Codec} {s : AvahiProbeScheduler} (h : Reachable c s) :
    TimersMatch s := by
  induction h with
  | new =>
    exact ⟨fun _ hpj => (by cases hpj), List.Perm.refl _, List.nodup_nil,
      fun _ he => (by cases he)⟩
  | @post s s1 r imm b now _ hp ih =>
    obtain ⟨pj, hte, _, _, hjobs, heff, hnext⟩ := post_inv hp
    have hh : job_handles s1.jobs = s.next_time_event :: job_handles s.jobs := by
      simp [job_handles, hjobs, hte]
    refine ⟨?_, ?_, ?_, ?_⟩
    · intro q hq
      rw [hjobs] at hq
      rcases List.mem_cons.mp hq with rfl | hq
      · simp [hte]
      · exact ih.held q hq
    · rw [hh, heff]
      have : registered (s.effects ++ [Effect.record_ref r,
          Effect.time_event_queue_add s.next_time_event pj.delivery])
          = s.next_time_event :: registered s.effects := by
        simp [registered, registered_from, register_step, List.foldl_append]
      rw [this]
      exact ih.same.cons _
    · rw [hh]
      refine List.nodup_cons.mpr ⟨fun hmem => ?_, ih.distinct⟩
      exact absurd (ih.fresh _ hmem) (Nat.lt_irrefl _)
    · intro e he
      rw [hh] at he
      rw [hnext]
      rcases List.mem_cons.mp he with rfl | he
      · exact Nat.lt_succ_self _
      · exact Nat.lt_succ_of_lt (ih.fresh e he)
  | @clear s s1 fuel _ hc ih =>
    have hs1 := clear_inv fuel s s1 hc
    subst hs1
    refine ⟨fun _ hpj => (by cases hpj), ?_, List.nodup_nil, fun _ he => (by cases he)⟩
    have : registered (s.effects ++ clear_effects s.jobs)
        = (job_handles s.jobs).foldl List.erase (registered s.effects) := by
      simp only [registered, registered_from_append, registered_from_clear_effects]
    rw [this]
    exact erase_all_perm _ _ [] (by simpa using ih.same)
  | @elapse s s1 i _ he ih =>
    obtain ⟨removed, mid, tail, hint, heff, hmid, htail, hnext⟩ := elapse_callback_outcome he
    obtain ⟨_, _, _, m4⟩ := report_counts mid hmid
    obtain ⟨_, _, _, t4⟩ := report_counts tail htail
    obtain ⟨hperm, hsub⟩ := job_handles_interleaved hint
    refine ⟨held_of_sublist (interleaved_sublist hint) ih.held, ?_, ih.distinct.sublist hsub,
      fun e hmem => ?_⟩
    · have : registered s1.effects
          = (job_handles removed).foldl List.erase (registered s.effects) := by
        rw [heff]
        simp only [registered, registered_from_append, registered_from_clear_effects, m4, t4]
      rw [this]
      exact erase_all_perm _ _ _ (ih.same.trans hperm)
    · rw [hnext]
      exact ih.fresh e (hsub.subset hmem)

theorem scheduled_reachable {c : Codec} {s : AvahiProbeScheduler} {q : TimeQueue}
    (h : Scheduled c s q) : Reachable c s := by
  induction h with
  | new => exact Reachable.new
  | post _ hp ih => exact Reachable.post ih hp
  | clear _ hc ih => exact Reachable.clear ih hc
  | fire _ _ _ _ he ih => exact Reachable.elapse ih he

theorem calls_since_append (s s1 : AvahiProbeScheduler) (calls : List Effect)
    (h : s1.effects = s.effects ++ calls) : calls_since s s1 = calls := by
  unfold calls_since
  rw [h]
  exact List.drop_left _ _

theorem filter_erase_nodup (p : Nat → Bool) (l : List Nat) (h : l.Nodup) (x : Nat) :
    (l.filter p).erase x = (l.erase x).filter p := by
  rw [(h.filter p).erase_eq_filter, h.erase_eq_filter, List.filter_filter, List.filter_filter]
  congr 1
  funext a
  exact Bool.and_comm _ _

theorem erase_all_filter (p : Nat → Bool) (hs : List Nat) :
    ∀ (reg pend : List Nat), reg.Nodup → pend.Perm (reg.filter p) →
      (hs.foldl List.erase pend).Perm ((hs.foldl List.erase reg).filter p) := by
  induction hs with
  | nil => intro reg pend _ h; simpa using h
  | cons x rest ih =>
    intro reg pend hreg h
    simp only [List.foldl_cons]
    apply ih (reg.erase x) (pend.erase x) (hreg.erase x)
    rw [← filter_erase_nodup p reg hreg x]
    exact h.erase x

theorem left_behind_scheduled :
    Scheduled (byte_codec 112 9000) left_behind_sched { pending := [], fired := [0] } := by
  have h0 : Scheduled (byte_codec 112 9000) avahi_probe_scheduler_new
      { pending := [], fired := [] } := Scheduled.new
  have h1 := @Scheduled.post (byte_codec 112 9000) _ _ _ (example_record "a" 1 38) false true 0
    h0 rfl
  have h2 := @Scheduled.post (byte_codec 112 9000) _ _ _ (example_record "a" 28 38) false true 0
    h1 rfl
  exact @Scheduled.fire (byte_codec 112 9000) _ left_behind_sched _ 1
    (example_job 0 (example_record "a" 1 38)) 0 h2 rfl rfl (by decide) rfl

theorem scheduled_unfired {c : Codec} {s : AvahiProbeScheduler} {q : TimeQueue}
    (h : Scheduled c s q) :
    q.pending.Perm ((registered s.effects).filter (fun e => decide (e ∉ q.fired)))
      ∧ ∀ e ∈ q.fired, e < s.next_time_event := by
  induction h with
  | new => exact ⟨List.Perm.refl _, fun _ he => (by cases he)⟩
  | @post s s1 q r imm b now hs hp ih =>
    obtain ⟨pj, _, _, _, _, heff, hnext⟩ := post_inv hp
    have hcalls := calls_since_append s s1 _ heff
    have hreg : registered s1.effects = s.next_time_event :: registered s.effects := by
      rw [heff]
      simp [registered, registered_from, register_step, List.foldl_append]
    have hpend : (time_queue_after q s s1).pending = s.next_time_event :: q.pending := by
      simp [time_queue_after, hcalls, registered_from, register_step]
    have hfired : (time_queue_after q s s1).fired = q.fired := rfl
    have hnot : s.next_time_event ∉ q.fired := fun hmem => Nat.lt_irrefl _ (ih.2 _ hmem)
    refine ⟨?_, fun e he => ?_⟩
    · rw [hpend, hreg, hfired, List.filter_cons_of_pos (by simpa using hnot)]
      exact ih.1.cons _
    · rw [hnext]
      exact Nat.lt_succ_of_lt (ih.2 e he)
  | @clear s s1 q fuel hs hc ih =>
    have hm := timers_match_reachable (scheduled_reachable hs)
    have hnodup : (registered s.effects).Nodup := hm.same.nodup_iff.mpr hm.distinct
    have hs1 := clear_inv fuel s s1 hc
    have heff : s1.effects = s.effects ++ clear_effects s.jobs := by rw [hs1]
    have hnext : s1.next_time_event = s.next_time_event := by rw [hs1]
    have hcalls := calls_since_append s s1 _ heff
    have hreg : registered s1.effects
        = (job_handles s.jobs).foldl List.erase (registered s.effects) := by
      rw [heff]
      simp only [registered, registered_from_append, registered_from_clear_effects]
    have hpend : (time_queue_after q s s1).pending
        = (job_handles s.jobs).foldl List.erase q.pending := by
      simp only [time_queue_after, hcalls, registered_from_clear_effects]
    have hfired : (time_queue_after q s s1).fired = q.fired := rfl
    refine ⟨?_, fun e he => ?_⟩
    · rw [hpend, hreg, hfired]
      exact erase_all_filter _ _ _ _ hnodup ih.1
    · rw [hnext]
      exact ih.2 e he
  | @fire s s1 q i pj e hs hi hte hmem he ih =>
    have hm := timers_match_reachable (scheduled_reachable hs)
    have hnodup : (registered s.effects).Nodup := hm.same.nodup_iff.mpr hm.distinct
    obtain ⟨removed, mid, tail, _, heff, hmid, htail, hnext⟩ := elapse_callback_outcome he
    obtain ⟨_, _, _, m4⟩ := report_counts mid hmid
    obtain ⟨_, _, _, t4⟩ := report_counts tail htail
    have heff1 : s1.effects = s.effects ++ (mid ++ clear_effects removed ++ tail) := by
      rw [heff]
      simp only [List.append_assoc]
    have hcalls := calls_since_append s s1 _ heff1
    have hreg : registered s1.effects
        = (job_handles removed).foldl List.erase (registered s.effects) := by
      rw [heff]
      simp only [registered, registered_from_append, registered_from_clear_effects, m4, t4]
    have hpend : (time_queue_after (time_queue_fire q e) s s1).pending
        = (job_handles removed).foldl List.erase (q.pending.erase e) := by
      simp only [time_queue_after, time_queue_fire, hcalls, registered_from_append,
        registered_from_clear_effects, m4, t4]
    have hfired : (time_queue_after (time_queue_fire q e) s s1).fired = e :: q.fired := rfl
    have hin : e ∈ registered s.effects := (List.mem_filter.mp (ih.1.subset hmem)).1
    refine ⟨?_, fun x hx => ?_⟩
    · rw [hpend, hreg, hfired]
      apply erase_all_filter _ _ _ _ hnodup
      have h1 := ih.1.erase e
      rw [filter_erase_nodup _ _ hnodup, hnodup.erase_eq_filter, List.filter_filter] at h1
      have h2 : (registered s.effects).filter (fun a => decide (a ∉ q.fired) && (a != e))
          = (registered s.effects).filter (fun a => decide (a ∉ e :: q.fired)) := by
        apply List.filter_congr
        intro a _
        by_cases hae : a = e
        · simp [hae]
        · simp [hae]
      rw [h2] at h1
      exact h1
    · rw [hnext]
      rw [hfired] at hx
      rcases List.mem_cons.mp hx with rfl | hx
      · exact hm.fresh _ (hm.same.subset hin)
      · exact ih.2 x hx

/-- C12, as stated, fails: a fired one-shot timer is consumed.  For MTU 112, after two posts
of records of 50 bytes for the name "a" and the firing of the first job's timer, the seed
is left in the queue by the authority-append failure path and still carries its handle 0,
while the scheduler holds no registration in the time queue at all. -/
theorem fired_seed_counterexample :
    ∃ s q, Scheduled (byte_codec 112 9000) s q
      ∧ s.jobs = [example_job 0 (example_record "a" 1 38)]
      ∧ job_handles s.jobs = [0]
      ∧ q.pending = [] ∧ q.fired = [0] :=
  ⟨left_behind_sched, { pending := [], fired := [0] }, left_behind_scheduled, rfl, rfl, rfl, rfl⟩

/-- C12, amended: in every state reachable by post, clear and timer firings, every queued
job carries a timer handle, the handles of the queued jobs are pairwise different, and the
timer registrations the scheduler holds in the time queue are exactly the handles of the
queued jobs whose timer has not fired, one per such job.  So every registration belongs
to a job that is in the queue: whenever a job is destroyed its registration is gone, and no
callback can fire for a job that is no longer in the queue.  A job that a firing left in
the queue keeps its handle but has no registration. -/
theorem timers_match_unfired (c : Codec) (s : AvahiProbeScheduler) (q : TimeQueue)
    (h : Scheduled c s q) :
    (∀ pj ∈ s.jobs, pj.time_event.isSome = true)
      ∧ (job_handles s.jobs).Nodup
      ∧ q.pending.Nodup
      ∧ q.pending.Perm ((job_handles s.jobs).filter (fun e => decide (e ∉ q.fired)))
      ∧ ∀ e ∈ q.pending, ∃ pj ∈ s.jobs, pj.time_event = some e := by
  have hm := timers_match_reachable (scheduled_reachable h)
  have hperm : q.pending.Perm ((job_handles s.jobs).filter (fun e => decide (e ∉ q.fired))) :=
    (scheduled_unfired h).1.trans (hm.same.filter _)
  refine ⟨hm.held, hm.distinct, hperm.nodup_iff.mpr (hm.distinct.filter _), hperm, fun e he => ?_⟩
  have h1 : e ∈ job_handles s.jobs := (List.mem_filter.mp (hperm.subset he)).1
  obtain ⟨pj, hpj, hpe⟩ := List.mem_filterMap.mp h1
  exact ⟨pj, hpj, hpe⟩

/-- C12, amended, at a concrete state: after one more post the queue holds the new job with
handle 2 and the job with handle 0 whose timer has fired; only handle 2 is registered. -/
theorem timers_match_unfired_witness :
    (∀ pj ∈ left_behind_posted.jobs, pj.time_event.isSome = true)
      ∧ (job_handles left_behind_posted.jobs).Nodup
      ∧ [2].Nodup
      ∧ [2].Perm ((job_handles left_behind_posted.jobs).filter (fun e => decide (e ∉ [0])))
      ∧ ∀ e ∈ [2], ∃ pj ∈ left_behind_posted.jobs, pj.time_event = some e :=
  timers_match_unfired (byte_codec 112 9000) left_behind_posted { pending := [2], fired := [0] }
    (@Scheduled.post (byte_codec 112 9000) left_behind_sched left_behind_posted
      { pending := [], fired := [0] } (example_record "d" 1 4) false true 0
      left_behind_scheduled rfl)

/-! ## How the chosen flags change in `packet_add_probe_query` and in the fill loop -/

theorem scan_matching_length (c : Codec) (p : AvahiDnsPacket) (k : AvahiKey)
    (jobs : List AvahiProbeJob) : (scan_matching c p k jobs).length = jobs.length := by
  have h := congrArg List.length (map_unmark_scan_matching c p k jobs)
  simpa using h

theorem scan_matching_getElem (c : Codec) (p : AvahiDnsPacket) (k : AvahiKey)
    (jobs : List AvahiProbeJob) :
    ∀ (x : Nat) (b : AvahiProbeJob), (scan_matching c p k jobs)[x]? = some b →
      ∃ a, jobs[x]? = some a
        ∧ (b = a ∨ (b = { a with chosen := true } ∧ a.chosen = false
            ∧ key_matches c k a.record = true
            ∧ c.avahi_record_get_estimate_size a.record ≤ c.avahi_dns_packet_space p)) := by
  induction jobs with
  | nil => intro x b h; simp [scan_matching] at h
  | cons a rest ih =>
    intro x b h
    by_cases hstop : stops_scan c p k a
    · rw [scan_matching_cons_stop c p k a rest hstop] at h
      exact ⟨b, h, Or.inl rfl⟩
    · rw [scan_matching_cons_mark c p k a rest hstop] at h
      cases x with
      | zero =>
        simp only [List.getElem?_cons_zero, Option.some.injEq] at h
        refine ⟨a, List.getElem?_cons_zero, ?_⟩
        unfold mark_matching at h
        split at h
        · rename_i hm
          refine Or.inr ⟨h.symm, hm.1, hm.2, ?_⟩
          by_contra hlt
          exact hstop ⟨hm.1, hm.2, Nat.lt_of_not_le hlt⟩
        · exact Or.inl h.symm
      | succ x =>
        simp only [List.getElem?_cons_succ] at h
        obtain ⟨a1, h1, h2⟩ := ih x b h
        exact ⟨a1, by simpa using h1, h2⟩

theorem scan_matching_blocked (c : Codec) (p : AvahiDnsPacket) (k : AvahiKey)
    (jobs : List AvahiProbeJob) :
    ∀ (x : Nat) (u : AvahiProbeJob), (scan_matching c p k jobs)[x]? = some u →
      u.chosen = false → key_matches c k u.record = true →
      ∃ y B, y ≤ x ∧ (scan_matching c p k jobs)[y]? = some B ∧ B.chosen = false
        ∧ c.avahi_dns_packet_space p < c.avahi_record_get_estimate_size B.record := by
  induction jobs with
  | nil => intro x u h; simp [scan_matching] at h
  | cons a rest ih =>
    intro x u h hu hm
    by_cases hstop : stops_scan c p k a
    · rw [scan_matching_cons_stop c p k a rest hstop]
      exact ⟨0, a, Nat.zero_le _, List.getElem?_cons_zero, hstop.1, hstop.2.2⟩
    · rw [scan_matching_cons_mark c p k a rest hstop] at h ⊢
      cases x with
      | zero =>
        exfalso
        simp only [List.getElem?_cons_zero, Option.some.injEq] at h
        subst h
        unfold mark_matching at hu hm
        split at hu
        · cases hu
        · rename_i hn
          split at hm
          · rename_i hy
            exact hn hy
          · exact hn ⟨hu, hm⟩
      | succ x =>
        simp only [List.getElem?_cons_succ] at h
        obtain ⟨y, B, hy, hB, hBc, hBs⟩ := ih x u h hu hm
        exact ⟨y + 1, B, Nat.succ_le_succ hy, by simpa using hB, hBc, hBs⟩

theorem packet_add_probe_query_getElem {c : Codec} {s s1 : AvahiProbeScheduler}
    {p p1 : AvahiDnsPacket} {i : Nat} {pj : AvahiProbeJob} (hi : s.jobs[i]? = some pj)
    (h : packet_add_probe_query c s p i = .ok (s1, p1, true)) :
    ∀ (x : Nat) (b : AvahiProbeJob), s1.jobs[x]? = some b →
      ∃ a, s.jobs[x]? = some a
        ∧ (b = a ∨ (b = { a with chosen := true } ∧ a.chosen = false
            ∧ (x = i ∨ (key_matches c (probe_key c pj.record) a.record = true
              ∧ c.avahi_record_get_estimate_size a.record ≤ c.avahi_dns_packet_space p1)))) := by
  intro x b hb
  obtain ⟨pj1, hi1, hch, _, _, hs1⟩ := packet_add_probe_query_true h
  rw [hi] at hi1
  cases hi1
  subst hs1
  obtain ⟨a1, ha1, hcases⟩ := scan_matching_getElem c p1 _ _ x b hb
  by_cases hx : i = x
  · subst hx
    have hlt := getElem?_lt_length hi
    rw [List.getElem?_set] at ha1
    simp only [if_true, hlt] at ha1
    cases ha1
    refine ⟨pj, hi, ?_⟩
    rcases hcases with h1 | ⟨_, h2, _⟩
    · exact Or.inr ⟨h1, hch, Or.inl rfl⟩
    · cases h2
  · rw [List.getElem?_set_ne hx] at ha1
    refine ⟨a1, ha1, ?_⟩
    rcases hcases with h1 | ⟨h1, h2, h3, h4⟩
    · exact Or.inl h1
    · exact Or.inr ⟨h1, h2, Or.inr ⟨h3, h4⟩⟩

theorem packet_add_probe_query_seed_chosen {c : Codec} {s s1 : AvahiProbeScheduler}
    {p p1 : AvahiDnsPacket} {i : Nat}
    (h : packet_add_probe_query c s p i = .ok (s1, p1, true)) :
    ∃ b, s1.jobs[i]? = some b ∧ b.chosen = true := by
  obtain ⟨pj, hi, hch, _, _, _⟩ := packet_add_probe_query_true h
  have hlen := packet_add_probe_query_length h
  have hlt := getElem?_lt_length hi
  have hlt1 : i < s1.jobs.length := by omega
  refine ⟨s1.jobs[i], List.getElem?_eq_getElem hlt1, ?_⟩
  obtain ⟨a, ha, hcases⟩ :=
    packet_add_probe_query_getElem hi h i _ (List.getElem?_eq_getElem hlt1)
  rw [hi] at ha
  cases ha
  rcases hcases with h1 | ⟨h1, _, _⟩
  · exfalso
    obtain ⟨pj1, hi1, _, _, _, hs1⟩ := packet_add_probe_query_true h
    rw [hi] at hi1
    cases hi1
    have hget : s1.jobs[i]? = some pj := by rw [List.getElem?_eq_getElem hlt1, h1]
    subst hs1
    obtain ⟨a1, ha1, hc1⟩ := scan_matching_getElem c p1 _ _ i pj hget
    rw [List.getElem?_set] at ha1
    simp only [if_true, hlt] at ha1
    cases ha1
    rcases hc1 with h2 | ⟨_, h3, _⟩
    · have := congrArg AvahiProbeJob.chosen h2
      simp [hch] at this
    · cases h3
  · rw [h1]

theorem grown_refl (l : List AvahiProbeJob) : Grown l l :=
  ⟨rfl, fun _ b hb => ⟨b, hb, rfl, fun h => h⟩⟩

theorem grown_forward {l l1 : List AvahiProbeJob} (h : Grown l l1) {x : Nat}
    {a : AvahiProbeJob} (ha : l[x]? = some a) :
    ∃ b, l1[x]? = some b ∧ unmark a = unmark b ∧ (a.chosen = true → b.chosen = true) := by
  have hlt : x < l1.length := by
    rw [h.1]
    exact getElem?_lt_length ha
  obtain ⟨a1, ha1, hu, hc⟩ := h.2 x _ (List.getElem?_eq_getElem hlt)
  rw [ha] at ha1
  cases ha1
  exact ⟨_, List.getElem?_eq_getElem hlt, hu, hc⟩

theorem packet_add_probe_query_grown {c : Codec} {s s1 : AvahiProbeScheduler}
    {p p1 : AvahiDnsPacket} {i : Nat} {b : Bool}
    (h : packet_add_probe_query c s p i = .ok (s1, p1, b)) : Grown s.jobs s1.jobs := by
  cases b with
  | false =>
    obtain ⟨hs, _⟩ := packet_add_probe_query_false h
    rw [hs]
    exact grown_refl _
  | true =>
    obtain ⟨pj, hi, _, _, _, _⟩ := packet_add_probe_query_true h
    refine ⟨packet_add_probe_query_length h, fun x q hq => ?_⟩
    obtain ⟨a, ha, hcases⟩ := packet_add_probe_query_getElem hi h x q hq
    refine ⟨a, ha, ?_, ?_⟩
    · rcases hcases with h1 | ⟨h1, _, _⟩
      · rw [h1]
      · rw [h1]
        rfl
    · intro hch
      rcases hcases with h1 | ⟨h1, _, _⟩
      · rw [h1]
        exact hch
      · rw [h1]

theorem packet_add_probe_query_covered {c : Codec} {s s1 : AvahiProbeScheduler}
    {p p1 : AvahiDnsPacket} {i : Nat} {b : Bool} (hcov : Covered c s.jobs p)
    (h : packet_add_probe_query c s p i = .ok (s1, p1, b)) : Covered c s1.jobs p1 := by
  cases b with
  | false =>
    obtain ⟨hs, hp⟩ := packet_add_probe_query_false h
    rw [hs, hp]
    exact hcov
  | true =>
    obtain ⟨pj, hi, _, _, hk, _⟩ := packet_add_probe_query_true h
    have hq : p1.questions = p.questions ++ [probe_key c pj.record] := by
      rw [append_key_some hk]
    intro q hq1 hqc
    obtain ⟨x, hx⟩ := List.mem_iff_getElem?.mp hq1
    obtain ⟨a, ha, hcases⟩ := packet_add_probe_query_getElem hi h x q hx
    rcases hcases with h1 | ⟨h1, _, h3⟩
    · subst h1
      obtain ⟨k, hk1, hk2⟩ := hcov q (List.mem_iff_getElem?.mpr ⟨x, ha⟩) hqc
      exact ⟨k, by rw [hq]; exact List.mem_append_left _ hk1, hk2⟩
    · refine ⟨probe_key c pj.record, by rw [hq]; simp, ?_⟩
      rw [h1]
      rcases h3 with rfl | ⟨hm, _⟩
      · rw [hi] at ha
        cases ha
        exact ⟨rfl, Or.inl rfl⟩
      · unfold key_matches at hm
        simp only [Bool.and_eq_true, decide_eq_true_eq] at hm
        exact ⟨hm.1, Or.inr hm.2⟩

theorem fill_loop_covered (c : Codec) (todo : Nat) :
    ∀ (i : Nat) (s : AvahiProbeScheduler) (p : AvahiDnsPacket) (n : Nat)
      (s1 : AvahiProbeScheduler) (p1 : AvahiDnsPacket) (n1 : Nat),
      Covered c s.jobs p → fill_loop c todo i s p n = .ok (s1, p1, n1) →
      Covered c s1.jobs p1 := by
  induction todo with
  | zero =>
    intro i s p n s1 p1 n1 hcov h
    simp only [fill_loop] at h
    cases h
    exact hcov
  | succ todo ih =>
    intro i s p n s1 p1 n1 hcov h
    simp only [fill_loop] at h
    split at h
    · cases h
      exact hcov
    · split at h
      · exact ih _ _ _ _ _ _ _ hcov h
      · split at h
        · cases h
        · rename_i sa pa hadd
          cases h
          exact packet_add_probe_query_covered hcov hadd
        · rename_i sa pa hadd
          exact ih _ _ _ _ _ _ _ (packet_add_probe_query_covered hcov hadd) h

theorem elapse_large_sent (c : Codec) (s : AvahiProbeScheduler) {i : Nat} {pj : AvahiProbeJob}
    (hi : s.jobs[i]? = some pj) :
    ∃ sent, sent_packets (elapse_large c s i pj).effects = sent_packets s.effects ++ sent
      ∧ sent.length ≤ 1
      ∧ ∀ p ∈ sent, p.questions = [probe_key c pj.record] ∧ p.authority = [pj.record] := by
  unfold elapse_large
  dsimp only
  split
  · rename_i p2 hb
    refine ⟨[avahi_dns_packet_set_field (avahi_dns_packet_set_field p2 .NSCOUNT 1) .QDCOUNT 1],
      ?_, Nat.le_refl _, fun p hp => ?_⟩
    · rw [job_free_at (s := { s with effects := s.effects ++ [_] }) hi]
      simp [sent_packets_append, sent_packets, sent_packets_job_free_effects]
    · simp only [List.mem_singleton] at hp
      subst hp
      split at hb
      · cases hb
      · rename_i p1 hk
        rw [append_record_some hb, append_key_some hk]
        exact ⟨rfl, rfl⟩
  · refine ⟨[], ?_, Nat.zero_le _, fun p hp => by cases hp⟩
    rw [job_free_at (s := { s with effects := s.effects ++ [_] }) hi]
    simp [sent_packets_append, sent_packets, sent_packets_job_free_effects]

/-- C20: for every run of `elapse_callback` from a state between operations, whichever path
it takes, at most one packet is sent, and every record in its authority section has a
question in its question section with the same class and an equal name (the name itself,
or a name accepted by `avahi_domain_equal`): a job is marked chosen only when a question
for its name and class has just been appended. -/
theorem authority_records_have_questions (c : Codec) (s s1 : AvahiProbeScheduler) (i : Nat)
    (hall : AllUnchosen s) (he : elapse_callback c s i = .ok s1) :
    ∃ sent, sent_packets s1.effects = sent_packets s.effects ++ sent
      ∧ sent.length ≤ 1
      ∧ ∀ p ∈ sent, ∀ r ∈ p.authority, ∃ k ∈ p.questions, covers c k r := by
  rcases elapse_callback_cases he with ⟨pj, hi, _, _, hs1⟩
    | ⟨pj, sa, pa, s2, p2, n, _, _, _, hadd, hfill, hs1⟩
  · obtain ⟨sent, h1, h2, h3⟩ := elapse_large_sent c s hi
    refine ⟨sent, by rw [hs1]; exact h1, h2, fun p hp r hr => ?_⟩
    obtain ⟨hq, ha⟩ := h3 p hp
    rw [ha] at hr
    simp only [List.mem_singleton] at hr
    subst hr
    exact ⟨probe_key c pj.record, by rw [hq]; simp, rfl, Or.inl rfl⟩
  · have hcov0 : Covered c s.jobs (avahi_dns_packet_new_query c.mtu) := by
      intro q hq hqc
      rw [hall q hq] at hqc
      cases hqc
    have hcov2 := fill_loop_covered c _ _ _ _ _ _ _ _
      (packet_add_probe_query_covered hcov0 hadd) hfill
    obtain ⟨_, _, _, _, hk, _⟩ := packet_add_probe_query_true hadd
    have hpa : pa.authority = [] := by
      rw [append_key_some hk]
      rfl
    obtain ⟨hp2, _, _⟩ := fill_loop_packet c _ _ _ _ _ _ _ _ hfill
    obtain ⟨_, h2e, _⟩ := fill_loop_jobs c _ _ _ _ _ _ _ _ hfill
    obtain ⟨_, hae, _⟩ := packet_add_probe_query_jobs hadd
    refine ⟨[avahi_dns_packet_set_field
      (authority_pass c s2.jobs (avahi_dns_packet_set_field p2 .QDCOUNT n)).packet .NSCOUNT
      (guint_count 0
        (authority_pass c s2.jobs (avahi_dns_packet_set_field p2 .QDCOUNT n)).removed.length)],
      ?_, Nat.le_refl _, fun p hp r hr => ?_⟩
    · rw [hs1, finish_authority]
      simp only [sent_packets_append, sent_packets_clear_effects,
        sent_packets_estimate_warning, sent_packets, h2e, hae, List.append_nil]
    · simp only [List.mem_singleton] at hp
      subst hp
      rw [authority_pass_packet] at hr ⊢
      have hr1 : r ∈ (authority_pass c s2.jobs
          (avahi_dns_packet_set_field p2 .QDCOUNT n)).removed.map (fun pj => pj.record) := by
        have hp2a : p2.authority = [] := by rw [hp2]; exact hpa
        simpa [avahi_dns_packet_set_field, hp2a] using hr
      obtain ⟨q, hq, rfl⟩ := List.mem_map.mp hr1
      obtain ⟨hq1, hq2⟩ := authority_pass_removed_chosen c s2.jobs _ q hq
      obtain ⟨k, hk1, hk2⟩ := hcov2 q hq1 hq2
      exact ⟨k, by simpa [avahi_dns_packet_set_field] using hk1, hk2⟩

/-- C20 at a concrete run: two jobs for the name "a" sent in one packet. -/
theorem authority_records_have_questions_witness :
    ∃ s1 sent, elapse_callback (byte_codec 1500 9000) same_name_sched 0 = .ok s1
      ∧ sent_packets s1.effects = sent_packets same_name_sched.effects ++ sent
      ∧ sent.length ≤ 1
      ∧ ∀ p ∈ sent, ∀ r ∈ p.authority,
          ∃ k ∈ p.questions, covers (byte_codec 1500 9000) k r := by
  obtain ⟨sent, h1, h2, h3⟩ := authority_records_have_questions (byte_codec 1500 9000)
    same_name_sched _ 0 same_name_sched_unchosen rfl
  exact ⟨_, sent, rfl, h1, h2, h3⟩

/-! ## C19 -/

theorem no_overflow_grown {c : Codec} {l l1 : List AvahiProbeJob} (hg : Grown l l1)
    (h : NoOverflow c l) : NoOverflow c l1 := by
  intro q hq
  obtain ⟨x, hx⟩ := List.mem_iff_getElem?.mp hq
  obtain ⟨a, ha, hu, _⟩ := hg.2 x q hx
  have hr0 : (unmark a).record = (unmark q).record := congrArg AvahiProbeJob.record hu
  have hr : a.record = q.record := hr0
  rw [← hr]
  exact h a (List.mem_iff_getElem?.mpr ⟨x, ha⟩)

theorem stuck_not_asked {c : Codec} {p : AvahiDnsPacket} {pj : AvahiProbeJob}
    (hno : c.avahi_key_get_estimate_size pj.record.key
      + c.avahi_record_get_estimate_size pj.record < 4294967296)
    (hstuck : c.avahi_dns_packet_space p < c.avahi_record_get_estimate_size pj.record) :
    c.avahi_dns_packet_space p < probe_estimate c pj.record := by
  unfold probe_estimate guint
  rw [Nat.mod_eq_of_lt hno]
  omega

theorem add_keeps_blocked {c : Codec} {s s1 : AvahiProbeScheduler} {p p1 : AvahiDnsPacket}
    {i : Nat} {pj : AvahiProbeJob}
    (hspace : ∀ (p : AvahiDnsPacket) (k : AvahiKey),
      c.avahi_dns_packet_space { p with questions := p.questions ++ [k] }
        ≤ c.avahi_dns_packet_space p)
    (hno : NoOverflow c s.jobs) (hi : s.jobs[i]? = some pj)
    (hadd : packet_add_probe_query c s p i = .ok (s1, p1, true))
    (hpair : p.questions.Pairwise (fun k1 k2 => ¬ same_question c k1 k2))
    (hblk : ∀ k ∈ p.questions, Blocked c s.jobs p k)
    (hnew : ∀ k ∈ p.questions, ¬ same_question c k (probe_key c pj.record)) :
    p1.questions.Pairwise (fun k1 k2 => ¬ same_question c k1 k2)
      ∧ ∀ k ∈ p1.questions, Blocked c s1.jobs p1 k := by
  obtain ⟨pj1, hi1, _, hfit, hk, hs1⟩ := packet_add_probe_query_true hadd
  rw [hi] at hi1
  cases hi1
  have hp1 := append_key_some hk
  have hq : p1.questions = p.questions ++ [probe_key c pj.record] := by rw [hp1]
  have hsp : c.avahi_dns_packet_space p1 ≤ c.avahi_dns_packet_space p := by
    rw [hp1]
    exact hspace p _
  have hg := packet_add_probe_query_grown hadd
  constructor
  · rw [hq, List.pairwise_append]
    refine ⟨hpair, List.pairwise_singleton _ _, fun a ha b hb => ?_⟩
    simp only [List.mem_singleton] at hb
    subst hb
    exact hnew a ha
  · intro k hk1
    rw [hq] at hk1
    rcases List.mem_append.mp hk1 with hold | hnewk
    · intro x u hu huc hm
      obtain ⟨a, ha, hcases⟩ := packet_add_probe_query_getElem hi hadd x u hu
      have hua : u = a := by
        rcases hcases with h1 | ⟨h1, _, _⟩
        · exact h1
        · rw [h1] at huc
          cases huc
      subst hua
      obtain ⟨y, B, hy, hB, hBc, hBs⟩ := hblk k hold x u ha huc hm
      obtain ⟨B1, hB1, _, _⟩ := grown_forward hg hB
      obtain ⟨a1, ha1, hc1⟩ := packet_add_probe_query_getElem hi hadd y B1 hB1
      rw [hB] at ha1
      cases ha1
      have hBB : B1 = B := by
        rcases hc1 with h1 | ⟨_, _, h3⟩
        · exact h1
        · exfalso
          rcases h3 with rfl | ⟨_, hle⟩
          · rw [hi] at hB
            cases hB
            have hlt := stuck_not_asked
              (hno pj (List.mem_iff_getElem?.mpr ⟨_, hi⟩)) hBs
            omega
          · omega
      subst hBB
      exact ⟨y, B1, hy, hB1, hBc, Nat.lt_of_le_of_lt hsp hBs⟩
    · simp only [List.mem_singleton] at hnewk
      subst hnewk
      rw [hs1]
      exact scan_matching_blocked c p1 _ _

theorem fill_loop_questions_differ (c : Codec)
    (hspace : ∀ (p : AvahiDnsPacket) (k : AvahiKey),
      c.avahi_dns_packet_space { p with questions := p.questions ++ [k] }
        ≤ c.avahi_dns_packet_space p) (todo : Nat) :
    ∀ (i : Nat) (s : AvahiProbeScheduler) (p : AvahiDnsPacket) (n : Nat)
      (s1 : AvahiProbeScheduler) (p1 : AvahiDnsPacket) (n1 : Nat),
      NoOverflow c s.jobs →
      (∀ x q, x < i → s.jobs[x]? = some q → q.chosen = true) →
      p.questions.Pairwise (fun k1 k2 => ¬ same_question c k1 k2) →
      (∀ k ∈ p.questions, Blocked c s.jobs p k) →
      fill_loop c todo i s p n = .ok (s1, p1, n1) →
      p1.questions.Pairwise (fun k1 k2 => ¬ same_question c k1 k2) := by
  induction todo with
  | zero =>
    intro i s p n s1 p1 n1 _ _ hpair _ h
    simp only [fill_loop] at h
    cases h
    exact hpair
  | succ todo ih =>
    intro i s p n s1 p1 n1 hno hbefore hpair hblk h
    simp only [fill_loop] at h
    split at h
    · cases h
      exact hpair
    · rename_i pj hi
      split at h
      · rename_i hch
        refine ih _ _ _ _ _ _ _ hno (fun x q hx hq => ?_) hpair hblk h
        rcases Nat.lt_succ_iff_lt_or_eq.mp hx with hlt | rfl
        · exact hbefore x q hlt hq
        · rw [hi] at hq
          cases hq
          exact hch
      · rename_i hch
        have hch1 : pj.chosen = false := by simpa using hch
        split at h
        · cases h
        · rename_i sa pa hadd
          cases h
          obtain ⟨_, hp⟩ := packet_add_probe_query_false hadd
          rw [hp]
          exact hpair
        · rename_i sa pa hadd
          obtain ⟨pj1, hi1, _, hfit, _, _⟩ := packet_add_probe_query_true hadd
          rw [hi] at hi1
          cases hi1
          have hg := packet_add_probe_query_grown hadd
          have hnew : ∀ k ∈ p.questions, ¬ same_question c k (probe_key c pj.record) := by
            intro k hk hsame
            have hm : key_matches c k pj.record = true := by
              unfold key_matches
              simp only [Bool.and_eq_true, decide_eq_true_eq]
              exact hsame
            obtain ⟨y, B, hy, hB, hBc, hBs⟩ := hblk k hk i pj hi hch1 hm
            rcases Nat.eq_or_lt_of_le hy with rfl | hlt
            · rw [hi] at hB
              cases hB
              have := stuck_not_asked (hno pj (List.mem_iff_getElem?.mpr ⟨_, hi⟩)) hBs
              omega
            · rw [hbefore y B hlt hB] at hBc
              cases hBc
          obtain ⟨hpair1, hblk1⟩ := add_keeps_blocked hspace hno hi hadd hpair hblk hnew
          refine ih _ _ _ _ _ _ _ (no_overflow_grown hg hno) (fun x q hx hq => ?_)
            hpair1 hblk1 h
          rcases Nat.lt_succ_iff_lt_or_eq.mp hx with hlt | rfl
          · obtain ⟨a, ha, _, hac⟩ := hg.2 x q hq
            exact hac (hbefore x a hlt ha)
          · obtain ⟨b, hb, hbc⟩ := packet_add_probe_query_seed_chosen hadd
            rw [hb] at hq
            cases hq
            exact hbc

theorem byte_codec_space_shrinks (mtu max_size : Nat) (p : AvahiDnsPacket) (k : AvahiKey) :
    (byte_codec mtu max_size).avahi_dns_packet_space { p with questions := p.questions ++ [k] }
      ≤ (byte_codec mtu max_size).avahi_dns_packet_space p := by
  rw [(byte_codec_not_optimistic mtu max_size).key_consumes p k]
  exact Nat.sub_le _ _

theorem byte_codec_names_equivalence (mtu max_size : Nat) :
    Equivalence (fun a b => (byte_codec mtu max_size).avahi_domain_equal a b = true) where
  refl := fun a => by simp [byte_codec]
  symm := fun {a b} h => by
    have hab : a = b := by simpa [byte_codec] using h
    simp [byte_codec, hab]
  trans := fun {a b d} h1 h2 => by
    have hab : a = b := by simpa [byte_codec] using h1
    have hbd : b = d := by simpa [byte_codec] using h2
    simp [byte_codec, hab, hbd]

/-- C19, as stated, fails: the space left in a packet of `wrapping_codec` never increases
when a question or a record is appended, and its name equality is an equivalence relation.
The seed "a" fits the MTU-sized packet; the same-key pass stops at the second job "a",
whose record estimate 4294967295 exceeds the space left; in the fill loop the `guint` sum of
line 122 for that job wraps around to 5, the test of line 127 passes, and the question for
name "a", class 1 is appended a second time. -/
theorem duplicate_question_counterexample :
    (∀ (p : AvahiDnsPacket) (k : AvahiKey),
        (wrapping_codec 1500 9000).avahi_dns_packet_space
            { p with questions := p.questions ++ [k] }
          ≤ (wrapping_codec 1500 9000).avahi_dns_packet_space p)
    ∧ (∀ (p : AvahiDnsPacket) (r : AvahiRecord),
        (wrapping_codec 1500 9000).avahi_dns_packet_space
            { p with authority := p.authority ++ [r] }
          ≤ (wrapping_codec 1500 9000).avahi_dns_packet_space p)
    ∧ Equivalence (fun a b => (wrapping_codec 1500 9000).avahi_domain_equal a b = true)
    ∧ probe_estimate (wrapping_codec 1500 9000) (example_record "a" 1 4)
        ≤ (wrapping_codec 1500 9000).avahi_dns_packet_space
            (avahi_dns_packet_new_query (wrapping_codec 1500 9000).mtu)
    ∧ ∃ s1 p, elapse_callback (wrapping_codec 1500 9000) wrapping_sched 0 = .ok s1
        ∧ sent_packets s1.effects = [p]
        ∧ p.questions = [avahi_key_new "a" 1 255, avahi_key_new "a" 1 255]
        ∧ p.qdcount = 2 := by
  refine ⟨fun p k => byte_codec_space_shrinks 1500 9000 p k, fun p r => ?_,
    byte_codec_names_equivalence 1500 9000, by decide, _, _, rfl, rfl, rfl, rfl⟩
  have h := (byte_codec_not_optimistic 1500 9000).record_consumes p r
  exact h ▸ Nat.sub_le _ _

/-- C19, amended: in the normal path (the unchosen seed fits the MTU-sized packet), provided
the remaining space of a packet never increases when a question is appended, name equality
(`avahi_domain_equal`) is an equivalence relation, and, in addition, for no queued record
the sum of key estimate and record estimate reaches 2^32 (so that the `guint` sum of line
122 does not wrap around): a run of `elapse_callback` that returns (as it does whenever
questions that fit can be appended) sends exactly one packet, and no two of its questions
have the same class and equal names. -/
theorem questions_pairwise_different (c : Codec) (s : AvahiProbeScheduler) (i : Nat)
    (pj : AvahiProbeJob) (hi : s.jobs[i]? = some pj) (hch : pj.chosen = false)
    (hfit : probe_estimate c pj.record
      ≤ c.avahi_dns_packet_space (avahi_dns_packet_new_query c.mtu))
    (hspace : ∀ (p : AvahiDnsPacket) (k : AvahiKey),
      c.avahi_dns_packet_space { p with questions := p.questions ++ [k] }
        ≤ c.avahi_dns_packet_space p)
    (hequiv : Equivalence (fun a b => c.avahi_domain_equal a b = true))
    (hno : NoOverflow c s.jobs) :
    (QuestionsFit c → ∃ s1, elapse_callback c s i = .ok s1)
      ∧ ∀ s1, elapse_callback c s i = .ok s1 →
          ∃ p, sent_packets s1.effects = sent_packets s.effects ++ [p]
            ∧ p.questions.Pairwise
                (fun k1 k2 => ¬ same_question c k1 k2 ∧ ¬ same_question c k2 k1) := by
  refine ⟨fun hq => elapse_callback_returns hq s hi hch, fun s1 he => ?_⟩
  rcases elapse_callback_cases he with ⟨pj1, hi1, _, hbig, _⟩
    | ⟨pj1, sa, pa, s2, p2, n, hi1, _, _, hadd, hfill, hs1⟩
  · rw [hi] at hi1
    cases hi1
    exact absurd hfit (Nat.not_le_of_lt hbig)
  · rw [hi] at hi1
    cases hi1
    have hseed := add_keeps_blocked hspace hno hi hadd
      (show (avahi_dns_packet_new_query c.mtu).questions.Pairwise
        (fun k1 k2 => ¬ same_question c k1 k2) from List.Pairwise.nil)
      (fun k hk => by cases hk) (fun k hk => by cases hk)
    have hpair := fill_loop_questions_differ c hspace _ _ _ _ _ _ _ _
      (no_overflow_grown (packet_add_probe_query_grown hadd) hno)
      (fun x q hx _ => absurd hx (Nat.not_lt_zero x)) hseed.1 hseed.2 hfill
    obtain ⟨_, h2e, _⟩ := fill_loop_jobs c _ _ _ _ _ _ _ _ hfill
    obtain ⟨_, hae, _⟩ := packet_add_probe_query_jobs hadd
    refine ⟨avahi_dns_packet_set_field
      (authority_pass c s2.jobs (avahi_dns_packet_set_field p2 .QDCOUNT n)).packet .NSCOUNT
      (guint_count 0
        (authority_pass c s2.jobs (avahi_dns_packet_set_field p2 .QDCOUNT n)).removed.length),
      ?_, ?_⟩
    · rw [hs1, finish_authority]
      simp only [sent_packets_append, sent_packets_clear_effects,
        sent_packets_estimate_warning, sent_packets, h2e, hae, List.append_nil]
    · rw [authority_pass_packet]
      have hqs : (avahi_dns_packet_set_field
          { avahi_dns_packet_set_field p2 .QDCOUNT n with
            authority := (avahi_dns_packet_set_field p2 .QDCOUNT n).authority
              ++ (authority_pass c s2.jobs
                (avahi_dns_packet_set_field p2 .QDCOUNT n)).removed.map (fun pj => pj.record) }
          .NSCOUNT (guint_count 0 (authority_pass c s2.jobs
            (avahi_dns_packet_set_field p2 .QDCOUNT n)).removed.length)).questions
          = p2.questions := rfl
      rw [hqs]
      refine hpair.imp (fun {k1 k2} h12 => ⟨h12, fun h21 => h12 ⟨h21.1.symm, ?_⟩⟩)
      exact hequiv.symm h21.2

/-- C19, amended, at a concrete queue: two small records named "b" and "a", MTU 1500, the
job at the list head fires. -/
theorem questions_pairwise_different_witness :
    (QuestionsFit (byte_codec 1500 9000) →
        ∃ s1, elapse_callback (byte_codec 1500 9000) two_small_sched 0 = .ok s1)
      ∧ ∀ s1, elapse_callback (byte_codec 1500 9000) two_small_sched 0 = .ok s1 →
          ∃ p, sent_packets s1.effects = sent_packets two_small_sched.effects ++ [p]
            ∧ p.questions.Pairwise
                (fun k1 k2 => ¬ same_question (byte_codec 1500 9000) k1 k2
                  ∧ ¬ same_question (byte_codec 1500 9000) k2 k1) :=
  questions_pairwise_different (byte_codec 1500 9000) two_small_sched 0
    (example_job 1 (example_record "b" 1 4)) rfl rfl (by decide)
    (byte_codec_space_shrinks 1500 9000) (byte_codec_names_equivalence 1500 9000)
    (by
      intro pj hpj
      simp only [two_small_sched, List.mem_cons, List.mem_singleton, List.not_mem_nil,
        or_false] at hpj
      rcases hpj with rfl | rfl <;> decide)

end ProbeSched
